import Mathlib

/-!
Verification of the arbor-encoder markup tokenizer.

The development shallowly embeds the Go sources of the repository:
  * `tokenizer.go` — `NewTokenizer` vocabulary-id validation, `Tokenize`,
    `getPaddedPaths`;
  * the transformer (attribute-to-child-element rewriting);
  * `encoder.go` — the path-assigning stack machine `Encoder.Encode`;
  * `decoder.go` — `Tokenizer.DecodeXML`.

Modelling conventions:
  * Go `int` is modelled as `Int`.
  * Go maps `map[string]int` are association lists with unique keys;
    lookup is `vlookup`.
  * The external content tokenizer (tiktoken cl100k_base) is an opaque
    injected capability `ContentTok` with `encode : String → List Int`
    and `decodeOne : Int → String` (Go decodes content ids one at a time).
  * Well-formed markup input is represented by the rose tree `Node`;
    the XML event stream that Go's `encoding/xml` decoder produces for a
    well-formed document is `Node.events`.  Run-time panics (nil-pointer
    dereference, negative `make` length) are modelled explicitly.
-/

namespace Arbor

/-- A rose-tree node of a markup document: an element with a tag name,
an attribute list and mixed element/text children, or a text fragment.
This models both the parsed input document and the Go `Element` struct
(`Children []interface\x7b\x7d` holding `*Element` or `string`). -/
inductive Node where
  | elem (name : String) (attrs : List (String × String)) (children : List Node)
  | text (s : String)
deriving Repr

mutual

/-- Structural boolean equality for `Node` (the nested `List` makes the
automatic derivation unavailable). -/
def Node.beq : Node → Node → Bool
  | .elem n₁ a₁ c₁, .elem n₂ a₂ c₂ =>
      n₁ == n₂ && a₁ == a₂ && Node.beqList c₁ c₂
  | .text s₁, .text s₂ => s₁ == s₂
  | _, _ => false

/-- Pointwise `Node.beq` on child lists. -/
def Node.beqList : List Node → List Node → Bool
  | [], [] => true
  | x :: xs, y :: ys => Node.beq x y && Node.beqList xs ys
  | _, _ => false

end

instance : BEq Node := ⟨Node.beq⟩

/-- The reserved ordering-control attribute name (`tokenizer.go`). -/
def ArborOrderedAttribute : String := "arbor-ordered"

/-- Control-token string for the registered-attribute wrapper element. -/
def TokenRegisteredAttr : String := "<__RegisteredAttr>"

/-- Control-token string opening the unregistered-attribute bucket. -/
def TokenUnregisteredAttr : String := "<__UnregisteredAttr>"

/-- Control-token string closing the unregistered-attribute bucket. -/
def TokenUnregisteredAttrEnd : String := "</__UnregisteredAttr>"

/-- Control-token string opening an attribute key. -/
def TokenKey : String := "<__Key>"

/-- Control-token string closing an attribute key. -/
def TokenKeyEnd : String := "</__Key>"

/-- Control-token string opening an attribute value. -/
def TokenValue : String := "<__Value>"

/-- Control-token string closing an attribute value. -/
def TokenValueEnd : String := "</__Value>"

/-- Control-token string marking an explicitly empty attribute value. -/
def TokenEmpty : String := "<__Empty/>"

/-- The reserved upper bound of the content tokenizer's id space
(`Cl100kBaseMaxID` in `tokenizer.go`). -/
def Cl100kBaseMaxID : Int := 100500

/-- XML tag name used by the transformer to wrap registered attributes
(`VirtualAttrTag`). -/
def VirtualAttrTag : String := "__RegisteredAttr"

/-- Go `strings.HasPrefix`, via the character list (kernel-reducible). -/
def strHasPfx (s p : String) : Bool := p.data.isPrefixOf s.data

/-- Go `strings.HasSuffix`, via the character list. -/
def strHasSfx (s p : String) : Bool := p.data.isSuffixOf s.data

/-- Drop the first `n` characters of a string. -/
def strDrop (s : String) (n : Nat) : String := ⟨s.data.drop n⟩

/-- Drop the last `n` characters of a string. -/
def strDropRight (s : String) (n : Nat) : String := ⟨s.data.take (s.data.length - n)⟩

/-- Go `strings.TrimSpace` (ASCII whitespace), via the character list. -/
def goTrim (s : String) : String :=
  ⟨((s.data.dropWhile Char.isWhitespace).reverse.dropWhile Char.isWhitespace).reverse⟩

/-- A vocabulary: the JSON `tag string → id` table, as an association
list with unique keys (a Go `map[string]int`). -/
abbrev Vocab := List (String × Int)

/-- Vocabulary lookup, `v[tag]` on the Go map. -/
def vlookup (v : Vocab) (s : String) : Option Int :=
  (v.find? (fun p => p.1 == s)).map (fun p => p.2)

/-- Inverse vocabulary lookup (`vocabInv[id]`).  With injective ids this
is exactly the Go inverse map built in `NewTokenizer`. -/
def vinv (v : Vocab) (i : Int) : Option String :=
  (v.find? (fun p => p.2 == i)).map (fun p => p.1)

/-- The opaque external content tokenizer: subword encoding of free text
and single-id decoding.  tiktoken is injected by `NewTokenizer`. -/
structure ContentTok where
  encode : String → List Int
  decodeOne : Int → String

/-- Structured Go error values: each constructor carries exactly the data
interpolated into the corresponding `fmt.Errorf` message. -/
inductive GoError where
  /-- "token ID %d for tag %s overlaps with existing Tiktoken IDs" in `NewTokenizer`. -/
  | vocabConflict (tag : String) (id : Int)
  /-- "tag %s not found in vocab" or "token %s not found in vocab". -/
  | unknownTag (tag : String)
  /-- "attribute %s not found in vocab, and special tokens (%s) are missing for fallback". -/
  | missingFallback (attr : String) (missing : List String)
  /-- "unexpected end element %s" in the transformer. -/
  | unexpectedEndElement (tag : String)
  /-- "unexpected end token </%s>, stack empty" in the encoder. -/
  | unexpectedEndToken (tag : String)
  /-- Failure of `extractRegisteredAttrName` in the encoder. -/
  | extractError
  /-- "unexpected end tag: %s" in `DecodeXML`. -/
  | unexpectedEndTag (tag : String)
deriving Repr, DecidableEq

/-- Result of running a Go function that may also panic at run time. -/
inductive GoOutcome (α : Type) where
  | ok (a : α)
  | err (e : GoError)
  | panics
deriving Repr

/-- Paths-to-matrix padding (`getPaddedPaths` in `tokenizer.go`).
When `maxDepth = 0` the observed maximum row length is used.  A negative
`maxDepth` reaches `make([]int, maxDepth)` in the row loop, a run-time
panic, modelled as `none`; the panic only fires when the loop body runs,
i.e. when `paths` is nonempty. -/
def getPaddedPaths (paths : List (List Int)) (maxDepth : Int) (padValue : Int) :
    Option (List (List Int)) :=
  let md : Int :=
    if maxDepth = 0 then
      paths.foldl (fun acc p => if (p.length : Int) > acc then (p.length : Int) else acc) 0
    else maxDepth
  if md < 0 ∧ paths ≠ [] then none
  else
    some (paths.map (fun p =>
      (List.range md.toNat).map (fun j => if h : j < p.length then p.get ⟨j, h⟩ else padValue)))

/-- The result of a `Tokenize` call (`TokenizationResult`). -/
structure TokenizationResult where
  tokens : List Int
  paddedPaths : List (List Int)
deriving Repr

/-- A `Tokenizer` value: the vocabulary plus the injected content
tokenizer (`tiktoken.GetEncoding("cl100k_base")`). -/
structure Tokenizer where
  vocab : Vocab
  ct : ContentTok

/-- Vocabulary-id validation loop of `NewTokenizer`: the first entry with
`v < Cl100kBaseMaxID` aborts construction with `vocabConflict`. -/
def checkVocabIds : Vocab → Except GoError Unit
  | [] => .ok ()
  | (k, v) :: rest =>
      if v < Cl100kBaseMaxID then .error (.vocabConflict k v)
      else checkVocabIds rest

/-- `NewTokenizer` with the vocabulary already JSON-decoded and the
content tokenizer injected: validates the id space and packages the
tokenizer. -/
def NewTokenizer (v : Vocab) (ct : ContentTok) : Except GoError Tokenizer := do
  checkVocabIds v
  .ok ⟨v, ct⟩

/-- The six fallback control tokens required for unregistered attributes,
in the order the transformer checks them. -/
def fallbackTokens : List String :=
  [TokenUnregisteredAttr, TokenUnregisteredAttrEnd, TokenKey, TokenKeyEnd,
   TokenValue, TokenValueEnd]

/-- Transformer attribute rewriting (`processAttributeToElement`):
a registered attribute becomes a `__RegisteredAttr` wrapper with key and
value child elements (an explicit `__Empty` marker for an empty value
when the empty token is in vocabulary); an unregistered attribute becomes
an `__UnregisteredAttr` wrapper, requiring the six fallback tokens. -/
def processAttributeToElement (v : Vocab) (attr : String × String) :
    Except GoError Node :=
  let attrName := "@" ++ attr.1
  let hasEmpty := (vlookup v TokenEmpty).isSome
  if (vlookup v attrName).isSome then
    let valChildren : List Node :=
      if attr.2 = "" ∧ hasEmpty then [.elem "__Empty" [] []]
      else if attr.2 ≠ "" then [.text attr.2] else []
    .ok (.elem VirtualAttrTag []
      [.elem "__Key" [] [.text attr.1], .elem "__Value" [] valChildren])
  else
    let missing := fallbackTokens.filter (fun t => (vlookup v t).isNone)
    if missing ≠ [] then .error (.missingFallback attrName missing)
    else .ok (.elem "__UnregisteredAttr" []
      [.elem "__Key" [] [.text attr.1], .elem "__Value" [] [.text attr.2]])

/-- Transformer attribute loop: converts each non-`arbor-ordered`
attribute, in order, failing on the first conversion error. -/
def attrsToChildren (v : Vocab) : List (String × String) → Except GoError (List Node)
  | [] => .ok []
  | a :: rest =>
      match processAttributeToElement v a with
      | .error e => .error e
      | .ok n =>
          match attrsToChildren v rest with
          | .error e => .error e
          | .ok ns => .ok (n :: ns)

mutual

/-- Transformer walk on one element event group (`Transformer.Transform`,
start-element case through its matching end-element): validates the open
tag, sorts attributes by name, keeps the `arbor-ordered` attribute
verbatim, converts the remaining attributes to synthetic children, then
transforms the children and validates the close tag.  Whitespace-only
text fragments are dropped; other text is trimmed. -/
def transformElem (v : Vocab) (name : String) (attrs : List (String × String))
    (children : List Node) : Except GoError Node :=
  match vlookup v ("<" ++ name ++ ">") with
  | none => .error (.unknownTag ("<" ++ name ++ ">"))
  | some _ =>
    match attrsToChildren v
        ((attrs.mergeSort (fun a b => a.1 ≤ b.1)).filter
          (fun a => a.1 ≠ ArborOrderedAttribute)) with
    | .error e => .error e
    | .ok attrChildren =>
        match transformChildren v children with
        | .error e => .error e
        | .ok rest =>
            match vlookup v ("</" ++ name ++ ">") with
            | none => .error (.unknownTag ("</" ++ name ++ ">"))
            | some _ =>
                .ok (.elem name
                  (match (attrs.mergeSort (fun a b => a.1 ≤ b.1)).find?
                      (fun a => a.1 == ArborOrderedAttribute) with
                   | some a => [a]
                   | none => [])
                  (attrChildren ++ rest))

/-- Transformer walk over a sibling list: text is trimmed (dropped when
whitespace-only), elements are transformed recursively, in document
order. -/
def transformChildren (v : Vocab) : List Node → Except GoError (List Node)
  | [] => .ok []
  | .text s :: rest =>
      match transformChildren v rest with
      | .error e => .error e
      | .ok r => if goTrim s = "" then .ok r else .ok (.text (goTrim s) :: r)
  | .elem n a c :: rest =>
      match transformElem v n a c with
      | .error e => .error e
      | .ok e =>
          match transformChildren v rest with
          | .error er => .error er
          | .ok r => .ok (e :: r)

end

/-- Transformer on a whole event stream: a document is a list of
top-level items; top-level text is dropped (the element stack is empty),
and the returned root is the last top-level element (`root = el` is
re-assigned on every top-level open).  `none` means the stream contained
no element. -/
def transformDoc (v : Vocab) : List Node → Except GoError (Option Node)
  | [] => .ok none
  | .text _ :: rest => transformDoc v rest
  | .elem n a c :: rest =>
      match transformElem v n a c with
      | .error e => .error e
      | .ok e =>
          match transformDoc v rest with
          | .error er => .error er
          | .ok r => .ok (some (r.getD e))

/-- An event of Go's `encoding/xml` token stream, restricted to the three
kinds the pipeline handles. -/
inductive XmlEvent where
  | start (name : String) (attrs : List (String × String))
  | stop (name : String)
  | chardata (s : String)
deriving Repr, DecidableEq

mutual

/-- The event stream that parsing `Element.String()` yields for a tree:
a start tag, the children's events, the end tag; text contributes one
character-data event.  (`Element.writeTo` escapes text and attribute
values, and re-parsing unescapes them, so the round trip through the
serialized string is the identity on the strings themselves.) -/
def Node.events : Node → List XmlEvent
  | .text s => [.chardata s]
  | .elem n a cs => .start n a :: (Node.eventsList cs ++ [.stop n])

/-- Concatenated events of a sibling list. -/
def Node.eventsList : List Node → List XmlEvent
  | [] => []
  | c :: cs => Node.events c ++ Node.eventsList cs

end

/-- One entry of the encoder's stack (`stackItem` in `encoder.go`). -/
structure StackItem where
  childrenCounter : Int
  ordered : Bool
  pathIndex : Int
  isRegisteredAttr : Bool
deriving Repr, DecidableEq

/-- The current path captured from the stack (`getCurrentPath`): the
`pathIndex` of every open element from the root down.  The stack is held
with its top at the head, so the Go bottom-to-top order is the reverse. -/
def getCurrentPath (stack : List StackItem) : List Int :=
  (stack.map (fun f => f.pathIndex)).reverse

/-- The effective tag string looked up for an ordinary start element:
`"<" ++ name ++ ">"`, with `<__Empty>` re-mapped to the self-closing
`TokenEmpty` spelling. -/
def plainTag (name : String) : String :=
  let t0 := "<" ++ name ++ ">"
  if t0 == "<__Empty>" then TokenEmpty else t0

/-- Whether an ordinary start element is the attribute bucket
(`tagName == TokenUnregisteredAttr`), forcing index 0. -/
def plainIsAttr (name : String) : Bool :=
  ("<" ++ name ++ ">") == TokenUnregisteredAttr

/-- The ordered flag of an ordinary start element: attribute buckets and
`<__Value>` are always ordered; otherwise the `arbor-ordered` attribute
with value `"true"` turns ordering on. -/
def plainOrdered (name : String) (attrs : List (String × String)) : Bool :=
  let o0 := plainIsAttr name || (plainTag name == TokenValue)
  match attrs.find? (fun a => a.1 == ArborOrderedAttribute) with
  | some a => if a.2 == "true" then true else o0
  | none => o0

/-- Common open-tag bookkeeping of `Encoder.Encode` (path logic, emission
and stack push, `encoder.go` lines 395–446): look up the tag, take index
0 for attribute nodes or the parent's children counter otherwise
(incrementing it only when the parent is ordered), emit the id with
path = parent path ++ own index, and push the new stack item whose
children counter starts at 0 for attribute/`<__` tags and 1 otherwise. -/
def encOpen (v : Vocab) (tagName : String) (isOrdered isAttr isReg : Bool)
    (stack : List StackItem) (pairs : List (Int × List Int)) :
    Except GoError (List StackItem × List (Int × List Int)) :=
  match vlookup v tagName with
  | none => .error (.unknownTag tagName)
  | some id =>
    let myIndex : Int :=
      match stack with
      | [] => 0
      | parent :: _ => if isAttr then 0 else parent.childrenCounter
    let stack' : List StackItem :=
      match stack with
      | [] => []
      | parent :: below =>
          if isAttr then parent :: below
          else if parent.ordered then
            { parent with childrenCounter := parent.childrenCounter + 1 } :: below
          else parent :: below
    let nodePath := getCurrentPath stack ++ [myIndex]
    let childrenStart : Int := if isAttr || strHasPfx tagName "<__" then 0 else 1
    .ok (⟨childrenStart, isOrdered, myIndex, isReg⟩ :: stack',
         pairs ++ [(id, nodePath)])

/-- The event consumption of `extractRegisteredAttrName` in the encoder:
expects the `__Key` open tag, the name character data, the `__Key` close
tag and the `__Value` open tag, returning the attribute name and the
remaining events (the `__Value` content onward). -/
def extractRegisteredAttrName :
    List XmlEvent → Except GoError (String × List XmlEvent)
  | .start kn _ :: .chardata nm :: .stop kn' :: .start vn _ :: rest' =>
      if kn == "__Key" && kn' == "__Key" && vn == "__Value" then .ok (nm, rest')
      else .error .extractError
  | _ => .error .extractError

theorem extractRegisteredAttrName_length (evs : List XmlEvent) (nm : String)
    (rest' : List XmlEvent) (h : extractRegisteredAttrName evs = .ok (nm, rest')) :
    rest'.length ≤ evs.length := by
  unfold extractRegisteredAttrName at h
  split at h
  · split at h
    · simp only [Except.ok.injEq, Prod.mk.injEq] at h
      obtain ⟨rfl, rfl⟩ := h
      simp only [List.length_cons]
      omega
    · cases h
  · cases h

/-- The encoder stack machine (`Encoder.Encode` main loop): consumes the
XML event stream, maintaining the stack of open elements and the emitted
(token, path) pairs.  A start of `VirtualAttrTag` runs
`extractRegisteredAttrName`, consuming the `__Key` element and the
`__Value` open tag and re-tagging the node as `"@" ++ name`; the matching
`__Value` close is skipped while a registered-attribute item is on top,
and the `VirtualAttrTag` close emits the `TokenValueEnd` delimiter. -/
def encodeLoop (v : Vocab) (ct : ContentTok) :
    List XmlEvent → List StackItem → List (Int × List Int) →
    Except GoError (List StackItem × List (Int × List Int))
  | [], stack, pairs => .ok (stack, pairs)
  | .start name attrs :: rest, stack, pairs =>
      if name == VirtualAttrTag then
        match hex : extractRegisteredAttrName rest with
        | .error e => .error e
        | .ok (nm, rest') =>
            match encOpen v ("@" ++ nm) true true true stack pairs with
            | .error e => .error e
            | .ok (st', ps') =>
                have := extractRegisteredAttrName_length rest nm rest' hex
                encodeLoop v ct rest' st' ps'
      else
        match encOpen v (plainTag name) (plainOrdered name attrs) (plainIsAttr name)
            false stack pairs with
        | .error e => .error e
        | .ok (st', ps') => encodeLoop v ct rest st' ps'
  | .stop name :: rest, stack, pairs =>
      match stack with
      | [] => .error (.unexpectedEndToken name)
      | top :: below =>
          if name == "__Value" && top.isRegisteredAttr then
            encodeLoop v ct rest (top :: below) pairs
          else
            let tagName := if name == VirtualAttrTag then TokenValueEnd
              else "</" ++ name ++ ">"
            match vlookup v tagName with
            | some id =>
                encodeLoop v ct rest below
                  (pairs ++ [(id, getCurrentPath below ++ [top.pathIndex])])
            | none => encodeLoop v ct rest below pairs
  | .chardata s :: rest, stack, pairs =>
      if s.length = 0 then encodeLoop v ct rest stack pairs
      else
        match stack with
        | [] => encodeLoop v ct rest stack pairs
        | parent :: below =>
            let ts := ct.encode s
            let newPairs := ts.mapIdx (fun i t =>
              (t, getCurrentPath (parent :: below) ++ [parent.childrenCounter + (i : Int)]))
            encodeLoop v ct rest
              ({ parent with childrenCounter := parent.childrenCounter + (ts.length : Int) } :: below)
              (pairs ++ newPairs)
  termination_by evs _ _ => evs.length
  decreasing_by
  all_goals simp_wf
  all_goals omega

mutual

/-- Boolean well-shapedness of a tree fed to the encoder: every
`__RegisteredAttr` wrapper has exactly a `__Key` element holding one text
fragment followed by a `__Value` element.  The transformer only produces
such wrappers, and `extractRegisteredAttrName` expects this shape. -/
def wellShaped : Node → Bool
  | .text _ => true
  | .elem name _ children =>
      if name == VirtualAttrTag then
        match children with
        | [.elem kn _ [.text _], .elem vn _ vs] =>
            kn == "__Key" && vn == "__Value" && wellShapedList vs
        | _ => false
      else wellShapedList children

/-- Pointwise `wellShaped` over a sibling list. -/
def wellShapedList : List Node → Bool
  | [] => true
  | c :: cs => wellShaped c && wellShapedList cs

end

mutual

/-- Reference tree-level encoder: the (token, path) pairs the machine
emits for one node whose enclosing element has current path `curPath`,
children counter `c` and ordered flag `pord`, paired with the parent's
counter after the node.  Proved equivalent to `encodeLoop` on well-shaped
trees below. -/
def encNode (v : Vocab) (ct : ContentTok) (curPath : List Int) (c : Int)
    (pord : Bool) : Node → Except GoError (List (Int × List Int) × Int)
  | .text s =>
      if s.length = 0 then .ok ([], c)
      else
        let ts := ct.encode s
        .ok (ts.mapIdx (fun i t => (t, curPath ++ [c + (i : Int)])), c + (ts.length : Int))
  | .elem name attrs children =>
      if name == VirtualAttrTag then
        match children with
        | [.elem kn _ [.text nm], .elem vn _ vs] =>
            if kn == "__Key" && vn == "__Value" then
              match vlookup v ("@" ++ nm) with
              | none => .error (.unknownTag ("@" ++ nm))
              | some id => do
                  let (inner, _) ← encChildren v ct (curPath ++ [0]) 0 true vs
                  let closePairs := match vlookup v TokenValueEnd with
                    | some idc => [(idc, curPath ++ [(0 : Int)])]
                    | none => []
                  return ((id, curPath ++ [(0 : Int)]) :: (inner ++ closePairs), c)
            else .error .extractError
        | _ => .error .extractError
      else
        match vlookup v (plainTag name) with
        | none => .error (.unknownTag (plainTag name))
        | some id =>
            let isAttr := plainIsAttr name
            let myIndex : Int := if isAttr then 0 else c
            let c2 : Int := if isAttr then c else if pord then c + 1 else c
            let childrenStart : Int :=
              if isAttr || strHasPfx (plainTag name) "<__" then 0 else 1
            do
              let r ← encChildren v ct (curPath ++ [myIndex]) childrenStart
                (plainOrdered name attrs) children
              let closePairs := match vlookup v ("</" ++ name ++ ">") with
                | some idc => [(idc, curPath ++ [myIndex])]
                | none => []
              return ((id, curPath ++ [myIndex]) :: (r.1 ++ closePairs), c2)

/-- Reference encoder over a sibling list, threading the parent's
children counter left to right. -/
def encChildren (v : Vocab) (ct : ContentTok) (curPath : List Int) (c : Int)
    (ord : Bool) : List Node → Except GoError (List (Int × List Int) × Int)
  | [] => .ok ([], c)
  | n :: rest => do
      let (ps₁, c₁) ← encNode v ct curPath c ord n
      let (ps₂, c₂) ← encChildren v ct curPath c₁ ord rest
      return (ps₁ ++ ps₂, c₂)

end

mutual

/-- Documents whose element names never start with the reserved `"__"`
space: these cannot collide with the synthetic wrapper tags the
transformer introduces. -/
def plainNames : Node → Bool
  | .text _ => true
  | .elem name _ cs => (!strHasPfx name "__") && plainNamesList cs

/-- Pointwise `plainNames` over a sibling list. -/
def plainNamesList : List Node → Bool
  | [] => true
  | c :: cs => plainNames c && plainNamesList cs

end

/-- Unpadded pipeline: transform the document, serialize the root and run
the encoder machine on the re-parsed event stream, returning the raw
(token, path) pairs.  `Transform` returning a nil root makes Go call
`rootElement.String()` on a nil pointer — a run-time panic. -/
def TokenizePairs (tk : Tokenizer) (doc : List Node) :
    GoOutcome (List (Int × List Int)) :=
  match transformDoc tk.vocab doc with
  | .error e => .err e
  | .ok none => .panics
  | .ok (some root) =>
      match encodeLoop tk.vocab tk.ct root.events [] [] with
      | .error e => .err e
      | .ok (_, pairs) => .ok pairs

/-- Full `Tokenizer.Tokenize`: the unpadded pairs plus `getPaddedPaths`
with requested width 0 and pad value -1. -/
def Tokenize (tk : Tokenizer) (doc : List Node) : GoOutcome TokenizationResult :=
  match TokenizePairs tk doc with
  | .panics => .panics
  | .err e => .err e
  | .ok pairs =>
      match getPaddedPaths (pairs.map (fun p => p.2)) 0 (-1) with
      | none => .panics
      | some m => .ok ⟨pairs.map (fun p => p.1), m⟩

/-- Token-string classification used throughout `DecodeXML`: reverse
vocabulary lookup, falling back to single-id content decoding. -/
def tokStr (tk : Tokenizer) (t : Int) : String :=
  match vinv tk.vocab t with
  | some tag => tag
  | none => tk.ct.decodeOne t

/-- The control-token strings `DecodeXML` excludes from ordinary
start and end tag classification, in source order. -/
def decodeControls : List String :=
  [TokenUnregisteredAttr, TokenKey, TokenValue, TokenKeyEnd, TokenValueEnd,
   TokenUnregisteredAttrEnd]

/-- The unregistered-attribute sub-loop of `DecodeXML`: consumes tokens
until the bucket-close token (or the end of the stream), switching the
3-state key/value flag on the key/value control tokens and accumulating
everything else into the current builder; returns the key, the value and
the remaining tokens. -/
def bucketLoop (tk : Tokenizer) :
    List Int → Nat → String → String → (String × String × List Int)
  | [], _, key, val => (key, val, [])
  | t :: rest, state, key, val =>
      let subS := tokStr tk t
      if subS == TokenUnregisteredAttrEnd then (key, val, rest)
      else if subS == TokenKey then bucketLoop tk rest 1 key val
      else if subS == TokenKeyEnd then bucketLoop tk rest 0 key val
      else if subS == TokenValue then bucketLoop tk rest 2 key val
      else if subS == TokenValueEnd then bucketLoop tk rest 0 key val
      else if state == 1 then bucketLoop tk rest 1 (key ++ subS) val
      else if state == 2 then bucketLoop tk rest 2 key (val ++ subS)
      else bucketLoop tk rest state key val

/-- The registered-attribute greedy value scan of `DecodeXML`: consumes
value content until the value-end delimiter (consumed), a non-control tag
token (pushed back) or another attribute token (pushed back); returns the
accumulated value and the remaining tokens. -/
def greedyValue (tk : Tokenizer) : List Int → String → (String × List Int)
  | [], val => (val, [])
  | t :: rest, val =>
      let subS := tokStr tk t
      if subS == TokenValueEnd then (val, rest)
      else if (strHasPfx subS "<" || strHasPfx subS "</") &&
          !decodeControls.contains subS then (val, t :: rest)
      else if strHasPfx subS "@" then (val, t :: rest)
      else greedyValue tk rest (val ++ subS)

theorem bucketLoop_length_le (tk : Tokenizer) (l : List Int) (st : Nat)
    (key val : String) : (bucketLoop tk l st key val).2.2.length ≤ l.length := by
  induction l generalizing st key val with
  | nil => simp [bucketLoop]
  | cons t rest ih =>
      simp only [bucketLoop]
      split
      · simp
      · repeat' split
        all_goals exact le_trans (ih _ _ _) (Nat.le_succ _)

theorem greedyValue_length_le (tk : Tokenizer) (l : List Int) (val : String) :
    (greedyValue tk l val).2.length ≤ l.length := by
  induction l generalizing val with
  | nil => simp [greedyValue]
  | cons t rest ih =>
      simp only [greedyValue]
      repeat' split
      · simp
      · simp
      · simp
      · exact le_trans (ih _) (Nat.le_succ _)

/-- An element under construction on the decoder stack. -/
structure DecElem where
  name : String
  attrs : List (String × String)
  children : List Node
deriving Repr

/-- Finish the remaining open elements at the end of the token stream:
each unclosed element is already attached to its parent in Go (children
hold pointers), so the returned root is the bottom-most open element with
everything accumulated so far; with an empty stack the last closed
top-level element is the root. -/
def collapseStack : List DecElem → Option Node → Option Node
  | [], cr => cr
  | f :: below, cr =>
      let fin := Node.elem f.name f.attrs f.children
      match below with
      | [] => some fin
      | p :: brest =>
          collapseStack ({ p with children := p.children ++ [fin] } :: brest) cr
  termination_by st _ => st.length

/-- Main loop of `Tokenizer.DecodeXML`: classifies each token string and
maintains the element stack; see `decoder.go`.  The `Option Node`
argument tracks the root element: set when a top-level element closes,
reset when a new top-level element opens (Go re-assigns `root` on every
open with an empty stack). -/
def decodeLoop (tk : Tokenizer) :
    List Int → List DecElem → Option Node → Except GoError (Option Node)
  | [], stack, cr => .ok (collapseStack stack cr)
  | t :: rest, stack, cr =>
      let s := tokStr tk t
      if strHasPfx s "<" && !strHasPfx s "</" && !decodeControls.contains s then
        -- start element: strip the angle brackets, push, attach on close
        let s1 := if strHasPfx s "<" then strDrop s 1 else s
        let tagName := if strHasSfx s1 ">" then strDropRight s1 1 else s1
        match stack with
        | [] => decodeLoop tk rest [⟨tagName, [], []⟩] none
        | _ => decodeLoop tk rest (⟨tagName, [], []⟩ :: stack) cr
      else if strHasPfx s "</" && s != TokenUnregisteredAttrEnd &&
          s != TokenKeyEnd && s != TokenValueEnd then
        match stack with
        | [] => .error (.unexpectedEndTag s)
        | f :: below =>
            let fin := Node.elem f.name f.attrs f.children
            match below with
            | [] => decodeLoop tk rest [] (some fin)
            | p :: brest =>
                decodeLoop tk rest
                  ({ p with children := p.children ++ [fin] } :: brest) cr
      else
        match stack with
        | [] => decodeLoop tk rest [] cr
        | cur :: below =>
            if s == TokenUnregisteredAttr then
              let r := bucketLoop tk rest 0 "" ""
              decodeLoop tk r.2.2
                ({ cur with attrs := cur.attrs ++ [(r.1, r.2.1)] } :: below) cr
            else if strHasPfx s "@" then
              let r := greedyValue tk rest ""
              decodeLoop tk r.2
                ({ cur with attrs := cur.attrs ++ [(strDrop s 1, r.1)] } :: below) cr
            else if s == TokenValueEnd || s == TokenUnregisteredAttrEnd ||
                s == TokenKey || s == TokenKeyEnd || s == TokenValue then
              decodeLoop tk rest (cur :: below) cr
            else
              let cur' :=
                match cur.children.getLast? with
                | some (.text prev) =>
                    { cur with children := cur.children.dropLast ++ [.text (prev ++ s)] }
                | _ => { cur with children := cur.children ++ [.text s] }
              decodeLoop tk rest (cur' :: below) cr
  termination_by toks => toks.length
  decreasing_by
  all_goals simp_wf
  · exact Nat.lt_succ_of_le (bucketLoop_length_le tk rest 0 "" "")
  · exact Nat.lt_succ_of_le (greedyValue_length_le tk rest "")

/-- `Tokenizer.DecodeXML`: reconstruct the tree from a token sequence;
an empty sequence yields no tree. -/
def DecodeXML (tk : Tokenizer) (tokens : List Int) :
    Except GoError (Option Node) :=
  if tokens.isEmpty then .ok none
  else decodeLoop tk tokens [] none

end Arbor

namespace Arbor

/-! Basic facts about `getPaddedPaths` and `NewTokenizer`. -/

theorem checkVocabIds_ok_iff (v : Vocab) :
    checkVocabIds v = .ok () ↔ ∀ p ∈ v, Cl100kBaseMaxID ≤ p.2 := by
  induction v with
  | nil => simp [checkVocabIds]
  | cons hd tl ih =>
      obtain ⟨k, i⟩ := hd
      by_cases h : i < Cl100kBaseMaxID
      · simp only [checkVocabIds, if_pos h]
        constructor
        · intro hcontra; cases hcontra
        · intro hall
          exact absurd (hall (k, i) (List.mem_cons_self _ _)) (by simpa using h)
      · simp only [checkVocabIds, if_neg h]
        rw [ih]
        constructor
        · intro hall p hp
          rcases List.mem_cons.mp hp with rfl | hmem
          · simpa using not_lt.mp h
          · exact hall p hmem
        · intro hall p hp
          exact hall p (List.mem_cons_of_mem _ hp)

theorem checkVocabIds_error_mem (v : Vocab) (tag : String) (i : Int)
    (h : checkVocabIds v = .error (.vocabConflict tag i)) :
    (tag, i) ∈ v ∧ i < Cl100kBaseMaxID := by
  induction v with
  | nil => simp [checkVocabIds] at h
  | cons hd tl ih =>
      obtain ⟨k, j⟩ := hd
      by_cases hj : j < Cl100kBaseMaxID
      · simp only [checkVocabIds, if_pos hj, Except.error.injEq, GoError.vocabConflict.injEq] at h
        obtain ⟨rfl, rfl⟩ := h
        exact ⟨List.mem_cons_self _ _, hj⟩
      · simp only [checkVocabIds, if_neg hj] at h
        obtain ⟨hmem, hlt⟩ := ih h
        exact ⟨List.mem_cons_of_mem _ hmem, hlt⟩

theorem checkVocabIds_error_shape (v : Vocab) (e : GoError)
    (h : checkVocabIds v = .error e) :
    ∃ tag i, e = .vocabConflict tag i := by
  induction v with
  | nil => simp [checkVocabIds] at h
  | cons hd tl ih =>
      obtain ⟨k, j⟩ := hd
      by_cases hj : j < Cl100kBaseMaxID
      · simp only [checkVocabIds, if_pos hj, Except.error.injEq] at h
        exact ⟨k, j, h.symm⟩
      · simp only [checkVocabIds, if_neg hj] at h
        exact ih h

theorem checkVocabIds_violation_error (v : Vocab)
    (h : ∃ p ∈ v, p.2 < Cl100kBaseMaxID) :
    ∃ tag i, checkVocabIds v = .error (.vocabConflict tag i) ∧
      (tag, i) ∈ v ∧ i < Cl100kBaseMaxID := by
  induction v with
  | nil => simp at h
  | cons hd tl ih =>
      obtain ⟨k, j⟩ := hd
      by_cases hj : j < Cl100kBaseMaxID
      · exact ⟨k, j, by simp [checkVocabIds, hj], List.mem_cons_self _ _, hj⟩
      · obtain ⟨p, hp, hplt⟩ := h
        rcases List.mem_cons.mp hp with rfl | hmem
        · exact absurd hplt hj
        · obtain ⟨tag, i, heq, hmem', hlt'⟩ := ih ⟨p, hmem, hplt⟩
          exact ⟨tag, i, by simpa [checkVocabIds, hj] using heq,
            List.mem_cons_of_mem _ hmem', hlt'⟩

end Arbor

namespace Arbor

theorem encNode_text (v : Vocab) (ct : ContentTok) (p : List Int) (c : Int)
    (pord : Bool) (s : String) :
    encNode v ct p c pord (.text s) =
      if s.length = 0 then .ok ([], c)
      else .ok ((ct.encode s).mapIdx (fun i t => (t, p ++ [c + (i : Int)])),
        c + ((ct.encode s).length : Int)) := by
  unfold encNode
  rfl

theorem encChildren_nil (v : Vocab) (ct : ContentTok) (p : List Int) (c : Int)
    (o : Bool) : encChildren v ct p c o [] = .ok ([], c) := by
  unfold encChildren
  rfl

theorem encChildren_cons (v : Vocab) (ct : ContentTok) (p : List Int) (c : Int)
    (o : Bool) (n : Node) (rest : List Node) :
    encChildren v ct p c o (n :: rest) =
      match encNode v ct p c o n with
      | .error e => .error e
      | .ok r1 =>
          match encChildren v ct p r1.2 o rest with
          | .error e => .error e
          | .ok r2 => .ok (r1.1 ++ r2.1, r2.2) := by
  rw [encChildren.eq_def]
  cases h1 : encNode v ct p c o n with
  | error e => simp [h1, Bind.bind, Except.bind]
  | ok r1 =>
      cases h2 : encChildren v ct p r1.2 o rest with
      | error e => simp [h1, h2, Bind.bind, Except.bind]
      | ok r2 => simp [h1, h2, Bind.bind, Except.bind, Pure.pure, Except.pure]

theorem encNode_plain (v : Vocab) (ct : ContentTok) (p : List Int) (c : Int)
    (pord : Bool) (name : String) (attrs : List (String × String))
    (children : List Node) (hv' : (name == VirtualAttrTag) = false) :
    encNode v ct p c pord (.elem name attrs children) =
      match vlookup v (plainTag name) with
      | none => .error (.unknownTag (plainTag name))
      | some id =>
          match encChildren v ct (p ++ [if plainIsAttr name then 0 else c])
              (if plainIsAttr name || strHasPfx (plainTag name) "<__" then 0 else 1)
              (plainOrdered name attrs) children with
          | .error e => .error e
          | .ok r =>
              .ok ((id, p ++ [if plainIsAttr name then 0 else c]) ::
                  (r.1 ++ match vlookup v ("</" ++ name ++ ">") with
                    | some idc => [(idc, p ++ [if plainIsAttr name then 0 else c])]
                    | none => []),
                if plainIsAttr name then c else if pord then c + 1 else c) := by
  unfold encNode
  split
  · exact absurd (by assumption) (by simp [hv'])
  · cases hvl : vlookup v (plainTag name) with
    | none => rfl
    | some id =>
        simp only [dite_eq_ite]
        cases hh : encChildren v ct (p ++ [if plainIsAttr name then 0 else c])
            (if plainIsAttr name || strHasPfx (plainTag name) "<__" then 0 else 1)
            (plainOrdered name attrs) children with
        | error e => simp [hh, Bind.bind, Except.bind]
        | ok r => simp [hh, Bind.bind, Except.bind, Pure.pure, Except.pure]

theorem encNode_virtual (v : Vocab) (ct : ContentTok) (p : List Int) (c : Int)
    (pord : Bool) (attrs ka va : List (String × String)) (nm : String)
    (vs : List Node) :
    encNode v ct p c pord
        (.elem VirtualAttrTag attrs [.elem "__Key" ka [.text nm], .elem "__Value" va vs]) =
      match vlookup v ("@" ++ nm) with
      | none => .error (.unknownTag ("@" ++ nm))
      | some id =>
          match encChildren v ct (p ++ [0]) 0 true vs with
          | .error e => .error e
          | .ok r =>
              .ok ((id, p ++ [(0 : Int)]) ::
                  (r.1 ++ match vlookup v TokenValueEnd with
                    | some idc => [(idc, p ++ [(0 : Int)])]
                    | none => []), c) := by
  unfold encNode
  split
  · cases hvl : vlookup v ("@" ++ nm) with
    | none => simp [hvl]
    | some id =>
        cases hh : encChildren v ct (p ++ [0]) 0 true vs with
        | error e => simp [hvl, hh, Bind.bind, Except.bind]
        | ok r => simp [hvl, hh, Bind.bind, Except.bind, Pure.pure, Except.pure]
  · simp at *

end Arbor

namespace Arbor

theorem encodeLoop_nil (v : Vocab) (ct : ContentTok) (stack : List StackItem)
    (pairs : List (Int × List Int)) :
    encodeLoop v ct [] stack pairs = .ok (stack, pairs) := by
  rw [encodeLoop.eq_def]

theorem encodeLoop_start_plain (v : Vocab) (ct : ContentTok) (name : String)
    (attrs : List (String × String)) (evs : List XmlEvent)
    (stack : List StackItem) (pairs : List (Int × List Int))
    (hv' : (name == VirtualAttrTag) = false) :
    encodeLoop v ct (.start name attrs :: evs) stack pairs =
      match encOpen v (plainTag name) (plainOrdered name attrs) (plainIsAttr name)
          false stack pairs with
      | .error e => .error e
      | .ok r => encodeLoop v ct evs r.1 r.2 := by
  rw [encodeLoop.eq_def]
  dsimp only
  rw [if_neg (by simp [hv'] : ¬ (name == VirtualAttrTag) = true)]
  cases h : encOpen v (plainTag name) (plainOrdered name attrs) (plainIsAttr name)
      false stack pairs with
  | error e => simp
  | ok r => simp

theorem encodeLoop_start_virtual (v : Vocab) (ct : ContentTok)
    (attrs : List (String × String)) (evs : List XmlEvent)
    (stack : List StackItem) (pairs : List (Int × List Int)) :
    encodeLoop v ct (.start VirtualAttrTag attrs :: evs) stack pairs =
      match extractRegisteredAttrName evs with
      | .error e => .error e
      | .ok r =>
          match encOpen v ("@" ++ r.1) true true true stack pairs with
          | .error e => .error e
          | .ok r2 => encodeLoop v ct r.2 r2.1 r2.2 := by
  rw [encodeLoop.eq_def]
  dsimp only
  rw [if_pos (by simp : (VirtualAttrTag == VirtualAttrTag) = true)]
  cases hex : extractRegisteredAttrName evs with
  | error e => simp [hex]
  | ok r =>
      cases h : encOpen v ("@" ++ r.1) true true true stack pairs with
      | error e => simp [hex, h]
      | ok r2 => simp [hex, h]

theorem encodeLoop_stop_empty (v : Vocab) (ct : ContentTok) (name : String)
    (evs : List XmlEvent) (pairs : List (Int × List Int)) :
    encodeLoop v ct (.stop name :: evs) [] pairs =
      .error (.unexpectedEndToken name) := by
  rw [encodeLoop.eq_def]

theorem encodeLoop_stop_cons (v : Vocab) (ct : ContentTok) (name : String)
    (evs : List XmlEvent) (top : StackItem) (below : List StackItem)
    (pairs : List (Int × List Int)) :
    encodeLoop v ct (.stop name :: evs) (top :: below) pairs =
      if name == "__Value" && top.isRegisteredAttr then
        encodeLoop v ct evs (top :: below) pairs
      else
        match vlookup v (if name == VirtualAttrTag then TokenValueEnd
            else "</" ++ name ++ ">") with
        | some id =>
            encodeLoop v ct evs below
              (pairs ++ [(id, getCurrentPath below ++ [top.pathIndex])])
        | none => encodeLoop v ct evs below pairs := by
  rw [encodeLoop.eq_def]

theorem encodeLoop_chardata_skip (v : Vocab) (ct : ContentTok) (s : String)
    (evs : List XmlEvent) (stack : List StackItem)
    (pairs : List (Int × List Int)) (h : s.length = 0) :
    encodeLoop v ct (.chardata s :: evs) stack pairs =
      encodeLoop v ct evs stack pairs := by
  rw [encodeLoop.eq_def]
  simp [h]

theorem encodeLoop_chardata_empty (v : Vocab) (ct : ContentTok) (s : String)
    (evs : List XmlEvent) (pairs : List (Int × List Int)) :
    encodeLoop v ct (.chardata s :: evs) [] pairs =
      encodeLoop v ct evs [] pairs := by
  rw [encodeLoop.eq_def]
  by_cases h : s.length = 0 <;> simp [h]

theorem encodeLoop_chardata_cons (v : Vocab) (ct : ContentTok) (s : String)
    (evs : List XmlEvent) (parent : StackItem) (below : List StackItem)
    (pairs : List (Int × List Int)) (h : ¬ s.length = 0) :
    encodeLoop v ct (.chardata s :: evs) (parent :: below) pairs =
      encodeLoop v ct evs
        ({ parent with childrenCounter :=
            parent.childrenCounter + ((ct.encode s).length : Int) } :: below)
        (pairs ++ (ct.encode s).mapIdx (fun i t =>
          (t, getCurrentPath (parent :: below) ++ [parent.childrenCounter + (i : Int)]))) := by
  rw [encodeLoop.eq_def]
  simp [h]

end Arbor

namespace Arbor

@[simp] theorem getCurrentPath_cons (f : StackItem) (st : List StackItem) :
    getCurrentPath (f :: st) = getCurrentPath st ++ [f.pathIndex] := by
  simp [getCurrentPath]

@[simp] theorem StackItem.eta (f : StackItem) :
    StackItem.mk f.childrenCounter f.ordered f.pathIndex f.isRegisteredAttr = f := rfl

theorem wellShaped_virtual_shape (name : String) (attrs : List (String × String))
    (children : List Node) (hv : (name == VirtualAttrTag) = true)
    (hws : wellShaped (.elem name attrs children) = true) :
    ∃ ka nm va vs, children = [.elem "__Key" ka [.text nm], .elem "__Value" va vs] ∧
      wellShapedList vs = true := by
  unfold wellShaped at hws
  rw [if_pos hv] at hws
  split at hws
  · rename_i kn ka nm vn va vs
    simp only [Bool.and_eq_true, beq_iff_eq] at hws
    obtain ⟨⟨rfl, rfl⟩, h⟩ := hws
    exact ⟨ka, nm, va, vs, rfl, h⟩
  · exact absurd hws (by simp)

mutual

theorem encodeLoop_events (v : Vocab) (ct : ContentTok) (n : Node)
    (hws : wellShaped n = true) (rest : List XmlEvent) (f : StackItem)
    (st : List StackItem) (acc : List (Int × List Int)) :
    encodeLoop v ct (n.events ++ rest) (f :: st) acc =
      match encNode v ct (getCurrentPath (f :: st)) f.childrenCounter f.ordered n with
      | .error e => .error e
      | .ok (ps, c') =>
          encodeLoop v ct rest ({ f with childrenCounter := c' } :: st) (acc ++ ps) := by
  match n with
  | .text s =>
      simp only [Node.events, List.cons_append, List.nil_append]
      rw [encNode_text]
      by_cases h : s.length = 0
      · rw [encodeLoop_chardata_skip v ct s rest (f :: st) acc h]
        simp [h]
      · rw [encodeLoop_chardata_cons v ct s rest f st acc h]
        simp [h]
  | .elem name attrs children =>
      by_cases hv : (name == VirtualAttrTag) = true
      · obtain ⟨ka, nm, va, vs, rfl, hvs⟩ :=
          wellShaped_virtual_shape name attrs children hv hws
        have hn : name = VirtualAttrTag := by simpa using hv
        subst hn
        simp only [Node.events, Node.eventsList, List.append_nil, List.cons_append,
          List.nil_append, List.append_assoc]
        rw [encodeLoop_start_virtual]
        rw [show extractRegisteredAttrName (.start "__Key" ka :: .chardata nm ::
            .stop "__Key" :: .start "__Value" va ::
            (Node.eventsList vs ++ .stop "__Value" :: .stop VirtualAttrTag :: rest)) =
          .ok (nm, Node.eventsList vs ++ .stop "__Value" :: .stop VirtualAttrTag :: rest)
          from by simp [extractRegisteredAttrName]]
        dsimp only
        rw [encNode_virtual]
        rcases hvl : vlookup v ("@" ++ nm) with _ | id
        · simp [encOpen, hvl]
        · rw [show encOpen v ("@" ++ nm) true true true (f :: st) acc =
            .ok (⟨0, true, 0, true⟩ :: f :: st,
              acc ++ [(id, getCurrentPath (f :: st) ++ [0])])
            from by simp [encOpen, hvl]]
          dsimp only
          rw [encodeLoop_eventsList v ct vs hvs
            (.stop "__Value" :: .stop VirtualAttrTag :: rest) ⟨0, true, 0, true⟩ (f :: st)
            (acc ++ [(id, getCurrentPath (f :: st) ++ [0])])]
          simp only [getCurrentPath_cons, List.append_assoc, List.singleton_append,
            List.cons_append, List.nil_append]
          rcases hin : encChildren v ct (getCurrentPath st ++ [f.pathIndex, 0])
              0 true vs with e | ⟨inner, cend⟩
          · simp
          · dsimp only
            rw [encodeLoop_stop_cons]
            rw [if_pos (by simp : ("__Value" == "__Value" &&
              (StackItem.mk cend true 0 true).isRegisteredAttr) = true)]
            rw [encodeLoop_stop_cons]
            rw [if_neg (by simp [VirtualAttrTag] :
              ¬ (VirtualAttrTag == "__Value" &&
                (StackItem.mk cend true 0 true).isRegisteredAttr) = true)]
            rw [if_pos (by simp : (VirtualAttrTag == VirtualAttrTag) = true)]
            rcases hve : vlookup v TokenValueEnd with _ | ide
            · simp
            · simp
      · have hv' : (name == VirtualAttrTag) = false := by simpa using hv
        have hcl : wellShapedList children = true := by
          unfold wellShaped at hws
          rwa [if_neg (by simp [hv'] : ¬ (name == VirtualAttrTag) = true)] at hws
        simp only [Node.events, List.cons_append, List.append_assoc, List.nil_append,
          List.singleton_append]
        rw [encodeLoop_start_plain v ct name attrs _ _ _ hv']
        rw [encNode_plain v ct _ _ _ name attrs children hv']
        rcases hvl : vlookup v (plainTag name) with _ | id
        · simp [encOpen, hvl]
        · have hnv : ¬ (name == VirtualAttrTag) = true := by simp [hv']
          by_cases ha : plainIsAttr name = true
          · rw [show encOpen v (plainTag name) (plainOrdered name attrs) (plainIsAttr name)
                false (f :: st) acc =
                .ok (⟨(0 : Int), plainOrdered name attrs, (0 : Int), false⟩ :: f :: st,
                  acc ++ [(id, getCurrentPath (f :: st) ++ [0])])
              from by simp [encOpen, hvl, ha]]
            dsimp only
            rw [encodeLoop_eventsList v ct children hcl (.stop name :: rest)
              ⟨0, plainOrdered name attrs, 0, false⟩ (f :: st)
              (acc ++ [(id, getCurrentPath (f :: st) ++ [0])])]
            simp only [getCurrentPath_cons, List.append_assoc, List.singleton_append,
              List.cons_append, List.nil_append, ha, if_pos, Bool.true_or]
            rcases hin : encChildren v ct (getCurrentPath st ++ [f.pathIndex, 0])
                (0 : Int) (plainOrdered name attrs) children with e | ⟨inner, cend⟩
            · simp [ha, hin]
            · dsimp only
              rw [encodeLoop_stop_cons]
              rw [show (name == "__Value" &&
                  (StackItem.mk cend (plainOrdered name attrs) 0 false).isRegisteredAttr) =
                  false from by simp]
              rw [if_neg (by simp)]
              rw [show (if name == VirtualAttrTag then TokenValueEnd
                  else "</" ++ name ++ ">") = "</" ++ name ++ ">" from by simp [hv']]
              rcases hcv : vlookup v ("</" ++ name ++ ">") with _ | idc
              · simp [ha, hcv, hin]
              · simp [ha, hcv, hin]
          · have ha' : plainIsAttr name = false := by simpa using ha
            by_cases ho : f.ordered = true
            · rw [show encOpen v (plainTag name) (plainOrdered name attrs) (plainIsAttr name)
                  false (f :: st) acc =
                  .ok (⟨(if strHasPfx (plainTag name) "<__" then 0 else 1),
                        plainOrdered name attrs, f.childrenCounter, false⟩ ::
                      { f with childrenCounter := f.childrenCounter + 1 } :: st,
                    acc ++ [(id, getCurrentPath (f :: st) ++ [f.childrenCounter])])
                from by simp [encOpen, hvl, ha', ho]]
              dsimp only
              rw [encodeLoop_eventsList v ct children hcl (.stop name :: rest)
                ⟨(if strHasPfx (plainTag name) "<__" then 0 else 1),
                  plainOrdered name attrs, f.childrenCounter, false⟩
                ({ f with childrenCounter := f.childrenCounter + 1 } :: st)
                (acc ++ [(id, getCurrentPath (f :: st) ++ [f.childrenCounter])])]
              simp only [getCurrentPath_cons, List.append_assoc, List.singleton_append,
                List.cons_append, List.nil_append]
              rcases hin : encChildren v ct (getCurrentPath st ++ [f.pathIndex, f.childrenCounter])
                  (if strHasPfx (plainTag name) "<__" then 0 else 1)
                  (plainOrdered name attrs) children with e | ⟨inner, cend⟩
              · simp [ha', hin]
              · dsimp only
                rw [encodeLoop_stop_cons]
                rw [show (name == "__Value" &&
                    (StackItem.mk cend (plainOrdered name attrs) f.childrenCounter
                      false).isRegisteredAttr) = false from by simp]
                rw [if_neg (by simp)]
                rw [show (if name == VirtualAttrTag then TokenValueEnd
                    else "</" ++ name ++ ">") = "</" ++ name ++ ">" from by simp [hv']]
                rcases hcv : vlookup v ("</" ++ name ++ ">") with _ | idc
                · simp [ha', ho, hin, hcv]
                · simp [ha', ho, hin, hcv]
            · have ho' : f.ordered = false := by simpa using ho
              have hfeq : StackItem.mk f.childrenCounter false f.pathIndex
                  f.isRegisteredAttr = f := by rw [← ho']
              rw [show encOpen v (plainTag name) (plainOrdered name attrs) (plainIsAttr name)
                  false (f :: st) acc =
                  .ok (⟨(if strHasPfx (plainTag name) "<__" then 0 else 1),
                        plainOrdered name attrs, f.childrenCounter, false⟩ :: f :: st,
                    acc ++ [(id, getCurrentPath (f :: st) ++ [f.childrenCounter])])
                from by simp [encOpen, hvl, ha', ho']]
              dsimp only
              rw [encodeLoop_eventsList v ct children hcl (.stop name :: rest)
                ⟨(if strHasPfx (plainTag name) "<__" then 0 else 1),
                  plainOrdered name attrs, f.childrenCounter, false⟩ (f :: st)
                (acc ++ [(id, getCurrentPath (f :: st) ++ [f.childrenCounter])])]
              simp only [getCurrentPath_cons, List.append_assoc, List.singleton_append,
                List.cons_append, List.nil_append]
              rcases hin : encChildren v ct (getCurrentPath st ++ [f.pathIndex, f.childrenCounter])
                  (if strHasPfx (plainTag name) "<__" then 0 else 1)
                  (plainOrdered name attrs) children with e | ⟨inner, cend⟩
              · simp [ha', hin]
              · dsimp only
                rw [encodeLoop_stop_cons]
                rw [show (name == "__Value" &&
                    (StackItem.mk cend (plainOrdered name attrs) f.childrenCounter
                      false).isRegisteredAttr) = false from by simp]
                rw [if_neg (by simp)]
                rw [show (if name == VirtualAttrTag then TokenValueEnd
                    else "</" ++ name ++ ">") = "</" ++ name ++ ">" from by simp [hv']]
                rcases hcv : vlookup v ("</" ++ name ++ ">") with _ | idc
                · simp [ha', ho', hfeq, hin, hcv]
                · simp [ha', ho', hfeq, hin, hcv]
termination_by sizeOf n

theorem encodeLoop_eventsList (v : Vocab) (ct : ContentTok) (l : List Node)
    (hws : wellShapedList l = true) (rest : List XmlEvent) (f : StackItem)
    (st : List StackItem) (acc : List (Int × List Int)) :
    encodeLoop v ct (Node.eventsList l ++ rest) (f :: st) acc =
      match encChildren v ct (getCurrentPath (f :: st)) f.childrenCounter f.ordered l with
      | .error e => .error e
      | .ok (ps, c') =>
          encodeLoop v ct rest ({ f with childrenCounter := c' } :: st) (acc ++ ps) := by
  match l with
  | [] => simp [Node.eventsList, encChildren_nil]
  | c :: cs =>
      simp only [Node.eventsList, List.append_assoc]
      rw [encodeLoop_events v ct c (by simp_all [wellShapedList]) _ f st acc]
      rw [encChildren_cons]
      rcases h1 : encNode v ct (getCurrentPath (f :: st)) f.childrenCounter f.ordered c
        with e | ⟨ps₁, c₁⟩
      · simp only [getCurrentPath_cons] at h1
        simp [h1]
      · dsimp only
        simp only [getCurrentPath_cons]
        rw [encodeLoop_eventsList v ct cs (by simp_all [wellShapedList]) rest
            ({ f with childrenCounter := c₁ }) st (acc ++ ps₁)]
        simp only [getCurrentPath_cons]
        rcases h2 : encChildren v ct (getCurrentPath st ++ [f.pathIndex]) c₁ f.ordered cs
          with e | ⟨ps₂, c₂⟩
        · simp [h2]
        · simp [h2, List.append_assoc]
termination_by sizeOf l

end

end Arbor

namespace Arbor

@[simp] theorem getCurrentPath_nil : getCurrentPath [] = [] := rfl

@[simp] theorem wellShaped_text (s : String) : wellShaped (.text s) = true := by
  unfold wellShaped
  rfl

@[simp] theorem wellShapedList_nil : wellShapedList [] = true := by
  unfold wellShapedList
  rfl

@[simp] theorem wellShapedList_cons (c : Node) (cs : List Node) :
    wellShapedList (c :: cs) = (wellShaped c && wellShapedList cs) := by
  rw [wellShapedList.eq_def]

theorem wellShapedList_append (l₁ l₂ : List Node) :
    wellShapedList (l₁ ++ l₂) = (wellShapedList l₁ && wellShapedList l₂) := by
  induction l₁ with
  | nil => simp
  | cons c cs ih => simp [ih, Bool.and_assoc]

theorem wellShaped_plain (name : String) (attrs : List (String × String))
    (children : List Node) (hv2 : (name == VirtualAttrTag) = false) :
    wellShaped (.elem name attrs children) = wellShapedList children := by
  unfold wellShaped
  rw [if_neg (by simp [hv2])]

theorem wellShaped_virtual_eq (attrs ka va : List (String × String)) (nm : String)
    (vs : List Node) :
    wellShaped (.elem VirtualAttrTag attrs
      [.elem "__Key" ka [.text nm], .elem "__Value" va vs]) = wellShapedList vs := by
  unfold wellShaped
  rw [if_pos (by simp)]
  simp

theorem processAttributeToElement_wellShaped (v : Vocab) (a : String × String)
    (n : Node) (h : processAttributeToElement v a = .ok n) :
    wellShaped n = true := by
  unfold processAttributeToElement at h
  by_cases hreg : (vlookup v ("@" ++ a.1)).isSome = true
  · rw [if_pos hreg] at h
    simp only [Except.ok.injEq] at h
    subst h
    rw [wellShaped_virtual_eq]
    by_cases hval : a.2 = "" ∧ (vlookup v TokenEmpty).isSome = true
    · rw [if_pos hval]
      rw [wellShapedList_cons, wellShaped_plain _ _ _ (by simp [VirtualAttrTag])]
      simp
    · rw [if_neg hval]
      by_cases hne : a.2 ≠ ""
      · rw [if_pos hne]
        simp
      · rw [if_neg hne]
        simp
  · rw [if_neg hreg] at h
    dsimp only at h
    split at h
    · cases h
    · simp only [Except.ok.injEq] at h
      subst h
      have hk : wellShaped (Node.elem "__Key" [] [Node.text a.1]) = true := by
        rw [wellShaped_plain _ _ _ (by simp [VirtualAttrTag])]
        simp
      have hv2 : wellShaped (Node.elem "__Value" [] [Node.text a.2]) = true := by
        rw [wellShaped_plain _ _ _ (by simp [VirtualAttrTag])]
        simp
      rw [wellShaped_plain _ _ _ (by simp [VirtualAttrTag])]
      simp [hk, hv2]

theorem attrsToChildren_wellShaped (v : Vocab) (l : List (String × String))
    (ts : List Node) (h : attrsToChildren v l = .ok ts) :
    wellShapedList ts = true := by
  induction l generalizing ts with
  | nil =>
      unfold attrsToChildren at h
      simp only [Except.ok.injEq] at h
      subst h
      rfl
  | cons a rest ih =>
      unfold attrsToChildren at h
      split at h
      · cases h
      · rename_i n ha
        split at h
        · cases h
        · rename_i ns hr
          simp only [Except.ok.injEq] at h
          subst h
          simp [processAttributeToElement_wellShaped v a n ha, ih ns hr]

mutual

theorem transformElem_wellShaped (v : Vocab) (name : String)
    (attrs : List (String × String)) (children : List Node) (t : Node)
    (hp : (!strHasPfx name "__") = true) (hpl : plainNamesList children = true)
    (h : transformElem v name attrs children = .ok t) :
    wellShaped t = true := by
  unfold transformElem at h
  split at h
  · cases h
  · split at h
    · cases h
    · rename_i attrChildren hmap
      split at h
      · cases h
      · rename_i rest hrest
        split at h
        · cases h
        · simp only [Except.ok.injEq] at h
          subst h
          have h1 := attrsToChildren_wellShaped v _ _ hmap
          have h2 := transformChildren_wellShaped v children rest hpl hrest
          have hv : (name == VirtualAttrTag) = false := by
            rcases heq : name == VirtualAttrTag
            · rfl
            · exfalso
              have : name = VirtualAttrTag := by simpa using heq
              subst this
              simp only [VirtualAttrTag] at hp
              exact absurd hp (by decide)
          rw [wellShaped_plain _ _ _ hv, wellShapedList_append]
          simp [h1, h2]
termination_by sizeOf children + 1

theorem transformChildren_wellShaped (v : Vocab) (l : List Node) (ts : List Node)
    (hpl : plainNamesList l = true)
    (h : transformChildren v l = .ok ts) : wellShapedList ts = true := by
  match l with
  | [] =>
      unfold transformChildren at h
      simp only [Except.ok.injEq] at h
      subst h
      rfl
  | .text s :: rest =>
      unfold transformChildren at h
      split at h
      · cases h
      · rename_i r hr
        have hws := transformChildren_wellShaped v rest r
          (by simp [plainNamesList, plainNames] at hpl ⊢; simp_all) hr
        split at h
        all_goals simp only [Except.ok.injEq] at h
        all_goals subst h
        · exact hws
        · simp [hws]
  | .elem n a c :: rest =>
      unfold transformChildren at h
      split at h
      · cases h
      · rename_i e he
        split at h
        · cases h
        · rename_i r hr
          simp only [Except.ok.injEq] at h
          subst h
          have hsplit : plainNames (.elem n a c) = true ∧ plainNamesList rest = true := by
            rw [plainNamesList.eq_def] at hpl
            simpa using hpl
          have hsplit2 : (!strHasPfx n "__") = true ∧ plainNamesList c = true := by
            have := hsplit.1
            rw [plainNames.eq_def] at this
            simpa using this
          have h1 := transformElem_wellShaped v n a c e hsplit2.1 hsplit2.2 he
          have h2 := transformChildren_wellShaped v rest r hsplit.2 hr
          simp [h1, h2]
termination_by sizeOf l
decreasing_by
all_goals simp_wf
all_goals omega

end

end Arbor

namespace Arbor

/-! Tag-string arithmetic: angle-bracketed spellings are injective, and
plain names (no `"__"` prefix) never collide with the reserved tags. -/

theorem tagEq_iff (n m : String) : ("<" ++ n ++ ">" == "<" ++ m ++ ">") = (n == m) := by
  have h : ("<" ++ n ++ ">" = "<" ++ m ++ ">") ↔ (n = m) := by
    constructor
    · intro h
      have hd : '<' :: (n.data ++ ['>']) = '<' :: (m.data ++ ['>']) := by
        have := congrArg String.data h
        simpa using this
      have hd2 : n.data ++ ['>'] = m.data ++ ['>'] := by
        injection hd
      exact String.ext (List.append_cancel_right hd2)
    · intro h
      rw [h]
  rcases hb : n == m
  · have hne : ¬ (n = m) := beq_eq_false_iff_ne.mp hb
    simpa using fun hc => hne (h.mp hc)
  · have heq : n = m := by simpa using hb
    simp [h.mpr heq]

theorem plain_ne_reserved (n s : String) (hs : strHasPfx s "__" = true)
    (hn : strHasPfx n "__" = false) : (n == s) = false := by
  rcases hb : n == s
  · rfl
  · exfalso
    have heq : n = s := by simpa using hb
    subst heq
    rw [hn] at hs
    cases hs

theorem plainIsAttr_plain (n : String) (hn : strHasPfx n "__" = false) :
    plainIsAttr n = false := by
  unfold plainIsAttr
  rw [show TokenUnregisteredAttr = "<" ++ "__UnregisteredAttr" ++ ">" from rfl]
  rw [tagEq_iff]
  exact plain_ne_reserved n "__UnregisteredAttr" (by decide) hn

theorem plainTag_plain (n : String) (hn : strHasPfx n "__" = false) :
    plainTag n = "<" ++ n ++ ">" := by
  unfold plainTag
  dsimp only
  rw [show ("<__Empty>" : String) = "<" ++ "__Empty" ++ ">" from rfl]
  rw [tagEq_iff, plain_ne_reserved n "__Empty" (by decide) hn]
  rfl

theorem plainTag_not_reserved (n : String) (hn : strHasPfx n "__" = false) :
    strHasPfx (plainTag n) "<__" = false := by
  rw [plainTag_plain n hn]
  unfold strHasPfx at *
  have hdata : ("<" ++ n ++ ">").data = '<' :: (n.data ++ ['>']) := by simp
  rw [hdata]
  rcases hd : n.data with _ | ⟨c1, cs⟩
  · simp [hd, List.isPrefixOf]
  · rcases hc : cs with _ | ⟨c2, cs2⟩
    · simp [hd, hc, List.isPrefixOf]
    · rw [hc] at hd
      have h2 := hn
      rw [show ("__" : String).data = ['_', '_'] from rfl, hd] at h2
      rw [show ("<__" : String).data = ['<', '_', '_'] from rfl]
      simp only [List.isPrefixOf] at h2 ⊢
      simpa using h2

theorem plain_ne_virtual (n : String) (hn : strHasPfx n "__" = false) :
    (n == VirtualAttrTag) = false :=
  plain_ne_reserved n VirtualAttrTag (by decide) hn

theorem plainOrdered_no_attr (n : String) (attrs : List (String × String))
    (hn : strHasPfx n "__" = false)
    (hfind : attrs.find? (fun a => a.1 == ArborOrderedAttribute) = none) :
    plainOrdered n attrs = false := by
  unfold plainOrdered
  rw [hfind, plainIsAttr_plain n hn, plainTag_plain n hn]
  rw [show TokenValue = "<" ++ "__Value" ++ ">" from rfl, tagEq_iff]
  simp [plain_ne_reserved n "__Value" (by decide) hn]

theorem plainOrdered_not_true1 (n : String) (a : String × String)
    (hn : strHasPfx n "__" = false) (ha : (a.2 == "true") = false) :
    plainOrdered n [a] = false := by
  have ho : (plainIsAttr n || (plainTag n == TokenValue)) = false := by
    rw [plainIsAttr_plain n hn, plainTag_plain n hn]
    rw [show TokenValue = "<" ++ "__Value" ++ ">" from rfl, tagEq_iff]
    simp [plain_ne_reserved n "__Value" (by decide) hn]
  unfold plainOrdered
  rcases hf : (a.1 == ArborOrderedAttribute) with _ | _
  · rw [show ([a].find? (fun x => x.1 == ArborOrderedAttribute)) = none from by
      simp [List.find?, hf]]
    exact ho
  · rw [show ([a].find? (fun x => x.1 == ArborOrderedAttribute)) = some a from by
      simp [List.find?, hf]]
    dsimp only
    rw [ha]
    exact ho

end Arbor

namespace Arbor

/-! Shape of transformer output and the root-level machine run. -/

theorem transformElem_shape (v : Vocab) (name : String)
    (attrs : List (String × String)) (children : List Node) (t : Node)
    (h : transformElem v name attrs children = .ok t) :
    ∃ a2 c2, t = .elem name a2 c2 := by
  unfold transformElem at h
  split at h
  · cases h
  · split at h
    · cases h
    · split at h
      · cases h
      · split at h
        · cases h
        · simp only [Except.ok.injEq] at h
          exact ⟨_, _, h.symm⟩

theorem transformDoc_shape (v : Vocab) (doc : List Node) (root : Node)
    (hpl : plainNamesList doc = true)
    (h : transformDoc v doc = .ok (some root)) :
    wellShaped root = true ∧
      ∃ n a c, root = .elem n a c ∧ strHasPfx n "__" = false := by
  induction doc generalizing root with
  | nil => cases h
  | cons hd rest ih =>
      cases hd with
      | text s =>
          have hpl' : plainNamesList rest = true := by
            rw [plainNamesList.eq_def] at hpl
            simpa [plainNames] using hpl
          exact ih root hpl' (by simpa [transformDoc] using h)
      | elem n a c =>
          have hsplit : plainNames (.elem n a c) = true ∧ plainNamesList rest = true := by
            rw [plainNamesList.eq_def] at hpl
            simpa using hpl
          have hn : strHasPfx n "__" = false ∧ plainNamesList c = true := by
            have := hsplit.1
            rw [plainNames.eq_def] at this
            simpa using this
          rw [transformDoc.eq_def] at h
          dsimp only at h
          split at h
          · cases h
          · rename_i e he
            split at h
            · cases h
            · rename_i r hr
              simp only [Except.ok.injEq, Option.some.injEq] at h
              cases r with
              | none =>
                  have hroot : root = e := by simpa using h.symm
                  rw [hroot]
                  refine ⟨transformElem_wellShaped v n a c e (by simp [hn.1]) hn.2 he, ?_⟩
                  obtain ⟨a2, c2, rfl⟩ := transformElem_shape v n a c e he
                  exact ⟨n, a2, c2, rfl, hn.1⟩
              | some r2 =>
                  have hroot : root = r2 := by simpa using h.symm
                  rw [hroot]
                  exact ih r2 hsplit.2 hr

theorem encodeLoop_root (v : Vocab) (ct : ContentTok) (name : String)
    (attrs : List (String × String)) (children : List Node)
    (hws : wellShaped (.elem name attrs children) = true)
    (hv' : (name == VirtualAttrTag) = false) :
    encodeLoop v ct (Node.events (.elem name attrs children)) [] [] =
      match encNode v ct [] 0 false (.elem name attrs children) with
      | .error e => .error e
      | .ok r => .ok ([], r.1) := by
  have hcl : wellShapedList children = true := by
    rw [wellShaped_plain _ _ _ hv'] at hws
    exact hws
  simp only [Node.events, List.cons_append, List.nil_append]
  rw [encodeLoop_start_plain v ct name attrs _ _ _ hv']
  rw [encNode_plain v ct _ _ _ name attrs children hv']
  rcases hvl : vlookup v (plainTag name) with _ | id
  · simp [encOpen, hvl]
  · rw [show encOpen v (plainTag name) (plainOrdered name attrs) (plainIsAttr name)
        false [] [] =
        .ok ([⟨(if plainIsAttr name || strHasPfx (plainTag name) "<__" then 0 else 1),
              plainOrdered name attrs, 0, false⟩],
          [(id, [(0 : Int)])])
      from by simp [encOpen, hvl, getCurrentPath]]
    dsimp only
    rw [show (Node.eventsList children ++ [XmlEvent.stop name]) =
      (Node.eventsList children ++ [XmlEvent.stop name]) from rfl]
    rw [encodeLoop_eventsList v ct children hcl [.stop name]
      ⟨(if plainIsAttr name || strHasPfx (plainTag name) "<__" then 0 else 1),
        plainOrdered name attrs, 0, false⟩ []
      [(id, [(0 : Int)])]]
    simp only [getCurrentPath_cons, getCurrentPath_nil, List.nil_append]
    rw [show (if plainIsAttr name then (0 : Int) else 0) = 0 from by simp]
    rcases hin : encChildren v ct [(0 : Int)]
        (if plainIsAttr name || strHasPfx (plainTag name) "<__" then 0 else 1)
        (plainOrdered name attrs) children with e | ⟨inner, cend⟩
    · simp
    · dsimp only
      rw [encodeLoop_stop_cons]
      rw [show (name == "__Value" &&
          (StackItem.mk cend (plainOrdered name attrs) 0 false).isRegisteredAttr) =
          false from by simp]
      rw [if_neg (by simp)]
      rw [show (if name == VirtualAttrTag then TokenValueEnd
          else "</" ++ name ++ ">") = "</" ++ name ++ ">" from by simp [hv']]
      rcases hcv : vlookup v ("</" ++ name ++ ">") with _ | idc
      · simp [encodeLoop_nil, getCurrentPath]
      · simp [encodeLoop_nil, getCurrentPath]

theorem TokenizePairs_eq (tk : Tokenizer) (doc : List Node) (root : Node)
    (hpl : plainNamesList doc = true)
    (htr : transformDoc tk.vocab doc = .ok (some root)) :
    TokenizePairs tk doc =
      match encNode tk.vocab tk.ct [] 0 false root with
      | .error e => .err e
      | .ok r => .ok r.1 := by
  obtain ⟨hws, n, a, c, rfl, hn⟩ := transformDoc_shape tk.vocab doc root hpl htr
  unfold TokenizePairs
  rw [htr]
  dsimp only
  rw [encodeLoop_root tk.vocab tk.ct n a c hws (plain_ne_virtual n hn)]
  rcases h : encNode tk.vocab tk.ct [] 0 false (.elem n a c) with e | r
  · rfl
  · rfl

end Arbor

namespace Arbor

theorem rangeMap_eq_take_pad (t : Nat) (p : List Int) (pad : Int) :
    (List.range t).map (fun j => if h : j < p.length then p.get ⟨j, h⟩ else pad) =
      p.take t ++ List.replicate (t - p.length) pad := by
  apply List.ext_getElem
  · simp only [List.length_map, List.length_range, List.length_append,
      List.length_take, List.length_replicate]
    omega
  · intro j hj1 hj2
    have hjt : j < t := by simpa using hj1
    simp only [List.getElem_map, List.getElem_range]
    rcases Nat.lt_or_ge j p.length with hc | hc
    · rw [dif_pos hc]
      rw [List.getElem_append_left (by simp only [List.length_take]; omega)]
      simp
    · rw [dif_neg (by omega)]
      rw [List.getElem_append_right (by simp only [List.length_take]; omega)]
      simp

theorem paddedFold_nonneg (paths : List (List Int)) (init : Int) (h0 : 0 ≤ init) :
    0 ≤ paths.foldl
      (fun acc p => if (p.length : Int) > acc then (p.length : Int) else acc) init := by
  induction paths generalizing init with
  | nil => simpa using h0
  | cons p rest ih =>
      simp only [List.foldl_cons]
      apply ih
      split
      · positivity
      · exact h0

end Arbor

namespace Arbor

/-- C8 (corrected): `getPaddedPaths` is total and correct only for
non-negative target widths: it then returns one row per input path, each
row of exactly the target width (the observed maximum row length when the
requested width is 0), equal to the input path truncated to the width and
right-padded with the pad value.  For a negative width it panics (see the
counterexample), so the claimed totality on *every* width fails. -/
theorem C8_padded_paths (paths : List (List Int)) (w pad : Int) (hw : 0 ≤ w) :
    ∃ m, getPaddedPaths paths w pad = some m ∧
      m.length = paths.length ∧
      (∀ row ∈ m, (row.length : Int) =
        (if w = 0 then paths.foldl
          (fun acc p => if (p.length : Int) > acc then (p.length : Int) else acc) 0
         else w)) ∧
      ∀ (i : Nat) (hi : i < paths.length),
        m.get? i = some ((paths.get ⟨i, hi⟩).take
            (if w = 0 then paths.foldl
              (fun acc p => if (p.length : Int) > acc then (p.length : Int) else acc) 0
             else w).toNat ++
          List.replicate ((if w = 0 then paths.foldl
              (fun acc p => if (p.length : Int) > acc then (p.length : Int) else acc) 0
             else w).toNat - (paths.get ⟨i, hi⟩).length) pad) := by
  have hmd : 0 ≤ (if w = 0 then paths.foldl
      (fun acc p => if (p.length : Int) > acc then (p.length : Int) else acc) 0
     else w) := by
    split
    · exact paddedFold_nonneg paths 0 le_rfl
    · exact hw
  refine ⟨paths.map (fun p => (List.range (if w = 0 then paths.foldl
      (fun acc p => if (p.length : Int) > acc then (p.length : Int) else acc) 0
     else w).toNat).map
      (fun j => if h : j < p.length then p.get ⟨j, h⟩ else pad)), ?_, ?_, ?_, ?_⟩
  · unfold getPaddedPaths
    rw [if_neg (by intro hcon; omega)]
  · simp
  · intro row hrow
    simp only [List.mem_map] at hrow
    obtain ⟨p, _, rfl⟩ := hrow
    simp [Int.toNat_of_nonneg hmd]
  · intro i hi
    rw [List.get?_map, List.get?_eq_get hi]
    dsimp only [Option.map]
    rw [rangeMap_eq_take_pad]

/-- C8 counterexample: a negative requested width reaches
`make([]int, maxDepth)` with a negative length inside the row loop — a
run-time panic (`none`), so `getPaddedPaths` is not total. -/
theorem C8_counterexample : getPaddedPaths [[0]] (-1) 7 = none := by rfl

theorem C8_padded_paths_witness :
    0 ≤ (3 : Int) ∧
      ∃ m, getPaddedPaths [[1, 2], [5]] 3 (-1) = some m ∧
        m.length = ([[1, 2], [5]] : List (List Int)).length ∧
        (∀ row ∈ m, (row.length : Int) =
          (if (3 : Int) = 0 then ([[1, 2], [5]] : List (List Int)).foldl
            (fun acc p => if (p.length : Int) > acc then (p.length : Int) else acc) 0
           else 3)) ∧
        ∀ (i : Nat) (hi : i < ([[1, 2], [5]] : List (List Int)).length),
          m.get? i = some ((([[1, 2], [5]] : List (List Int)).get ⟨i, hi⟩).take
              (if (3 : Int) = 0 then ([[1, 2], [5]] : List (List Int)).foldl
                (fun acc p => if (p.length : Int) > acc then (p.length : Int) else acc) 0
               else 3).toNat ++
            List.replicate ((if (3 : Int) = 0 then ([[1, 2], [5]] : List (List Int)).foldl
                (fun acc p => if (p.length : Int) > acc then (p.length : Int) else acc) 0
               else 3).toNat - (([[1, 2], [5]] : List (List Int)).get ⟨i, hi⟩).length) (-1)) :=
  ⟨by decide, C8_padded_paths [[1, 2], [5]] 3 (-1) (by decide)⟩

/-- C10 (code bug): with an empty or whitespace-only document the
transformer returns a nil root, and `Tokenize` calls
`rootElement.String()` on the nil pointer — a run-time panic rather than
a result or error; the nil-root case is not handled. -/
theorem C10_empty_doc_panic (tk : Tokenizer) (s : String) :
    Tokenize tk [] = .panics ∧ Tokenize tk [.text s] = .panics := ⟨rfl, rfl⟩

end Arbor

namespace Arbor

/-- C6 (corrected): `NewTokenizer` fails with a `vocabConflict` error
naming an offending tag and id exactly when the vocabulary contains an id
*below* the reserved bound `Cl100kBaseMaxID`; on success every id is at
least the bound — but an id *equal* to the bound is accepted, so the
claimed "strictly greater than" guarantee fails (see the
counterexample). -/
theorem C6_vocab_isolation (v : Vocab) (ct : ContentTok) :
    (∀ tk', NewTokenizer v ct = .ok tk' → ∀ p ∈ v, Cl100kBaseMaxID ≤ p.2) ∧
      ((∃ p ∈ v, p.2 < Cl100kBaseMaxID) →
        ∃ tag i, NewTokenizer v ct = .error (.vocabConflict tag i) ∧
          (tag, i) ∈ v ∧ i < Cl100kBaseMaxID) := by
  constructor
  · intro tk' hok
    rcases hchk : checkVocabIds v with e | u
    · unfold NewTokenizer at hok
      rw [hchk] at hok
      cases hok
    · obtain ⟨⟩ := u
      exact (checkVocabIds_ok_iff v).mp hchk
  · intro hviol
    obtain ⟨tag, i, heq, hmem, hlt⟩ := checkVocabIds_violation_error v hviol
    refine ⟨tag, i, ?_, hmem, hlt⟩
    unfold NewTokenizer
    rw [heq]
    rfl

/-- C6 counterexample: an id exactly equal to the reserved bound
`Cl100kBaseMaxID` is *not* strictly greater than the bound, yet
`NewTokenizer` accepts it. -/
theorem C6_counterexample :
    NewTokenizer [("t", (100500 : Int))] ⟨fun _ => [], fun _ => ""⟩ =
        .ok ⟨[("t", (100500 : Int))], ⟨fun _ => [], fun _ => ""⟩⟩ ∧
      ¬ (100500 : Int) > Cl100kBaseMaxID := by
  constructor
  · rfl
  · decide

theorem C6_vocab_isolation_witness :
    ∃ tag i, NewTokenizer [("t", (5 : Int))] ⟨fun _ => [], fun _ => ""⟩ =
        .error (.vocabConflict tag i) ∧
      (tag, i) ∈ [("t", (5 : Int))] ∧ i < Cl100kBaseMaxID :=
  (C6_vocab_isolation [("t", (5 : Int))] ⟨fun _ => [], fun _ => ""⟩).2
    ⟨("t", (5 : Int)), by simp, by decide⟩

end Arbor

namespace Arbor

/-- C9 (confirmed): any of the five context-dependent control tokens
(key open/close, value open/close, bucket close) encountered by the
`DecodeXML` main loop — whatever the current stack — is silently
skipped: the loop continues on the remaining tokens and the token never
produces an error. -/
theorem C9_control_skip (tk : Tokenizer) (t : Int) (rest : List Int)
    (stack : List DecElem) (cr : Option Node)
    (hs : tokStr tk t ∈ [TokenKey, TokenKeyEnd, TokenValue, TokenValueEnd,
      TokenUnregisteredAttrEnd]) :
    decodeLoop tk (t :: rest) stack cr = decodeLoop tk rest stack cr := by
  rw [decodeLoop.eq_def]
  dsimp only
  simp only [List.mem_cons, List.mem_singleton, List.not_mem_nil, or_false] at hs
  rcases hs with hs | hs | hs | hs | hs
  all_goals rw [hs]
  all_goals rw [if_neg (by decide), if_neg (by decide)]
  all_goals cases stack with
  | nil => rfl
  | cons cur below =>
      dsimp only
      rw [if_neg (by decide), if_neg (by decide), if_pos (by decide)]

theorem C9_control_skip_witness :
    tokStr ⟨[("<__Key>", (100510 : Int))], ⟨fun _ => [], fun _ => ""⟩⟩ 100510 ∈
        [TokenKey, TokenKeyEnd, TokenValue, TokenValueEnd, TokenUnregisteredAttrEnd] ∧
      decodeLoop ⟨[("<__Key>", (100510 : Int))], ⟨fun _ => [], fun _ => ""⟩⟩
          [(100510 : Int)] [] none =
        decodeLoop ⟨[("<__Key>", (100510 : Int))], ⟨fun _ => [], fun _ => ""⟩⟩ [] [] none :=
  ⟨by decide, C9_control_skip ⟨[("<__Key>", (100510 : Int))], ⟨fun _ => [], fun _ => ""⟩⟩
    100510 [] [] none (by decide)⟩

end Arbor

namespace Arbor

/-- Shared concrete fixture vocabulary for the claim witnesses. -/
def wV : Vocab :=
  [("<Root>", 100501), ("</Root>", 100502), ("<A>", 100503), ("</A>", 100504),
   ("@id", 100505), ("</__Value>", 100506), ("<B>", 100507), ("</B>", 100508)]

/-- Shared concrete fixture content tokenizer for the claim witnesses:
every string is one token `7` decoding to `"x"`. -/
def wCt : ContentTok := ⟨fun _ => [7], fun _ => "x"⟩

/-- C3 (confirmed): when the encoder machine processes one complete
well-shaped element — from its open event through its matching close
event — the close token is emitted with exactly the path of the matching
open token, in any machine state: for an ordinary element the block
appended to the accumulator is `(openId, path) … (closeId, path)`, and
for a registered-attribute wrapper it is
`(attrId, path) … (valueEndId, path)`. -/
theorem C3_close_path (v : Vocab) (ct : ContentTok) (name : String)
    (attrs : List (String × String)) (children : List Node) (f : StackItem)
    (st : List StackItem) (acc : List (Int × List Int))
    (res : List StackItem × List (Int × List Int))
    (hws : wellShaped (.elem name attrs children) = true)
    (hok : encodeLoop v ct (Node.events (.elem name attrs children)) (f :: st) acc =
      .ok res) :
    (∀ id idc, (name == VirtualAttrTag) = false →
      vlookup v (plainTag name) = some id →
      vlookup v ("</" ++ name ++ ">") = some idc →
      ∃ path inner, res.2 = acc ++ ((id, path) :: inner ++ [(idc, path)])) ∧
    (∀ ka va nm vs id idc, (name == VirtualAttrTag) = true →
      children = [.elem "__Key" ka [.text nm], .elem "__Value" va vs] →
      vlookup v ("@" ++ nm) = some id →
      vlookup v TokenValueEnd = some idc →
      ∃ path inner, res.2 = acc ++ ((id, path) :: inner ++ [(idc, path)])) := by
  rw [show Node.events (.elem name attrs children) =
    Node.events (.elem name attrs children) ++ [] from (List.append_nil _).symm] at hok
  rw [encodeLoop_events v ct _ hws [] f st acc] at hok
  constructor
  · intro id idc hv' hop hcl
    rw [encNode_plain v ct _ _ _ name attrs children hv', hop] at hok
    rcases hin : encChildren v ct
        (getCurrentPath (f :: st) ++ [if plainIsAttr name then 0 else f.childrenCounter])
        (if plainIsAttr name || strHasPfx (plainTag name) "<__" then 0 else 1)
        (plainOrdered name attrs) children with e | r
    · rw [hin] at hok
      cases hok
    · rw [hin, hcl] at hok
      dsimp only at hok
      rw [encodeLoop_nil] at hok
      refine ⟨getCurrentPath (f :: st) ++ [if plainIsAttr name then 0 else f.childrenCounter],
        r.1, ?_⟩
      have hpair := Except.ok.inj hok
      have := congrArg Prod.snd hpair
      simp only at this
      rw [← this]
      simp
  · intro ka va nm vs id idc hv hch hop hcl
    subst hch
    have hn : name = VirtualAttrTag := by simpa using hv
    subst hn
    rw [encNode_virtual v ct _ _ _ attrs ka va nm vs, hop] at hok
    rcases hin : encChildren v ct (getCurrentPath (f :: st) ++ [0]) 0 true vs
      with e | r
    · rw [hin] at hok
      cases hok
    · rw [hin, hcl] at hok
      dsimp only at hok
      rw [encodeLoop_nil] at hok
      refine ⟨getCurrentPath (f :: st) ++ [(0 : Int)], r.1, ?_⟩
      have hpair := Except.ok.inj hok
      have := congrArg Prod.snd hpair
      simp only at this
      rw [← this]
      simp

end Arbor

namespace Arbor

theorem C3_close_path_witness :
    (∀ id idc, (("A" : String) == VirtualAttrTag) = false →
      vlookup wV (plainTag "A") = some id →
      vlookup wV ("</" ++ "A" ++ ">") = some idc →
      ∃ path inner,
        (([⟨(1 : Int), false, (0 : Int), false⟩],
          [((100503 : Int), [(0 : Int), 1]), ((100504 : Int), [(0 : Int), 1])]) :
            List StackItem × List (Int × List Int)).2 =
          [] ++ ((id, path) :: inner ++ [(idc, path)])) ∧
    (∀ ka va nm vs id idc, (("A" : String) == VirtualAttrTag) = true →
      ([] : List Node) = [.elem "__Key" ka [.text nm], .elem "__Value" va vs] →
      vlookup wV ("@" ++ nm) = some id →
      vlookup wV TokenValueEnd = some idc →
      ∃ path inner,
        (([⟨(1 : Int), false, (0 : Int), false⟩],
          [((100503 : Int), [(0 : Int), 1]), ((100504 : Int), [(0 : Int), 1])]) :
            List StackItem × List (Int × List Int)).2 =
          [] ++ ((id, path) :: inner ++ [(idc, path)])) :=
  C3_close_path wV wCt "A" [] [] ⟨1, false, 0, false⟩ [] []
    ([⟨(1 : Int), false, (0 : Int), false⟩],
      [((100503 : Int), [(0 : Int), 1]), ((100504 : Int), [(0 : Int), 1])])
    (by rw [wellShaped_plain _ _ _ (by decide)]; exact wellShapedList_nil)
    (by simp [Node.events, Node.eventsList, encodeLoop, encOpen, wV, vlookup,
      plainTag, plainOrdered, plainIsAttr, getCurrentPath, strHasPfx, VirtualAttrTag,
      TokenValue, TokenValueEnd, TokenUnregisteredAttr, ArborOrderedAttribute, TokenEmpty])

end Arbor

namespace Arbor

mutual

/-- Reference depth assignment of the emitted token stream of a plain
tree: an element at nesting depth `d` contributes its open token at `d`,
its children's tokens one level deeper and its close token at `d`; a
nonempty text fragment at depth `d` contributes one entry at `d` per
content token. -/
def tokenDepths (ct : ContentTok) (d : Nat) : Node → List Nat
  | .text s => if s.length = 0 then [] else (ct.encode s).map (fun _ => d)
  | .elem _ _ cs => d :: (tokenDepthsList ct (d + 1) cs ++ [d])

/-- Concatenated `tokenDepths` over a sibling list. -/
def tokenDepthsList (ct : ContentTok) (d : Nat) : List Node → List Nat
  | [] => []
  | c :: cs => tokenDepths ct d c ++ tokenDepthsList ct d cs

end

mutual

/-- Every element tag of the tree has its close spelling in the
vocabulary (so the encoder emits a close token for each element). -/
def closedTags (v : Vocab) : Node → Bool
  | .text _ => true
  | .elem n _ cs => (vlookup v ("</" ++ n ++ ">")).isSome && closedTagsList v cs

/-- Pointwise `closedTags` over a sibling list. -/
def closedTagsList (v : Vocab) : List Node → Bool
  | [] => true
  | c :: cs => closedTags v c && closedTagsList v cs

end

theorem mapIdx_path_lengths (l : List Int) (p : List Int) (c : Int) :
    (List.mapIdx (fun i t => (t, p ++ [c + (i : Int)])) l).map
      (fun pr : Int × List Int => pr.2.length) =
    l.map (fun _ => p.length + 1) := by
  rw [List.mapIdx_eq_enum_map, List.map_map]
  apply List.ext_getElem (by simp)
  intro i h1 h2
  simp [Function.uncurry]

mutual

theorem encNode_depths (v : Vocab) (ct : ContentTok) (p : List Int) (c : Int)
    (pord : Bool) (n : Node) (r : List (Int × List Int) × Int)
    (hpn : plainNames n = true) (hct : closedTags v n = true)
    (h : encNode v ct p c pord n = .ok r) :
    r.1.map (fun pr => pr.2.length) = (tokenDepths ct p.length n).map (· + 1) := by
  match n with
  | .text s =>
      rw [encNode_text] at h
      by_cases hz : s.length = 0
      · rw [if_pos hz] at h
        simp only [Except.ok.injEq] at h
        subst h
        simp [tokenDepths, hz]
      · rw [if_neg hz] at h
        simp only [Except.ok.injEq] at h
        subst h
        simp only [tokenDepths, if_neg hz]
        rw [mapIdx_path_lengths]
        simp
  | .elem name attrs children =>
      have hsp : strHasPfx name "__" = false ∧ plainNamesList children = true := by
        rw [plainNames.eq_def] at hpn
        simpa using hpn
      have hcts : (vlookup v ("</" ++ name ++ ">")).isSome = true ∧
          closedTagsList v children = true := by
        rw [closedTags.eq_def] at hct
        simpa using hct
      rw [encNode_plain v ct p c pord name attrs children
        (plain_ne_virtual name hsp.1)] at h
      rcases hvl : vlookup v (plainTag name) with _ | id
      · rw [hvl] at h
        cases h
      · rw [hvl] at h
        rcases hin : encChildren v ct (p ++ [if plainIsAttr name then 0 else c])
            (if plainIsAttr name || strHasPfx (plainTag name) "<__" then 0 else 1)
            (plainOrdered name attrs) children with e | r2
        · rw [hin] at h
          cases h
        · rw [hin] at h
          rcases hcv : vlookup v ("</" ++ name ++ ">") with _ | idc
          · rw [hcv] at hcts
            simp at hcts
          · rw [hcv] at h
            dsimp only at h
            simp only [Except.ok.injEq] at h
            subst h
            have ih := encChildren_depths v ct (p ++ [if plainIsAttr name then 0 else c])
              (if plainIsAttr name || strHasPfx (plainTag name) "<__" then 0 else 1)
              (plainOrdered name attrs) children r2 hsp.2 hcts.2 hin
            simp only [tokenDepths]
            simp only [List.map_cons, List.map_append, List.map_cons, List.map_nil]
            rw [show (p ++ [if plainIsAttr name then 0 else c]).length = p.length + 1
              from by simp] at ih
            simp [ih]
termination_by sizeOf n

theorem encChildren_depths (v : Vocab) (ct : ContentTok) (p : List Int) (c : Int)
    (ord : Bool) (l : List Node) (r : List (Int × List Int) × Int)
    (hpn : plainNamesList l = true) (hct : closedTagsList v l = true)
    (h : encChildren v ct p c ord l = .ok r) :
    r.1.map (fun pr => pr.2.length) = (tokenDepthsList ct p.length l).map (· + 1) := by
  match l with
  | [] =>
      rw [encChildren_nil] at h
      simp only [Except.ok.injEq] at h
      subst h
      simp [tokenDepthsList]
  | n :: rest =>
      rw [encChildren_cons] at h
      rcases h1 : encNode v ct p c ord n with e | r1
      · rw [h1] at h
        cases h
      · rw [h1] at h
        dsimp only at h
        rcases h2 : encChildren v ct p r1.2 ord rest with e | r2
        · rw [h2] at h
          cases h
        · rw [h2] at h
          dsimp only at h
          simp only [Except.ok.injEq] at h
          subst h
          have hsp : plainNames n = true ∧ plainNamesList rest = true := by
            rw [plainNamesList.eq_def] at hpn
            simpa using hpn
          have hcs : closedTags v n = true ∧ closedTagsList v rest = true := by
            rw [closedTagsList.eq_def] at hct
            simpa using hct
          have ihn := encNode_depths v ct p c ord n r1 hsp.1 hcs.1 h1
          have ihr := encChildren_depths v ct p r1.2 ord rest r2 hsp.2 hcs.2 h2
          simp [tokenDepthsList, ihn, ihr]
termination_by sizeOf l

end

end Arbor

namespace Arbor

mutual

/-- Number of tree levels of a node (a leaf element or text fragment is
one level). -/
def Node.height : Node → Nat
  | .text _ => 1
  | .elem _ _ cs => 1 + Node.heightList cs

/-- Maximum height over a sibling list. -/
def Node.heightList : List Node → Nat
  | [] => 0
  | c :: cs => max (Node.height c) (Node.heightList cs)

end

/-- C5 (corrected): for documents whose *transformed* root has only plain
element names (no attribute wrapper elements, i.e. attribute-free
documents) and every close tag in vocabulary, each emitted (token, path)
pair's unpadded path length is exactly the token's nesting depth plus
one: the root's open and close tokens get path length 1, a depth-`d`
token gets path length `d + 1`.  With attributes present this fails (see
the counterexample). -/
theorem C5_path_depth (tk : Tokenizer) (doc : List Node) (root : Node)
    (pairs : List (Int × List Int))
    (hpl : plainNamesList doc = true)
    (htr : transformDoc tk.vocab doc = .ok (some root))
    (hplr : plainNames root = true)
    (hct : closedTags tk.vocab root = true)
    (hok : TokenizePairs tk doc = .ok pairs) :
    pairs.map (fun pr => pr.2.length) = (tokenDepths tk.ct 0 root).map (· + 1) := by
  rw [TokenizePairs_eq tk doc root hpl htr] at hok
  rcases h : encNode tk.vocab tk.ct [] 0 false root with e | r
  · rw [h] at hok
    cases hok
  · rw [h] at hok
    dsimp only at hok
    have hp : pairs = r.1 := by
      cases hok
      rfl
    subst hp
    have := encNode_depths tk.vocab tk.ct [] 0 false root r hplr hct h
    simpa using this

/-- C5 counterexample: a document that is a single attribute-carrying
root element has exactly one tree level, yet tokenizing it emits a pair
(the registered attribute's value content token) whose path is longer
than the document height — the path cannot have "one entry per tree
level from the root down to the token". -/
theorem C5_counterexample :
    TokenizePairs ⟨wV, wCt⟩ [.elem "Root" [("id", "k")] []] =
        .ok [((100501 : Int), [0]), (100505, [0, 0]), (7, [0, 0, 0]),
          (100506, [0, 0]), (100502, [0])] ∧
      ∃ pr ∈ [((100501 : Int), [(0 : Int)]), (100505, [0, 0]), (7, [0, 0, 0]),
          (100506, [0, 0]), (100502, [0])],
        Node.heightList [Node.elem "Root" [("id", "k")] []] < pr.2.length := by
  constructor
  · simp [TokenizePairs, transformDoc, transformElem, transformChildren, attrsToChildren,
      processAttributeToElement, wV, vlookup, List.mergeSort, ArborOrderedAttribute,
      fallbackTokens, TokenEmpty, TokenUnregisteredAttr, TokenUnregisteredAttrEnd,
      TokenKey, TokenKeyEnd, TokenValue, TokenValueEnd, VirtualAttrTag,
      Node.events, Node.eventsList, encodeLoop, extractRegisteredAttrName, encOpen,
      plainTag, plainOrdered, plainIsAttr, getCurrentPath, strHasPfx, wCt]
    rfl
  · refine ⟨(7, [0, 0, 0]), by simp, ?_⟩
    simp [Node.heightList, Node.height]

end Arbor

namespace Arbor

theorem C5_path_depth_witness :
    ([((100501 : Int), [(0 : Int)]), (100503, [0, 1]), (100504, [0, 1]),
        (100502, [0])].map (fun pr => pr.2.length)) =
      (tokenDepths wCt 0 (.elem "Root" [] [.elem "A" [] []])).map (· + 1) :=
  C5_path_depth ⟨wV, wCt⟩ [.elem "Root" [] [.elem "A" [] []]]
    (.elem "Root" [] [.elem "A" [] []])
    [((100501 : Int), [(0 : Int)]), (100503, [0, 1]), (100504, [0, 1]), (100502, [0])]
    (by simp [plainNamesList, plainNames, strHasPfx]; decide)
    (by simp [transformDoc, transformElem, transformChildren, attrsToChildren, wV,
      vlookup, List.mergeSort, ArborOrderedAttribute])
    (by simp [plainNames, plainNamesList, strHasPfx]; decide)
    (by simp [closedTags, closedTagsList, wV, vlookup])
    (by simp [TokenizePairs, transformDoc, transformElem, transformChildren,
      attrsToChildren, wV, vlookup, List.mergeSort, ArborOrderedAttribute,
      Node.events, Node.eventsList, encodeLoop, encOpen, plainTag, plainOrdered,
      plainIsAttr, getCurrentPath, strHasPfx, VirtualAttrTag, TokenValue,
      TokenValueEnd, TokenUnregisteredAttr, TokenEmpty])

end Arbor

namespace Arbor

mutual

/-- Whether some element of the tree has an open or close tag spelling
missing from the vocabulary. -/
def hasMissingTag (v : Vocab) : Node → Bool
  | .text _ => false
  | .elem n _ cs =>
      (vlookup v ("<" ++ n ++ ">")).isNone || (vlookup v ("</" ++ n ++ ">")).isNone ||
        hasMissingTagList v cs

/-- `hasMissingTag` over a sibling list. -/
def hasMissingTagList (v : Vocab) : List Node → Bool
  | [] => false
  | c :: cs => hasMissingTag v c || hasMissingTagList v cs

end

/-- Whether one attribute converts without error. -/
def attrOK (v : Vocab) (a : String × String) : Bool :=
  match processAttributeToElement v a with
  | .ok _ => true
  | .error _ => false

mutual

/-- Whether every attribute conversion in the tree succeeds (the
transformer's attribute loop never fails). -/
def attrsOKNode (v : Vocab) : Node → Bool
  | .text _ => true
  | .elem _ a cs =>
      ((a.mergeSort (fun x y => x.1 ≤ y.1)).filter
        (fun x => x.1 ≠ ArborOrderedAttribute)).all (fun x => attrOK v x) &&
        attrsOKList v cs

/-- `attrsOKNode` over a sibling list. -/
def attrsOKList (v : Vocab) : List Node → Bool
  | [] => true
  | c :: cs => attrsOKNode v c && attrsOKList v cs

end

mutual

/-- Whether the tree mentions an element whose open or close spelling is
the given tag string. -/
def mentionsTag (t : String) : Node → Bool
  | .text _ => false
  | .elem n _ cs =>
      (t == "<" ++ n ++ ">") || (t == "</" ++ n ++ ">") || mentionsTagList t cs

/-- `mentionsTag` over a sibling list. -/
def mentionsTagList (t : String) : List Node → Bool
  | [] => false
  | c :: cs => mentionsTag t c || mentionsTagList t cs

end

theorem isNone_false_isSome {α : Type} (o : Option α) (h : o.isNone = false) :
    o.isSome = true := by
  cases o
  · cases h
  · rfl

theorem attrsToChildren_total (v : Vocab) (l : List (String × String))
    (h : ∀ a ∈ l, attrOK v a = true) : ∃ ns, attrsToChildren v l = .ok ns := by
  induction l with
  | nil => exact ⟨[], rfl⟩
  | cons a rest ih =>
      have ha := h a (List.mem_cons_self _ _)
      unfold attrOK at ha
      rcases hp : processAttributeToElement v a with e | n
      · rw [hp] at ha
        cases ha
      · obtain ⟨ns, hns⟩ := ih (fun x hx => h x (List.mem_cons_of_mem _ hx))
        refine ⟨n :: ns, ?_⟩
        unfold attrsToChildren
        rw [hp, hns]

end Arbor

namespace Arbor

mutual

theorem transformElem_total (v : Vocab) (name : String)
    (attrs : List (String × String)) (children : List Node)
    (hm : hasMissingTag v (.elem name attrs children) = false)
    (ha : attrsOKNode v (.elem name attrs children) = true) :
    ∃ e, transformElem v name attrs children = .ok e := by
  have hm3 : (vlookup v ("<" ++ name ++ ">")).isSome = true ∧
      (vlookup v ("</" ++ name ++ ">")).isSome = true ∧
      hasMissingTagList v children = false := by
    rw [hasMissingTag.eq_def] at hm
    simp only [Bool.or_eq_false_iff] at hm
    exact ⟨isNone_false_isSome _ hm.1.1, isNone_false_isSome _ hm.1.2, hm.2⟩
  have ha2 : (∀ a ∈ (attrs.mergeSort (fun x y => x.1 ≤ y.1)).filter
      (fun x => x.1 ≠ ArborOrderedAttribute), attrOK v a = true) ∧
      attrsOKList v children = true := by
    rw [attrsOKNode.eq_def] at ha
    simp only [Bool.and_eq_true, List.all_eq_true] at ha
    exact ⟨fun a haa => ha.1 a haa, ha.2⟩
  obtain ⟨ns, hns⟩ := attrsToChildren_total v _ ha2.1
  obtain ⟨r, hr⟩ := transformChildren_total v children hm3.2.2 ha2.2
  rcases ho : vlookup v ("<" ++ name ++ ">") with _ | oid
  · rw [ho] at hm3
    simp at hm3
  · rcases hc : vlookup v ("</" ++ name ++ ">") with _ | cid
    · rw [hc] at hm3
      simp at hm3
    · refine ⟨.elem name
        (match (attrs.mergeSort (fun x y => x.1 ≤ y.1)).find?
            (fun x => x.1 == ArborOrderedAttribute) with
          | some a => [a]
          | none => []) (ns ++ r), ?_⟩
      unfold transformElem
      rw [ho, hns, hr, hc]
termination_by sizeOf children + 1

theorem transformChildren_total (v : Vocab) (l : List Node)
    (hm : hasMissingTagList v l = false) (ha : attrsOKList v l = true) :
    ∃ r, transformChildren v l = .ok r := by
  match l with
  | [] => exact ⟨[], by rw [transformChildren.eq_def]⟩
  | .text s :: rest =>
      have hm' : hasMissingTagList v rest = false := by
        rw [hasMissingTagList.eq_def] at hm
        simpa [hasMissingTag] using hm
      have ha' : attrsOKList v rest = true := by
        rw [attrsOKList.eq_def] at ha
        simpa [attrsOKNode] using ha
      obtain ⟨r, hr⟩ := transformChildren_total v rest hm' ha'
      refine ⟨if goTrim s = "" then r else .text (goTrim s) :: r, ?_⟩
      unfold transformChildren
      rw [hr]
      dsimp only
      split
      · rfl
      · rfl
  | .elem n a c :: rest =>
      have hm2 : hasMissingTag v (.elem n a c) = false ∧
          hasMissingTagList v rest = false := by
        rw [hasMissingTagList.eq_def] at hm
        simpa using hm
      have ha2 : attrsOKNode v (.elem n a c) = true ∧ attrsOKList v rest = true := by
        rw [attrsOKList.eq_def] at ha
        simpa using ha
      obtain ⟨e, he⟩ := transformElem_total v n a c hm2.1 ha2.1
      obtain ⟨r, hr⟩ := transformChildren_total v rest hm2.2 ha2.2
      refine ⟨e :: r, ?_⟩
      unfold transformChildren
      rw [he, hr]
termination_by sizeOf l
decreasing_by
all_goals simp_wf
all_goals omega

end

end Arbor

namespace Arbor

mutual

theorem transformElem_missing (v : Vocab) (name : String)
    (attrs : List (String × String)) (children : List Node)
    (hm : hasMissingTag v (.elem name attrs children) = true)
    (ha : attrsOKNode v (.elem name attrs children) = true) :
    ∃ t, transformElem v name attrs children = .error (.unknownTag t) ∧
      vlookup v t = none ∧ mentionsTag t (.elem name attrs children) = true := by
  have ha2 : (∀ a ∈ (attrs.mergeSort (fun x y => x.1 ≤ y.1)).filter
      (fun x => x.1 ≠ ArborOrderedAttribute), attrOK v a = true) ∧
      attrsOKList v children = true := by
    rw [attrsOKNode.eq_def] at ha
    simp only [Bool.and_eq_true, List.all_eq_true] at ha
    exact ⟨fun a haa => ha.1 a haa, ha.2⟩
  rcases ho : vlookup v ("<" ++ name ++ ">") with _ | oid
  · refine ⟨"<" ++ name ++ ">", ?_, ho, ?_⟩
    · unfold transformElem
      rw [ho]
    · rw [mentionsTag.eq_def]
      simp
  · obtain ⟨ns, hns⟩ := attrsToChildren_total v _ ha2.1
    by_cases hml : hasMissingTagList v children = true
    · obtain ⟨t, ht, hvt, hmt⟩ := transformChildren_missing v children hml ha2.2
      refine ⟨t, ?_, hvt, ?_⟩
      · unfold transformElem
        rw [ho]
        dsimp only
        rw [hns]
        dsimp only
        rw [ht]
      · rw [mentionsTag.eq_def]
        simp [hmt]
    · have hml' : hasMissingTagList v children = false := by simpa using hml
      have hc : vlookup v ("</" ++ name ++ ">") = none := by
        rw [hasMissingTag.eq_def] at hm
        simp only [Bool.or_eq_true] at hm
        rcases hm with (h1 | h2) | h3
        · rw [ho] at h1
          cases h1
        · exact Option.isNone_iff_eq_none.mp h2
        · rw [hml'] at h3
          cases h3
      obtain ⟨r, hr⟩ := transformChildren_total v children hml' ha2.2
      refine ⟨"</" ++ name ++ ">", ?_, hc, ?_⟩
      · unfold transformElem
        rw [ho]
        dsimp only
        rw [hns]
        dsimp only
        rw [hr]
        dsimp only
        rw [hc]
      · rw [mentionsTag.eq_def]
        simp
termination_by sizeOf children + 1

theorem transformChildren_missing (v : Vocab) (l : List Node)
    (hm : hasMissingTagList v l = true) (ha : attrsOKList v l = true) :
    ∃ t, transformChildren v l = .error (.unknownTag t) ∧
      vlookup v t = none ∧ mentionsTagList t l = true := by
  match l with
  | [] =>
      rw [hasMissingTagList.eq_def] at hm
      cases hm
  | .text s :: rest =>
      have hm' : hasMissingTagList v rest = true := by
        rw [hasMissingTagList.eq_def] at hm
        simpa [hasMissingTag] using hm
      have ha' : attrsOKList v rest = true := by
        rw [attrsOKList.eq_def] at ha
        simpa [attrsOKNode] using ha
      obtain ⟨t, ht, hvt, hmt⟩ := transformChildren_missing v rest hm' ha'
      refine ⟨t, ?_, hvt, ?_⟩
      · unfold transformChildren
        rw [ht]
      · rw [mentionsTagList.eq_def]
        simp [mentionsTag, hmt]
  | .elem n a c :: rest =>
      have ha2 : attrsOKNode v (.elem n a c) = true ∧ attrsOKList v rest = true := by
        rw [attrsOKList.eq_def] at ha
        simpa using ha
      by_cases hme : hasMissingTag v (.elem n a c) = true
      · obtain ⟨t, ht, hvt, hmt⟩ := transformElem_missing v n a c hme ha2.1
        refine ⟨t, ?_, hvt, ?_⟩
        · unfold transformChildren
          rw [ht]
        · rw [mentionsTagList.eq_def]
          simp [hmt]
      · have hme' : hasMissingTag v (.elem n a c) = false := by simpa using hme
        have hm' : hasMissingTagList v rest = true := by
          rw [hasMissingTagList.eq_def] at hm
          dsimp only at hm
          rw [hme'] at hm
          simpa using hm
        obtain ⟨e, he⟩ := transformElem_total v n a c hme' ha2.1
        obtain ⟨t, ht, hvt, hmt⟩ := transformChildren_missing v rest hm' ha2.2
        refine ⟨t, ?_, hvt, ?_⟩
        · unfold transformChildren
          rw [he]
          dsimp only
          rw [ht]
        · rw [mentionsTagList.eq_def]
          simp [hmt]
termination_by sizeOf l
decreasing_by
all_goals simp_wf
all_goals omega

end

end Arbor

namespace Arbor

theorem transformDoc_missing (v : Vocab) (doc : List Node)
    (hm : hasMissingTagList v doc = true) (ha : attrsOKList v doc = true) :
    ∃ t, transformDoc v doc = .error (.unknownTag t) ∧
      vlookup v t = none ∧ mentionsTagList t doc = true := by
  induction doc with
  | nil =>
      rw [hasMissingTagList.eq_def] at hm
      cases hm
  | cons hd rest ih =>
      cases hd with
      | text s =>
          have hm' : hasMissingTagList v rest = true := by
            rw [hasMissingTagList.eq_def] at hm
            simpa [hasMissingTag] using hm
          have ha' : attrsOKList v rest = true := by
            rw [attrsOKList.eq_def] at ha
            simpa [attrsOKNode] using ha
          obtain ⟨t, ht, hvt, hmt⟩ := ih hm' ha'
          refine ⟨t, by simpa [transformDoc] using ht, hvt, ?_⟩
          rw [mentionsTagList.eq_def]
          simp [mentionsTag, hmt]
      | elem n a c =>
          have ha2 : attrsOKNode v (.elem n a c) = true ∧ attrsOKList v rest = true := by
            rw [attrsOKList.eq_def] at ha
            simpa using ha
          by_cases hme : hasMissingTag v (.elem n a c) = true
          · obtain ⟨t, ht, hvt, hmt⟩ := transformElem_missing v n a c hme ha2.1
            refine ⟨t, ?_, hvt, ?_⟩
            · unfold transformDoc
              rw [ht]
            · rw [mentionsTagList.eq_def]
              simp [hmt]
          · have hme' : hasMissingTag v (.elem n a c) = false := by simpa using hme
            have hm' : hasMissingTagList v rest = true := by
              rw [hasMissingTagList.eq_def] at hm
              dsimp only at hm
              rw [hme'] at hm
              simpa using hm
            obtain ⟨e, he⟩ := transformElem_total v n a c hme' ha2.1
            obtain ⟨t, ht, hvt, hmt⟩ := ih hm' ha2.2
            refine ⟨t, ?_, hvt, ?_⟩
            · unfold transformDoc
              rw [he]
              dsimp only
              rw [ht]
            · rw [mentionsTagList.eq_def]
              simp [hmt]

/-- C7 (corrected): a document that mentions an element whose open or
close tag spelling is absent from the vocabulary — with all attribute
conversions succeeding, so the attribute fallback error cannot strike
first — makes the tokenize call fail during the Transform stage with an
`unknownTag` error naming a missing open/close tag spelling of the
document, and only the error (no partial token/path result) is
returned.  The attribute-convertibility proviso is necessary: without
it an unregistered attribute with missing fallback tokens fails first
with `missingFallback`, an error naming the attribute rather than any
tag (see `C7_counterexample`). -/
theorem C7_unknown_tag (tk : Tokenizer) (doc : List Node)
    (hm : hasMissingTagList tk.vocab doc = true)
    (ha : attrsOKList tk.vocab doc = true) :
    ∃ t, TokenizePairs tk doc = .err (.unknownTag t) ∧
      vlookup tk.vocab t = none ∧ mentionsTagList t doc = true := by
  obtain ⟨t, ht, hvt, hmt⟩ := transformDoc_missing tk.vocab doc hm ha
  refine ⟨t, ?_, hvt, hmt⟩
  unfold TokenizePairs
  rw [ht]

theorem C7_unknown_tag_witness :
    ∃ t, TokenizePairs ⟨wV, wCt⟩ [.elem "Zed" [] []] = .err (.unknownTag t) ∧
      vlookup wV t = none ∧ mentionsTagList t [.elem "Zed" [] []] = true :=
  C7_unknown_tag ⟨wV, wCt⟩ [.elem "Zed" [] []]
    (by simp [hasMissingTagList, hasMissingTag, wV, vlookup])
    (by simp [attrsOKList, attrsOKNode, List.mergeSort])

/-- C7 counterexample: a document with a missing tag (`<Zed>`/`</Zed>`
absent) and an unregistered attribute whose fallback tokens are missing
fails with `missingFallback` naming the *attribute*, not an `unknownTag`
error naming a tag — the attribute loop runs before the children are
transformed, so the original claim's "error naming that tag" is false
without the attribute-convertibility proviso. -/
theorem C7_counterexample :
    hasMissingTagList wV [.elem "A" [("bad", "x")] [.elem "Zed" [] []]] = true ∧
    TokenizePairs ⟨wV, wCt⟩ [.elem "A" [("bad", "x")] [.elem "Zed" [] []]] =
      .err (.missingFallback "@bad"
        [TokenUnregisteredAttr, TokenUnregisteredAttrEnd, TokenKey, TokenKeyEnd,
         TokenValue]) ∧
    (∀ t, TokenizePairs ⟨wV, wCt⟩ [.elem "A" [("bad", "x")] [.elem "Zed" [] []]] ≠
      .err (.unknownTag t)) := by
  refine ⟨by simp [hasMissingTagList, hasMissingTag, wV, vlookup], ?_, ?_⟩
  · simp [TokenizePairs, transformDoc, transformElem, transformChildren,
      attrsToChildren, processAttributeToElement, fallbackTokens, wV, vlookup,
      List.mergeSort, ArborOrderedAttribute, TokenUnregisteredAttr, TokenKey,
      TokenValue, TokenKeyEnd, TokenValueEnd, TokenUnregisteredAttrEnd, TokenEmpty]
  · intro t
    simp [TokenizePairs, transformDoc, transformElem, transformChildren,
      attrsToChildren, processAttributeToElement, fallbackTokens, wV, vlookup,
      List.mergeSort, ArborOrderedAttribute, TokenUnregisteredAttr, TokenKey,
      TokenValue, TokenKeyEnd, TokenValueEnd, TokenUnregisteredAttrEnd, TokenEmpty]

end Arbor

namespace Arbor

/-- Whether a node is an element (not a text fragment). -/
def Node.isElem : Node → Bool
  | .elem _ _ _ => true
  | .text _ => false

theorem isElem_shape (n : Node) (h : n.isElem = true) :
    ∃ nm a c, n = .elem nm a c := by
  cases n with
  | elem nm a c => exact ⟨nm, a, c, rfl⟩
  | text s => cases h

theorem transformChildren_elems (v : Vocab) (l : List Node) :
    ∀ r, (∀ n ∈ l, n.isElem = true) → transformChildren v l = .ok r →
      ∀ n ∈ r, n.isElem = true := by
  induction l with
  | nil =>
      intro r helems h
      rw [transformChildren.eq_def] at h
      simp only [Except.ok.injEq] at h
      subst h
      intro n hn
      cases hn
  | cons hd rest ih =>
      intro r helems h
      obtain ⟨nm, a, c, rfl⟩ := isElem_shape hd (helems hd (List.mem_cons_self _ _))
      rw [transformChildren.eq_def] at h
      dsimp only at h
      split at h
      · cases h
      · rename_i e he
        split at h
        · cases h
        · rename_i r0 hr0
          simp only [Except.ok.injEq] at h
          obtain ⟨a2, c2, rfl⟩ := transformElem_shape v nm a c e he
          intro n hn
          rw [← h] at hn
          rcases List.mem_cons.mp hn with rfl | hmem
          · rfl
          · exact ih r0 (fun x hx => helems x (List.mem_cons_of_mem _ hx)) hr0 n hmem

theorem transformChildren_perm (v : Vocab) {l l' : List Node} (hperm : l.Perm l') :
    (∀ n ∈ l, n.isElem = true) → ∀ r, transformChildren v l = .ok r →
      ∃ r', transformChildren v l' = .ok r' ∧ r.Perm r' := by
  induction hperm with
  | nil =>
      intro _ r h
      exact ⟨r, h, List.Perm.refl r⟩
  | cons x hp ih =>
      intro helems r h
      obtain ⟨nm, a, c, rfl⟩ := isElem_shape x (helems x (List.mem_cons_self _ _))
      rw [transformChildren.eq_def] at h
      dsimp only at h
      split at h
      · cases h
      · rename_i e he
        split at h
        · cases h
        · rename_i r0 hr0
          simp only [Except.ok.injEq] at h
          obtain ⟨r0', hr0', hpr⟩ :=
            ih (fun n hn => helems n (List.mem_cons_of_mem _ hn)) r0 hr0
          refine ⟨e :: r0', ?_, ?_⟩
          · rw [transformChildren.eq_def]
            dsimp only
            rw [he]
            dsimp only
            rw [hr0']
          · rw [← h]
            exact hpr.cons e
  | swap x y l₀ =>
      intro helems r h
      obtain ⟨ny, ay, cy, rfl⟩ := isElem_shape y (helems y (List.mem_cons_self _ _))
      obtain ⟨nx, ax, cx, rfl⟩ := isElem_shape x
        (helems _ (List.mem_cons_of_mem _ (List.mem_cons_self _ _)))
      rw [transformChildren.eq_def] at h
      dsimp only at h
      rcases hey : transformElem v ny ay cy with ee | ey
      · rw [hey] at h
        dsimp only at h
        cases h
      · rw [hey] at h
        dsimp only at h
        rw [transformChildren.eq_def] at h
        dsimp only at h
        rcases hex : transformElem v nx ax cx with ee | ex
        · rw [hex] at h
          dsimp only at h
          cases h
        · rw [hex] at h
          dsimp only at h
          rcases hr0 : transformChildren v l₀ with ee | r0
          · rw [hr0] at h
            dsimp only at h
            cases h
          · rw [hr0] at h
            dsimp only at h
            simp only [Except.ok.injEq] at h
            refine ⟨ex :: ey :: r0, ?_, ?_⟩
            · rw [transformChildren.eq_def]
              dsimp only
              rw [hex]
              dsimp only
              rw [transformChildren.eq_def]
              dsimp only
              rw [hey]
              dsimp only
              rw [hr0]
            · rw [← h]
              exact List.Perm.swap ex ey r0
  | trans h12 h23 ih12 ih23 =>
      intro helems r h
      obtain ⟨r2, hr2, hp2⟩ := ih12 helems r h
      obtain ⟨r3, hr3, hp3⟩ :=
        ih23 (fun n hn => helems n (h12.mem_iff.mpr hn)) r2 hr2
      exact ⟨r3, hr3, hp2.trans hp3⟩

end Arbor

namespace Arbor

theorem encNode_elem_counter (v : Vocab) (ct : ContentTok) (p : List Int)
    (c : Int) (n : Node) (r : List (Int × List Int) × Int)
    (helem : n.isElem = true) (h : encNode v ct p c false n = .ok r) :
    r.2 = c := by
  obtain ⟨nm, a, cs, rfl⟩ := isElem_shape n helem
  by_cases hv : (nm == VirtualAttrTag) = true
  · have hnm : nm = VirtualAttrTag := by simpa using hv
    subst hnm
    rw [encNode.eq_def] at h
    dsimp only at h
    rw [if_pos (by simp)] at h
    split at h
    · rename_i kn ka nmx vn va vs
      split at h
      · split at h
        · cases h
        · rcases hin : encChildren v ct (p ++ [0]) 0 true vs with e | r2
          · rw [hin] at h
            simp [Bind.bind, Except.bind] at h
          · rw [hin] at h
            simp only [Bind.bind, Except.bind, Pure.pure, Except.pure, Except.ok.injEq] at h
            rw [← h]
      · cases h
    · cases h
  · have hv' : (nm == VirtualAttrTag) = false := by simpa using hv
    rw [encNode_plain v ct p c false nm a cs hv'] at h
    rcases hvl : vlookup v (plainTag nm) with _ | id
    · rw [hvl] at h
      cases h
    · rw [hvl] at h
      rcases hin : encChildren v ct (p ++ [if plainIsAttr nm then 0 else c])
          (if plainIsAttr nm || strHasPfx (plainTag nm) "<__" then 0 else 1)
          (plainOrdered nm a) cs with e | r2
      · rw [hin] at h
        cases h
      · rw [hin] at h
        dsimp only at h
        simp only [Except.ok.injEq] at h
        rw [← h]
        by_cases ha : plainIsAttr nm = true
        · simp [ha]
        · simp [ha]

theorem encChildren_append (v : Vocab) (ct : ContentTok) (p : List Int)
    (o : Bool) (l₁ l₂ : List Node) : ∀ c,
    encChildren v ct p c o (l₁ ++ l₂) =
      match encChildren v ct p c o l₁ with
      | .error e => .error e
      | .ok r1 =>
          match encChildren v ct p r1.2 o l₂ with
          | .error e => .error e
          | .ok r2 => .ok (r1.1 ++ r2.1, r2.2) := by
  induction l₁ with
  | nil =>
      intro c
      simp only [List.nil_append, encChildren_nil]
      rcases h2 : encChildren v ct p c o l₂ with e | r2
      · rfl
      · rfl
  | cons n rest ih =>
      intro c
      simp only [List.cons_append]
      rw [encChildren_cons, encChildren_cons]
      rcases h1 : encNode v ct p c o n with e | r1
      · rfl
      · dsimp only
        rw [ih r1.2]
        rcases h2 : encChildren v ct p r1.2 o rest with e | r2
        · rfl
        · dsimp only
          rcases h3 : encChildren v ct p r2.2 o l₂ with e | r3
          · rfl
          · dsimp only
            simp [List.append_assoc]

end Arbor

namespace Arbor

theorem encChildren_perm (v : Vocab) (ct : ContentTok) (p : List Int)
    {l l' : List Node} (hperm : l.Perm l') :
    (∀ n ∈ l, n.isElem = true) → ∀ c r, encChildren v ct p c false l = .ok r →
      ∃ ps', encChildren v ct p c false l' = .ok (ps', r.2) ∧ r.1.Perm ps' := by
  induction hperm with
  | nil =>
      intro _ c r h
      rw [encChildren_nil] at h
      simp only [Except.ok.injEq] at h
      subst h
      exact ⟨[], by rw [encChildren_nil], List.Perm.refl _⟩
  | cons x hp ih =>
      intro helems c r h
      rw [encChildren_cons] at h
      rcases h1 : encNode v ct p c false x with e | r1
      · rw [h1] at h
        cases h
      · rw [h1] at h
        dsimp only at h
        rcases h2 : encChildren v ct p r1.2 false _ with e | r2
        · rw [h2] at h
          cases h
        · rw [h2] at h
          dsimp only at h
          simp only [Except.ok.injEq] at h
          obtain ⟨ps₂, hps₂, hp₂⟩ :=
            ih (fun n hn => helems n (List.mem_cons_of_mem _ hn)) r1.2 r2 h2
          refine ⟨r1.1 ++ ps₂, ?_, ?_⟩
          · rw [encChildren_cons, h1]
            dsimp only
            rw [hps₂]
            dsimp only
            rw [← h]
          · rw [← h]
            exact hp₂.append_left r1.1
  | swap x y l₀ =>
      intro helems c r h
      have hye : y.isElem = true := helems y (List.mem_cons_self _ _)
      have hxe : x.isElem = true :=
        helems _ (List.mem_cons_of_mem _ (List.mem_cons_self _ _))
      rw [encChildren_cons] at h
      rcases h1 : encNode v ct p c false y with e | r1
      · rw [h1] at h
        cases h
      · rw [h1] at h
        dsimp only at h
        have hc1 : r1.2 = c := encNode_elem_counter v ct p c y r1 hye h1
        rw [encChildren_cons] at h
        rcases h2 : encNode v ct p r1.2 false x with e | r2
        · rw [h2] at h
          cases h
        · rw [h2] at h
          dsimp only at h
          have hc2 : r2.2 = r1.2 := encNode_elem_counter v ct p r1.2 x r2 hxe h2
          rcases h3 : encChildren v ct p r2.2 false l₀ with e | r3
          · rw [h3] at h
            cases h
          · rw [h3] at h
            dsimp only at h
            simp only [Except.ok.injEq] at h
            refine ⟨r2.1 ++ (r1.1 ++ r3.1), ?_, ?_⟩
            · rw [encChildren_cons]
              rw [show encNode v ct p c false x = .ok r2 from by rw [← hc1]; exact h2]
              dsimp only
              rw [encChildren_cons]
              rw [show encNode v ct p r2.2 false y = .ok r1 from by
                rw [hc2, hc1]; exact h1]
              dsimp only
              rw [show encChildren v ct p r1.2 false l₀ = .ok r3 from by
                rw [← hc2]; exact h3]
              dsimp only
              rw [← h]
            · rw [← h]
              dsimp only
              have hgoal : ((r1.1 ++ r2.1) ++ r3.1).Perm ((r2.1 ++ r1.1) ++ r3.1) :=
                List.perm_append_comm.append_right r3.1
              rw [List.append_assoc, List.append_assoc] at hgoal
              exact hgoal
  | trans h12 h23 ih12 ih23 =>
      intro helems c r h
      obtain ⟨ps₂, hps₂, hp₂⟩ := ih12 helems c r h
      obtain ⟨ps₃, hps₃, hp₃⟩ :=
        ih23 (fun n hn => helems n (h12.mem_iff.mpr hn)) c (ps₂, r.2) hps₂
      exact ⟨ps₃, hps₃, hp₂.trans hp₃⟩

end Arbor

namespace Arbor

theorem plainNamesList_iff (l : List Node) :
    plainNamesList l = true ↔ ∀ n ∈ l, plainNames n = true := by
  induction l with
  | nil => simp [plainNamesList]
  | cons c cs ih =>
      rw [plainNamesList.eq_def]
      simp only [Bool.and_eq_true, ih, List.mem_cons]
      constructor
      · rintro ⟨h1, h2⟩ n (rfl | hn)
        · exact h1
        · exact h2 n hn
      · intro h
        exact ⟨h c (Or.inl rfl), fun n hn => h n (Or.inr hn)⟩

theorem find?_mergeSort_none (attrs : List (String × String))
    (hno : attrs.find? (fun x => x.1 == ArborOrderedAttribute) = none) :
    (attrs.mergeSort (fun x y => x.1 ≤ y.1)).find?
      (fun x => x.1 == ArborOrderedAttribute) = none := by
  rw [List.find?_eq_none] at hno ⊢
  intro x hx
  exact hno x (by simpa using (List.mem_mergeSort).mp hx)

theorem TokenizePairs_ok_root (tk : Tokenizer) (doc : List Node)
    (p : List (Int × List Int)) (h : TokenizePairs tk doc = .ok p) :
    ∃ root, transformDoc tk.vocab doc = .ok (some root) := by
  unfold TokenizePairs at h
  rcases htr : transformDoc tk.vocab doc with e | o
  · rw [htr] at h
    cases h
  · rcases o with _ | root
    · rw [htr] at h
      cases h
    · exact ⟨root, rfl⟩

theorem transformDoc_singleton (v : Vocab) (n : String)
    (a : List (String × String)) (c : List Node) (root : Node)
    (h : transformDoc v [.elem n a c] = .ok (some root)) :
    transformElem v n a c = .ok root := by
  unfold transformDoc at h
  rcases he : transformElem v n a c with e | t
  · rw [he] at h
    cases h
  · rw [he] at h
    dsimp only at h
    rw [show transformDoc v [] = .ok none from rfl] at h
    simp only [Except.ok.injEq, Option.some.injEq, Option.getD_none] at h
    rw [← h]

theorem transformElem_components (v : Vocab) (name : String)
    (attrs : List (String × String)) (children : List Node) (root : Node)
    (h : transformElem v name attrs children = .ok root) :
    ∃ ns r, attrsToChildren v ((attrs.mergeSort (fun x y => x.1 ≤ y.1)).filter
        (fun x => x.1 ≠ ArborOrderedAttribute)) = .ok ns ∧
      transformChildren v children = .ok r ∧
      root = .elem name
        (match (attrs.mergeSort (fun x y => x.1 ≤ y.1)).find?
            (fun x => x.1 == ArborOrderedAttribute) with
          | some x => [x]
          | none => []) (ns ++ r) := by
  unfold transformElem at h
  split at h
  · cases h
  · split at h
    · cases h
    · rename_i ns hns
      split at h
      · cases h
      · rename_i r hr
        split at h
        · cases h
        · simp only [Except.ok.injEq] at h
          exact ⟨ns, r, hns, hr, h.symm⟩

end Arbor

namespace Arbor

theorem attrsToChildren_elems (v : Vocab) (l : List (String × String)) :
    ∀ ns, attrsToChildren v l = .ok ns → ∀ n ∈ ns, n.isElem = true := by
  induction l with
  | nil =>
      intro ns h n hn
      unfold attrsToChildren at h
      simp only [Except.ok.injEq] at h
      subst h
      cases hn
  | cons a rest ih =>
      intro ns h n hn
      unfold attrsToChildren at h
      rcases hp : processAttributeToElement v a with e | x
      · rw [hp] at h
        cases h
      · rw [hp] at h
        dsimp only at h
        rcases hr : attrsToChildren v rest with e | ns2
        · rw [hr] at h
          cases h
        · rw [hr] at h
          simp only [Except.ok.injEq] at h
          subst h
          rcases List.mem_cons.mp hn with rfl | hmem
          · unfold processAttributeToElement at hp
            by_cases hreg : (vlookup v ("@" ++ a.1)).isSome = true
            · rw [if_pos hreg] at hp
              simp only [Except.ok.injEq] at hp
              subst hp
              rfl
            · rw [if_neg hreg] at hp
              by_cases hmiss :
                  List.filter (fun t => (vlookup v t).isNone) fallbackTokens ≠ []
              · rw [if_pos hmiss] at hp
                cases hp
              · rw [if_neg hmiss] at hp
                simp only [Except.ok.injEq] at hp
                subst hp
                rfl
          · exact ih ns2 hr n hmem

/-- Permuting the all-element children of an unordered plain element
leaves the encoder's emitted pairs a permutation of the original --- with
the *same* final sibling counter --- at every machine position (path,
counter, parent flag): the mechanism behind the C1 invariance, applicable
to inner containers as well as the root. -/
theorem encNode_unordered_perm (v : Vocab) (ct : ContentTok) (name : String)
    (aR : List (String × String)) (c1 c2 : List Node)
    (hv2 : (name == VirtualAttrTag) = false)
    (hordf : plainOrdered name aR = false)
    (helems : ∀ n ∈ c1, n.isElem = true)
    (hperm : c1.Perm c2) :
    ∀ (p : List Int) (c : Int) (pord : Bool) (r : List (Int × List Int) × Int),
      encNode v ct p c pord (.elem name aR c1) = .ok r →
      ∃ ps2, encNode v ct p c pord (.elem name aR c2) = .ok (ps2, r.2) ∧
        r.1.Perm ps2 := by
  intro p c pord r h
  rw [encNode_plain v ct p c pord name aR c1 hv2] at h
  rw [encNode_plain v ct p c pord name aR c2 hv2]
  rcases hvl : vlookup v (plainTag name) with _ | id
  · rw [hvl] at h
    cases h
  · rw [hvl] at h
    dsimp only at h ⊢
    rcases hec : encChildren v ct (p ++ [if plainIsAttr name then 0 else c])
        (if plainIsAttr name || strHasPfx (plainTag name) "<__" then 0 else 1)
        (plainOrdered name aR) c1 with e | r1
    · rw [hec] at h
      cases h
    · rw [hec] at h
      dsimp only at h
      obtain ⟨ps2, hps2, hpp⟩ := encChildren_perm v ct
        (p ++ [if plainIsAttr name then 0 else c]) hperm helems
        (if plainIsAttr name || strHasPfx (plainTag name) "<__" then 0 else 1) r1
        (by rw [hordf] at hec; exact hec)
      rw [show encChildren v ct (p ++ [if plainIsAttr name then 0 else c])
          (if plainIsAttr name || strHasPfx (plainTag name) "<__" then 0 else 1)
          (plainOrdered name aR) c2 = .ok (ps2, r1.2) from by
        rw [hordf]
        exact hps2]
      dsimp only
      simp only [Except.ok.injEq] at h
      subst h
      refine ⟨_, rfl, ?_⟩
      refine List.Perm.cons _ ?_
      rcases hcv : vlookup v ("</" ++ name ++ ">") with _ | idc
      · dsimp only
        simp only [List.append_nil]
        exact hpp
      · dsimp only
        exact hpp.append_right _

/-- C1 (corrected): for a plain-named element that is not marked ordered
(no `arbor-ordered` attribute, or one whose value is not `"true"`) and
whose direct children are all *elements*, permuting those children (a)
leaves the root-level tokenization the identical multiset of
(token, path) pairs, and (b) anywhere in a document --- the transformed
element encoded at any path, counter and parent flag --- emits a
permutation of the same pairs with the same final counter, so the
enclosing document's multiset is likewise unchanged.  The unrestricted
claim fails for mixed text/element children, see the counterexample. -/
theorem C1_unordered_perm_invariance (tk : Tokenizer) (name : String)
    (attrs : List (String × String)) (children children2 : List Node)
    (hperm : children.Perm children2)
    (helems : ∀ n ∈ children, n.isElem = true)
    (hno : ∀ pr ∈ attrs, pr.1 = ArborOrderedAttribute → pr.2 ≠ "true")
    (hpl : plainNamesList [.elem name attrs children] = true) :
    (∀ p1 p2, TokenizePairs tk [.elem name attrs children] = .ok p1 →
      TokenizePairs tk [.elem name attrs children2] = .ok p2 →
      (p1 : Multiset (Int × List Int)) = (p2 : Multiset (Int × List Int))) ∧
    (∀ t t2, transformElem tk.vocab name attrs children = .ok t →
      transformElem tk.vocab name attrs children2 = .ok t2 →
      ∀ p c pord r, encNode tk.vocab tk.ct p c pord t = .ok r →
        ∃ ps2, encNode tk.vocab tk.ct p c pord t2 = .ok (ps2, r.2) ∧
          r.1.Perm ps2) := by
  have hpl2 : plainNames (.elem name attrs children) = true ∧
      plainNamesList ([] : List Node) = true := by
    rw [plainNamesList.eq_def] at hpl
    simpa using hpl
  have hpn := hpl2.1
  have hnmc : strHasPfx name "__" = false ∧ plainNamesList children = true := by
    rw [plainNames.eq_def] at hpn
    simpa using hpn
  have hpc2 : plainNamesList children2 = true := by
    rw [plainNamesList_iff]
    rw [plainNamesList_iff] at hnmc
    intro n hn
    exact hnmc.2 n (hperm.mem_iff.mpr hn)
  have hpn2 : plainNames (.elem name attrs children2) = true := by
    rw [plainNames.eq_def]
    simp [hnmc.1, hpc2]
  have hpl2x : plainNamesList [.elem name attrs children2] = true := by
    rw [plainNamesList.eq_def]
    dsimp only
    rw [hpn2]
    rw [plainNamesList.eq_def]
    rfl
  have hv2 : (name == VirtualAttrTag) = false := plain_ne_virtual name hnmc.1
  have hB : ∀ t t2, transformElem tk.vocab name attrs children = .ok t →
      transformElem tk.vocab name attrs children2 = .ok t2 →
      ∀ p c pord r, encNode tk.vocab tk.ct p c pord t = .ok r →
        ∃ ps2, encNode tk.vocab tk.ct p c pord t2 = .ok (ps2, r.2) ∧
          r.1.Perm ps2 := by
    intro t t2 ht ht2
    obtain ⟨ns1, r1, hns1, hr1, heq1⟩ := transformElem_components _ _ _ _ _ ht
    obtain ⟨ns2, r2, hns2, hr2, heq2⟩ := transformElem_components _ _ _ _ _ ht2
    have hns12 : ns1 = ns2 := Except.ok.inj (hns1.symm.trans hns2)
    subst hns12
    obtain ⟨r2x, hr2x, hpr⟩ := transformChildren_perm tk.vocab hperm helems r1 hr1
    have hr22 : r2 = r2x := Except.ok.inj (hr2.symm.trans hr2x)
    subst hr22
    have helems12 : ∀ n ∈ ns1 ++ r1, n.isElem = true := by
      intro n hn
      rcases List.mem_append.mp hn with hmem | hmem
      · exact attrsToChildren_elems tk.vocab _ ns1 hns1 n hmem
      · exact transformChildren_elems tk.vocab children r1 helems hr1 n hmem
    have hperm12 : (ns1 ++ r1).Perm (ns1 ++ r2) := List.Perm.append_left ns1 hpr
    have key : ∀ aR : List (String × String), plainOrdered name aR = false →
        t = .elem name aR (ns1 ++ r1) → t2 = .elem name aR (ns1 ++ r2) →
        ∀ p c pord r, encNode tk.vocab tk.ct p c pord t = .ok r →
          ∃ ps2, encNode tk.vocab tk.ct p c pord t2 = .ok (ps2, r.2) ∧
            r.1.Perm ps2 := by
      intro aR hordf h1eq h2eq p c pord r h
      subst h1eq
      subst h2eq
      exact encNode_unordered_perm tk.vocab tk.ct name aR _ _ hv2 hordf helems12
        hperm12 p c pord r h
    rcases hfind : (attrs.mergeSort (fun x y => x.1 ≤ y.1)).find?
        (fun x => x.1 == ArborOrderedAttribute) with _ | a
    · rw [hfind] at heq1 heq2
      dsimp only at heq1 heq2
      exact key [] (plainOrdered_no_attr name [] hnmc.1 rfl) heq1 heq2
    · rw [hfind] at heq1 heq2
      dsimp only at heq1 heq2
      have hmem : a ∈ attrs :=
        ((List.mergeSort_perm attrs (fun x y => x.1 ≤ y.1)).mem_iff).mp
          (List.mem_of_find?_eq_some hfind)
      have ha1 : a.1 = ArborOrderedAttribute := by
        have := List.find?_some hfind
        simpa using this
      have ha2 : (a.2 == "true") = false := by
        rcases hb : a.2 == "true" with _ | _
        · rfl
        · exact absurd (by simpa using hb) (hno a hmem ha1)
      exact key [a] (plainOrdered_not_true1 name a hnmc.1 ha2) heq1 heq2
  refine ⟨?_, hB⟩
  intro p1 p2 h1 h2
  apply Multiset.coe_eq_coe.mpr
  obtain ⟨root1, htr1⟩ := TokenizePairs_ok_root tk _ p1 h1
  obtain ⟨root2, htr2⟩ := TokenizePairs_ok_root tk _ p2 h2
  have he1 := transformDoc_singleton _ _ _ _ _ htr1
  have he2 := transformDoc_singleton _ _ _ _ _ htr2
  rw [TokenizePairs_eq tk _ root1 hpl htr1] at h1
  rw [TokenizePairs_eq tk _ root2 hpl2x htr2] at h2
  rcases hen1 : encNode tk.vocab tk.ct [] 0 false root1 with e | rr1
  · rw [hen1] at h1
    cases h1
  · rw [hen1] at h1
    dsimp only at h1
    obtain ⟨ps2, hps2, hpp⟩ := hB root1 root2 he1 he2 [] 0 false rr1 hen1
    rw [hps2] at h2
    dsimp only at h2
    have h1x := GoOutcome.ok.inj h1
    have h2x := GoOutcome.ok.inj h2
    rw [← h1x, ← h2x]
    exact hpp

end Arbor

namespace Arbor

/-- C1 counterexample: an unordered container with *mixed* text/element
children is not permutation-invariant — swapping a text fragment and an
element child changes the emitted (token, path) multiset, because text
content advances the sibling counter while element children (in an
unordered container) do not. -/
theorem C1_counterexample :
    ([Node.text "x", Node.elem "A" [] []].Perm [Node.elem "A" [] [], Node.text "x"]) ∧
    TokenizePairs ⟨wV, wCt⟩ [.elem "Root" [] [.text "x", .elem "A" [] []]] =
      .ok [((100501 : Int), [(0 : Int)]), (7, [0, 1]), (100503, [0, 2]),
        (100504, [0, 2]), (100502, [0])] ∧
    TokenizePairs ⟨wV, wCt⟩ [.elem "Root" [] [.elem "A" [] [], .text "x"]] =
      .ok [((100501 : Int), [(0 : Int)]), (100503, [0, 1]), (100504, [0, 1]),
        (7, [0, 1]), (100502, [0])] ∧
    ¬ ([((100501 : Int), [(0 : Int)]), (7, [0, 1]), (100503, [0, 2]),
        (100504, [0, 2]), (100502, [0])] : List (Int × List Int)).Perm
      [((100501 : Int), [(0 : Int)]), (100503, [0, 1]), (100504, [0, 1]),
        (7, [0, 1]), (100502, [0])] := by
  refine ⟨List.Perm.swap (Node.elem "A" [] []) (Node.text "x") [], ?_, ?_, ?_⟩
  · simp [TokenizePairs, transformDoc, transformElem, transformChildren, attrsToChildren,
      wV, vlookup, List.mergeSort, ArborOrderedAttribute, goTrim,
      Node.events, Node.eventsList, encodeLoop, encOpen, plainTag, plainOrdered,
      plainIsAttr, getCurrentPath, strHasPfx, VirtualAttrTag, TokenValue,
      TokenValueEnd, TokenUnregisteredAttr, TokenEmpty, wCt]
    rfl
  · simp [TokenizePairs, transformDoc, transformElem, transformChildren, attrsToChildren,
      wV, vlookup, List.mergeSort, ArborOrderedAttribute, goTrim,
      Node.events, Node.eventsList, encodeLoop, encOpen, plainTag, plainOrdered,
      plainIsAttr, getCurrentPath, strHasPfx, VirtualAttrTag, TokenValue,
      TokenValueEnd, TokenUnregisteredAttr, TokenEmpty, wCt]
    rfl
  · intro hp
    have := hp.count_eq ((100503 : Int), [(0 : Int), 2])
    simp only [List.count_cons, List.count_nil] at this
    revert this
    decide

theorem C1_unordered_perm_invariance_witness :
    (∀ p1 p2,
      TokenizePairs ⟨wV, wCt⟩ [.elem "Root" [(ArborOrderedAttribute, "false")]
        [Node.elem "A" [] [], Node.elem "B" [] []]] = .ok p1 →
      TokenizePairs ⟨wV, wCt⟩ [.elem "Root" [(ArborOrderedAttribute, "false")]
        [Node.elem "B" [] [], Node.elem "A" [] []]] = .ok p2 →
      (p1 : Multiset (Int × List Int)) = (p2 : Multiset (Int × List Int))) ∧
    (∀ t t2, transformElem wV "Root" [(ArborOrderedAttribute, "false")]
        [Node.elem "A" [] [], Node.elem "B" [] []] = .ok t →
      transformElem wV "Root" [(ArborOrderedAttribute, "false")]
        [Node.elem "B" [] [], Node.elem "A" [] []] = .ok t2 →
      ∀ p c pord r, encNode wV wCt p c pord t = .ok r →
        ∃ ps2, encNode wV wCt p c pord t2 = .ok (ps2, r.2) ∧ r.1.Perm ps2) :=
  C1_unordered_perm_invariance ⟨wV, wCt⟩ "Root" [(ArborOrderedAttribute, "false")]
    [Node.elem "A" [] [], Node.elem "B" [] []]
    [Node.elem "B" [] [], Node.elem "A" [] []]
    (List.Perm.swap (Node.elem "B" [] []) (Node.elem "A" [] []) [])
    (by simp [Node.isElem])
    (by decide)
    (by simp [plainNamesList, plainNames, strHasPfx]; decide)

end Arbor

namespace Arbor

mutual

theorem encNode_paths_extend (v : Vocab) (ct : ContentTok) (p : List Int)
    (c : Int) (pord : Bool) (n : Node) (r : List (Int × List Int) × Int)
    (h : encNode v ct p c pord n = .ok r) :
    ∀ pr ∈ r.1, ∃ q, q ≠ ([] : List Int) ∧ pr.2 = p ++ q := by
  match n with
  | .text s =>
      rw [encNode_text] at h
      by_cases hz : s.length = 0
      · rw [if_pos hz] at h
        simp only [Except.ok.injEq] at h
        subst h
        intro pr hpr
        cases hpr
      · rw [if_neg hz] at h
        simp only [Except.ok.injEq] at h
        subst h
        intro pr hpr
        simp only [List.mapIdx_eq_enum_map, List.mem_map] at hpr
        obtain ⟨x, _, rfl⟩ := hpr
        exact ⟨[c + (x.1 : Int)], by simp, rfl⟩
  | .elem name attrs children =>
      by_cases hv : (name == VirtualAttrTag) = true
      · have hnm : name = VirtualAttrTag := by simpa using hv
        subst hnm
        rw [encNode.eq_def] at h
        dsimp only at h
        rw [if_pos (by simp)] at h
        split at h
        · rename_i kn ka nmx vn va vs
          split at h
          · rcases hvl : vlookup v ("@" ++ nmx) with _ | id
            · rw [hvl] at h
              cases h
            · rw [hvl] at h
              rcases hin : encChildren v ct (p ++ [0]) 0 true vs with e | r2
              · rw [hin] at h
                simp [Bind.bind, Except.bind] at h
              · rw [hin] at h
                simp only [Bind.bind, Except.bind, Pure.pure, Except.pure,
                  Except.ok.injEq] at h
                subst h
                intro pr hpr
                dsimp only at hpr
                rcases List.mem_cons.mp hpr with rfl | hpr2
                · exact ⟨[0], by simp, rfl⟩
                · rcases List.mem_append.mp hpr2 with hin2 | hcl
                  · obtain ⟨q, hq, hq2⟩ :=
                      encChildren_paths_extend v ct (p ++ [0]) 0 true vs r2 hin pr hin2
                    exact ⟨[0] ++ q, by simp, by simp [hq2]⟩
                  · rcases hcv : vlookup v TokenValueEnd with _ | idc
                    · rw [hcv] at hcl
                      cases hcl
                    · rw [hcv] at hcl
                      rcases List.mem_singleton.mp hcl with rfl
                      exact ⟨[0], by simp, rfl⟩
          · cases h
        · cases h
      · have hv' : (name == VirtualAttrTag) = false := by simpa using hv
        rw [encNode_plain v ct p c pord name attrs children hv'] at h
        rcases hvl : vlookup v (plainTag name) with _ | id
        · rw [hvl] at h
          cases h
        · rw [hvl] at h
          rcases hin : encChildren v ct (p ++ [if plainIsAttr name then 0 else c])
              (if plainIsAttr name || strHasPfx (plainTag name) "<__" then 0 else 1)
              (plainOrdered name attrs) children with e | r2
          · rw [hin] at h
            cases h
          · rw [hin] at h
            dsimp only at h
            simp only [Except.ok.injEq] at h
            subst h
            intro pr hpr
            dsimp only at hpr
            rcases List.mem_cons.mp hpr with rfl | hpr2
            · exact ⟨[if plainIsAttr name then 0 else c], by simp, rfl⟩
            · rcases List.mem_append.mp hpr2 with hin2 | hcl
              · obtain ⟨q, hq, hq2⟩ := encChildren_paths_extend v ct
                  (p ++ [if plainIsAttr name then 0 else c]) _ _ children r2 hin pr hin2
                exact ⟨[if plainIsAttr name then 0 else c] ++ q, by simp, by simp [hq2]⟩
              · rcases hcv : vlookup v ("</" ++ name ++ ">") with _ | idc
                · rw [hcv] at hcl
                  cases hcl
                · rw [hcv] at hcl
                  rcases List.mem_singleton.mp hcl with rfl
                  exact ⟨[if plainIsAttr name then 0 else c], by simp, rfl⟩
termination_by sizeOf n

theorem encChildren_paths_extend (v : Vocab) (ct : ContentTok) (p : List Int)
    (c : Int) (o : Bool) (l : List Node) (r : List (Int × List Int) × Int)
    (h : encChildren v ct p c o l = .ok r) :
    ∀ pr ∈ r.1, ∃ q, q ≠ ([] : List Int) ∧ pr.2 = p ++ q := by
  match l with
  | [] =>
      rw [encChildren_nil] at h
      simp only [Except.ok.injEq] at h
      subst h
      intro pr hpr
      cases hpr
  | n :: rest =>
      rw [encChildren_cons] at h
      rcases h1 : encNode v ct p c o n with e | r1
      · rw [h1] at h
        cases h
      · rw [h1] at h
        dsimp only at h
        rcases h2 : encChildren v ct p r1.2 o rest with e | r2
        · rw [h2] at h
          cases h
        · rw [h2] at h
          dsimp only at h
          simp only [Except.ok.injEq] at h
          subst h
          intro pr hpr
          dsimp only at hpr
          rcases List.mem_append.mp hpr with h1m | h2m
          · exact encNode_paths_extend v ct p c o n r1 h1 pr h1m
          · exact encChildren_paths_extend v ct p r1.2 o rest r2 h2 pr h2m
termination_by sizeOf l

end

end Arbor

namespace Arbor

theorem path01_facts : (∀ q : List Int, q ≠ [] → ([0, 1] : List Int) ++ q ≠ [0, 1]) ∧
    (∀ q : List Int, ([0, 2] : List Int) ++ q ≠ [0, 1]) ∧
    (([0] : List Int) ≠ [0, 1]) ∧ (([0, 2] : List Int) ≠ [0, 1]) := by
  refine ⟨?_, ?_, by simp, by simp⟩
  · intro q hq hcon
    simp only [List.cons_append, List.nil_append, List.cons.injEq] at hcon
    exact hq hcon.2.2
  · intro q hcon
    simp only [List.cons_append, List.nil_append, List.cons.injEq] at hcon
    exact absurd hcon.2.1 (by decide)

theorem ordered_pair_run (tk : Tokenizer) (name n1 n2 : String)
    (a1 a2 : List (String × String)) (c1 c2 : List Node)
    (p : List (Int × List Int))
    (hnm : strHasPfx name "__" = false)
    (hn1 : strHasPfx n1 "__" = false) (hpl1 : plainNamesList c1 = true)
    (hn2 : strHasPfx n2 "__" = false) (hpl2 : plainNamesList c2 = true)
    (h : TokenizePairs tk [.elem name [(ArborOrderedAttribute, "true")]
      [.elem n1 a1 c1, .elem n2 a2 c2]] = .ok p) :
    ∃ id1, vlookup tk.vocab (plainTag n1) = some id1 ∧
      (id1, [(0 : Int), 1]) ∈ p ∧
      ∀ pr ∈ p, pr.2 = [(0 : Int), 1] →
        pr.1 = id1 ∨ vlookup tk.vocab ("</" ++ n1 ++ ">") = some pr.1 := by
  have hpl : plainNamesList [Node.elem name [(ArborOrderedAttribute, "true")]
      [.elem n1 a1 c1, .elem n2 a2 c2]] = true := by
    simp [plainNamesList, plainNames, hnm, hn1, hn2, hpl1, hpl2]
  obtain ⟨root, htr⟩ := TokenizePairs_ok_root tk _ p h
  have he := transformDoc_singleton _ _ _ _ _ htr
  obtain ⟨ns, r, hns, hr, hroot⟩ := transformElem_components _ _ _ _ _ he
  have hmsort : (([(ArborOrderedAttribute, "true")] :
      List (String × String)).mergeSort (fun x y => x.1 ≤ y.1)) =
      [(ArborOrderedAttribute, "true")] := by
    simp [List.mergeSort]
  rw [hmsort] at hns hroot
  rw [show (([(ArborOrderedAttribute, "true")] : List (String × String)).filter
      (fun x => x.1 ≠ ArborOrderedAttribute)) = [] from by simp] at hns
  have hns0 : ns = [] := by
    rw [show attrsToChildren tk.vocab [] = .ok [] from rfl] at hns
    exact (Except.ok.inj hns).symm
  subst hns0
  rw [show (([(ArborOrderedAttribute, "true")] : List (String × String)).find?
      (fun x => x.1 == ArborOrderedAttribute)) =
      some (ArborOrderedAttribute, "true") from rfl] at hroot
  dsimp only at hroot
  simp only [List.nil_append] at hroot
  -- dissect the transformed children
  rw [transformChildren.eq_def] at hr
  dsimp only at hr
  rcases ht1 : transformElem tk.vocab n1 a1 c1 with e | t1
  · rw [ht1] at hr
    cases hr
  · rw [ht1] at hr
    dsimp only at hr
    rw [transformChildren.eq_def] at hr
    dsimp only at hr
    rcases ht2 : transformElem tk.vocab n2 a2 c2 with e | t2
    · rw [ht2] at hr
      cases hr
    · rw [ht2] at hr
      dsimp only at hr
      rw [show transformChildren tk.vocab [] = .ok [] from by
        rw [transformChildren.eq_def]] at hr
      dsimp only at hr
      have hr0 : r = [t1, t2] := (Except.ok.inj hr).symm
      subst hr0
      obtain ⟨b1, d1, ht1s⟩ := transformElem_shape _ _ _ _ _ ht1
      obtain ⟨b2, d2, ht2s⟩ := transformElem_shape _ _ _ _ _ ht2
      subst ht1s
      subst ht2s
      -- rewrite the run via the reference encoder
      rw [TokenizePairs_eq tk _ root hpl htr] at h
      subst hroot
      have hv' : (name == VirtualAttrTag) = false := plain_ne_virtual name hnm
      rw [encNode_plain tk.vocab tk.ct [] 0 false name _ _ hv'] at h
      rcases hvlR : vlookup tk.vocab (plainTag name) with _ | idR
      · rw [hvlR] at h
        cases h
      · rw [hvlR] at h
        dsimp only at h
        have hattr : plainIsAttr name = false := plainIsAttr_plain name hnm
        rw [show (if plainIsAttr name then (0 : Int) else 0) = 0 from by
          rw [hattr]
          rfl] at h
        rw [show (if plainIsAttr name || strHasPfx (plainTag name) "<__"
            then (0 : Int) else 1) = 1 from by
          rw [hattr, plainTag_not_reserved name hnm]
          rfl] at h
        rw [show plainOrdered name [(ArborOrderedAttribute, "true")] = true from rfl] at h
        rcases hin : encChildren tk.vocab tk.ct ([] ++ [0]) 1 true
            [.elem n1 b1 d1, .elem n2 b2 d2] with e | rin
        · rw [hin] at h
          cases h
        · rw [hin] at h
          dsimp only at h
          have hp := (GoOutcome.ok.inj h).symm
          -- dissect the two child blocks
          rw [encChildren_cons] at hin
          rcases hN1 : encNode tk.vocab tk.ct ([] ++ [0]) 1 true (.elem n1 b1 d1)
            with e | r1
          · rw [hN1] at hin
            cases hin
          · rw [hN1] at hin
            dsimp only at hin
            rcases hC2 : encChildren tk.vocab tk.ct ([] ++ [0]) r1.2 true
                [.elem n2 b2 d2] with e | r2
            · rw [hC2] at hin
              cases hin
            · rw [hC2] at hin
              dsimp only at hin
              have hrin := (Except.ok.inj hin).symm
              -- open id of the first child
              have hv1' : (n1 == VirtualAttrTag) = false := plain_ne_virtual n1 hn1
              rw [encNode_plain tk.vocab tk.ct ([] ++ [0]) 1 true n1 b1 d1 hv1'] at hN1
              rcases hvl1 : vlookup tk.vocab (plainTag n1) with _ | id1
              · rw [hvl1] at hN1
                cases hN1
              · rw [hvl1] at hN1
                have hattr1 : plainIsAttr n1 = false := plainIsAttr_plain n1 hn1
                rcases hin1 : encChildren tk.vocab tk.ct
                    (([] ++ [0]) ++ [if plainIsAttr n1 then 0 else 1])
                    (if plainIsAttr n1 || strHasPfx (plainTag n1) "<__" then 0 else 1)
                    (plainOrdered n1 b1) d1 with e | rin1
                · rw [hin1] at hN1
                  cases hN1
                · rw [hin1] at hN1
                  dsimp only at hN1
                  have hr1 := (Except.ok.inj hN1).symm
                  refine ⟨id1, rfl, ?_, ?_⟩
                  · -- membership of the first child's open pair
                    rw [hp, hrin, hr1]
                    simp [hattr1]
                  · -- any pair at path [0,1] is the first child's open or close
                    intro pr hpr hpath
                    rw [hp] at hpr
                    rcases List.mem_cons.mp hpr with rfl | hpr1
                    · simp at hpath
                    · rcases List.mem_append.mp hpr1 with hprin | hprcl
                      · rw [hrin] at hprin
                        rcases List.mem_append.mp hprin with hprb1 | hprb2
                        · -- inside the first child's block
                          rw [hr1] at hprb1
                          rcases List.mem_cons.mp hprb1 with rfl | hprb1'
                          · left
                            rfl
                          · rcases List.mem_append.mp hprb1' with hprbin | hprbcl
                            · -- strictly inside: the path is longer
                              obtain ⟨q, hq, hq2⟩ := encChildren_paths_extend _ _ _ _ _ _
                                _ hin1 pr hprbin
                              rw [hq2] at hpath
                              rw [show (([] ++ [0]) ++
                                  [if plainIsAttr n1 then (0 : Int) else 1]) = [0, 1] from by
                                rw [hattr1]
                                simp] at hpath
                              exact absurd hpath (path01_facts.1 q hq)
                            · rcases hcv1 : vlookup tk.vocab ("</" ++ n1 ++ ">") with _ | idc1
                              · rw [hcv1] at hprbcl
                                cases hprbcl
                              · rw [hcv1] at hprbcl
                                rcases List.mem_singleton.mp hprbcl with rfl
                                right
                                rfl
                        · -- inside the second child's block: its paths start [0, 2]
                          exfalso
                          have hcnt1 : r1.2 = 2 := by
                            rw [hr1]
                            dsimp only
                            rw [hattr1]
                            rfl
                          rw [hcnt1] at hC2
                          rw [encChildren_cons] at hC2
                          rcases hN2 : encNode tk.vocab tk.ct ([] ++ [0]) 2 true
                              (.elem n2 b2 d2) with e | r2b
                          · rw [hN2] at hC2
                            cases hC2
                          · rw [hN2] at hC2
                            dsimp only at hC2
                            rw [show encChildren tk.vocab tk.ct ([] ++ [0]) r2b.2 true []
                              = .ok ([], r2b.2) from by rw [encChildren_nil]] at hC2
                            dsimp only at hC2
                            have hr2 := (Except.ok.inj hC2).symm
                            rw [hr2] at hprb2
                            dsimp only at hprb2
                            rw [List.append_nil] at hprb2
                            -- dissect the second block's shape
                            have hv2' : (n2 == VirtualAttrTag) = false :=
                              plain_ne_virtual n2 hn2
                            rw [encNode_plain tk.vocab tk.ct ([] ++ [0]) 2 true n2 b2 d2
                              hv2'] at hN2
                            rcases hvl2 : vlookup tk.vocab (plainTag n2) with _ | id2
                            · rw [hvl2] at hN2
                              cases hN2
                            · rw [hvl2] at hN2
                              have hattr2 : plainIsAttr n2 = false := plainIsAttr_plain n2 hn2
                              rcases hin2 : encChildren tk.vocab tk.ct
                                  (([] ++ [0]) ++ [if plainIsAttr n2 then 0 else 2])
                                  (if plainIsAttr n2 || strHasPfx (plainTag n2) "<__"
                                    then 0 else 1)
                                  (plainOrdered n2 b2) d2 with e | rin2
                              · rw [hin2] at hN2
                                cases hN2
                              · rw [hin2] at hN2
                                dsimp only at hN2
                                have hr2b := (Except.ok.inj hN2).symm
                                rw [hr2b] at hprb2
                                dsimp only at hprb2
                                rcases List.mem_cons.mp hprb2 with rfl | hprb2'
                                · rw [show (([] ++ [0]) ++
                                      [if plainIsAttr n2 then (0 : Int) else 2]) = [0, 2]
                                      from by rw [hattr2]; simp] at hpath
                                  exact absurd hpath path01_facts.2.2.2
                                · rcases List.mem_append.mp hprb2' with hprb2in | hprb2cl
                                  · obtain ⟨q, hq, hq2⟩ := encChildren_paths_extend
                                      _ _ _ _ _ _ _ hin2 pr hprb2in
                                    rw [hq2] at hpath
                                    rw [show (([] ++ [0]) ++
                                        [if plainIsAttr n2 then (0 : Int) else 2]) = [0, 2]
                                        from by rw [hattr2]; simp] at hpath
                                    exact absurd hpath (path01_facts.2.1 q)
                                  · rcases hcv2 : vlookup tk.vocab ("</" ++ n2 ++ ">")
                                        with _ | idc2
                                    · rw [hcv2] at hprb2cl
                                      cases hprb2cl
                                    · rw [hcv2] at hprb2cl
                                      rcases List.mem_singleton.mp hprb2cl with rfl
                                      rw [show (([] ++ [0]) ++
                                          [if plainIsAttr n2 then (0 : Int) else 2]) = [0, 2]
                                          from by rw [hattr2]; simp] at hpath
                                      exact absurd hpath path01_facts.2.2.2
                      · -- the root's close pair: path [0]
                        exfalso
                        rcases hcvR : vlookup tk.vocab ("</" ++ name ++ ">") with _ | idcR
                        · rw [hcvR] at hprcl
                          cases hprcl
                        · rw [hcvR] at hprcl
                          rcases List.mem_singleton.mp hprcl with rfl
                          rw [show (([] : List Int) ++ [0]) = [0] from by simp] at hpath
                          exact absurd hpath path01_facts.2.2.1

end Arbor

namespace Arbor

end Arbor

namespace Arbor

/-! Decode round trip: definitions.  `encToks` mirrors the token (first)
components of the reference encoder; `decView` is the tree the decoder
rebuilds from such a stream; `DecN` delimits the supported corpus of
*transformed* trees, `SuppNode` the corpus of input documents. -/

/-- Whether a node is a text fragment. -/
def Node.isText : Node → Bool
  | .text _ => true
  | .elem _ _ _ => false

/-- Whether a transformed node is an attribute wrapper element
(registered `__RegisteredAttr` or fallback `__UnregisteredAttr`). -/
def isAttrWrapper : Node → Bool
  | .elem n _ _ => n == VirtualAttrTag || n == "__UnregisteredAttr"
  | .text _ => false

/-- The single text fragment of a key/value child list (empty string
when the list holds no text). -/
def textOf : List Node → String
  | [.text s] => s
  | _ => ""

/-- The (name, value) pair stored in an attribute wrapper. -/
def wrapperKV : Node → String × String
  | .elem _ _ [.elem _ _ ks, .elem _ _ vs] => (textOf ks, textOf vs)
  | _ => ("", "")

mutual

/-- The tree `DecodeXML` rebuilds for one transformed element: wrapper
children fold back into attributes, the remaining children decode
recursively. -/
def decView : Node → Node
  | .text s => .text s
  | .elem name _ children => .elem name (decAttrs children) (decKids children)

/-- Attributes recovered from a transformed child list, in order. -/
def decAttrs : List Node → List (String × String)
  | [] => []
  | c :: cs => if isAttrWrapper c then wrapperKV c :: decAttrs cs else decAttrs cs

/-- Decoded non-wrapper children of a transformed child list. -/
def decKids : List Node → List Node
  | [] => []
  | c :: cs => if isAttrWrapper c then decKids cs else decView c :: decKids cs

end

/-- Append a text fragment to a decoder child list, merging with a
trailing text node exactly as `DecodeXML` does. -/
def appendTextChild (l : List Node) (s : String) : List Node :=
  match l.getLast? with
  | some (.text prev) => l.dropLast ++ [.text (prev ++ s)]
  | _ => l ++ [.text s]

mutual

/-- The token stream (first components of the emitted pairs) of the
reference encoder on one transformed node. -/
def encToks (tk : Tokenizer) : Node → List Int
  | .text s =>
      if s.length = 0 then [] else tk.ct.encode s
  | .elem name _ children =>
      if name == VirtualAttrTag then
        match children with
        | [.elem _ _ [.text nm], .elem _ _ vs] =>
            match vlookup tk.vocab ("@" ++ nm) with
            | none => []
            | some id =>
                id :: (encToksList tk vs ++
                  match vlookup tk.vocab TokenValueEnd with
                  | some idc => [idc]
                  | none => [])
        | _ => []
      else
        match vlookup tk.vocab (plainTag name) with
        | none => []
        | some id =>
            id :: (encToksList tk children ++
              match vlookup tk.vocab ("</" ++ name ++ ">") with
              | some idc => [idc]
              | none => [])

/-- Concatenated `encToks` over a sibling list. -/
def encToksList (tk : Tokenizer) : List Node → List Int
  | [] => []
  | c :: cs => encToks tk c ++ encToksList tk cs

end

/-- Whether a content token is safe for decoding: its id is outside the
vocabulary and its decoded piece is nonempty and cannot be mistaken for
a tag or attribute token. -/
def pieceOK (tk : Tokenizer) (t : Int) : Bool :=
  (vinv tk.vocab t).isNone &&
    (!(tk.ct.decodeOne t == "") && !(strHasPfx (tk.ct.decodeOne t) "<") &&
      !(strHasPfx (tk.ct.decodeOne t) "@"))

/-- Concatenation of a piece list (kernel-friendly `String.join`). -/
def joinStr : List String → String
  | [] => ""
  | s :: ss => s ++ joinStr ss

/-- Whether a content string survives the encode/decode round trip: all
its tokens are safe pieces and the pieces concatenate back to the
string. -/
def contentOK (tk : Tokenizer) (s : String) : Bool :=
  (tk.ct.encode s).all (pieceOK tk) &&
    (joinStr ((tk.ct.encode s).map tk.ct.decodeOne) == s)

/-- After a text child, the next non-wrapper sibling must not be text
(the decoder would merge the two fragments). -/
def afterTextOK : List Node → Bool
  | [] => true
  | c :: cs => if isAttrWrapper c then afterTextOK cs else !(c.isText)

end Arbor

namespace Arbor

mutual

/-- Supported corpus of *transformed* trees for the decode round trip:
plain element names, invertible tags, attribute wrappers in the two
shapes the transformer emits with round-trippable content, text content
round-trippable and nonempty, and no decoder text merging across
sibling boundaries. -/
def DecN (tk : Tokenizer) : Node → Bool
  | .text s => contentOK tk s && !(s == "")
  | .elem name _ children =>
      if name == VirtualAttrTag then
        match children with
        | [.elem kn _ [.text nm], .elem vn _ vs] =>
            kn == "__Key" && vn == "__Value" &&
              (vlookup tk.vocab ("@" ++ nm)).isSome &&
              (vlookup tk.vocab TokenValueEnd).isSome &&
              match vs with
              | [] => true
              | [.text val] => contentOK tk val && !(val == "")
              | _ => false
        | _ => false
      else if name == "__UnregisteredAttr" then
        match children with
        | [.elem kn _ ks, .elem vn _ vs] =>
            kn == "__Key" && vn == "__Value" &&
              fallbackTokens.all (fun t => (vlookup tk.vocab t).isSome) &&
              match ks, vs with
              | [.text k], [.text val] =>
                  (k == "" || contentOK tk k) && (val == "" || contentOK tk val)
              | _, _ => false
        | _ => false
      else
        !(strHasPfx name "__") && !(strHasPfx name "/") &&
          (vlookup tk.vocab ("<" ++ name ++ ">")).isSome &&
          (vlookup tk.vocab ("</" ++ name ++ ">")).isSome &&
          DecNL tk children

/-- `DecN` over a sibling list, with the text-adjacency condition. -/
def DecNL (tk : Tokenizer) : List Node → Bool
  | [] => true
  | c :: cs =>
      DecN tk c && DecNL tk cs &&
        (match c with
         | .text _ => afterTextOK cs
         | _ => true)

end

end Arbor

namespace Arbor

/-! String classification facts used by the decoder simulation. -/

theorem strNe_of_pfx (n s pfx : String) (hs : strHasPfx s pfx = true)
    (hn : strHasPfx n pfx = false) : (n == s) = false := by
  rcases hb : n == s
  · rfl
  · exfalso
    have heq : n = s := by simpa using hb
    subst heq
    rw [hn] at hs
    cases hs

theorem openTag_pfx (n : String) : strHasPfx ("<" ++ n ++ ">") "<" = true := by
  unfold strHasPfx
  rw [show ("<" ++ n ++ ">").data = '<' :: (n.data ++ ['>']) by simp]
  rw [show ("<" : String).data = ['<'] from rfl]
  simp [List.isPrefixOf]

theorem openTag_not_close (n : String) (hn : strHasPfx n "/" = false) :
    strHasPfx ("<" ++ n ++ ">") "</" = false := by
  unfold strHasPfx at *
  rw [show ("<" ++ n ++ ">").data = '<' :: (n.data ++ ['>']) by simp]
  rw [show ("</" : String).data = ['<', '/'] from rfl]
  rw [show ("/" : String).data = ['/'] from rfl] at hn
  rcases hd : n.data with _ | ⟨c, cs⟩
  · simp [List.isPrefixOf]
  · rw [hd] at hn
    simp only [List.isPrefixOf] at hn ⊢
    simpa using hn

theorem closeTag_pfx (n : String) : strHasPfx ("</" ++ n ++ ">") "</" = true := by
  unfold strHasPfx
  rw [show ("</" ++ n ++ ">").data = '<' :: '/' :: (n.data ++ ['>']) by simp]
  rw [show ("</" : String).data = ['<', '/'] from rfl]
  simp [List.isPrefixOf]

theorem closeTagEq_iff (n m : String) :
    ("</" ++ n ++ ">" == "</" ++ m ++ ">") = (n == m) := by
  have h : ("</" ++ n ++ ">" = "</" ++ m ++ ">") ↔ (n = m) := by
    constructor
    · intro h
      have hd : '<' :: '/' :: (n.data ++ ['>']) = '<' :: '/' :: (m.data ++ ['>']) := by
        have := congrArg String.data h
        simpa using this
      have hd2 : n.data ++ ['>'] = m.data ++ ['>'] := by
        injection hd with _ h2
        injection h2
      exact String.ext (List.append_cancel_right hd2)
    · intro h
      rw [h]
  rcases hb : n == m
  · have hne : ¬ (n = m) := beq_eq_false_iff_ne.mp hb
    simpa using fun hc => hne (h.mp hc)
  · have heq : n = m := by simpa using hb
    simp [h.mpr heq]

theorem openTag_controls (n : String) (hn : strHasPfx n "__" = false)
    (hsl : strHasPfx n "/" = false) :
    decodeControls.contains ("<" ++ n ++ ">") = false := by
  have h1 : ("<" ++ n ++ ">" == TokenUnregisteredAttr) = false := by
    rw [show TokenUnregisteredAttr = "<" ++ "__UnregisteredAttr" ++ ">" from rfl,
      tagEq_iff]
    exact strNe_of_pfx n "__UnregisteredAttr" "__" (by decide) hn
  have h2 : ("<" ++ n ++ ">" == TokenKey) = false := by
    rw [show TokenKey = "<" ++ "__Key" ++ ">" from rfl, tagEq_iff]
    exact strNe_of_pfx n "__Key" "__" (by decide) hn
  have h3 : ("<" ++ n ++ ">" == TokenValue) = false := by
    rw [show TokenValue = "<" ++ "__Value" ++ ">" from rfl, tagEq_iff]
    exact strNe_of_pfx n "__Value" "__" (by decide) hn
  have h4 : ("<" ++ n ++ ">" == TokenKeyEnd) = false := by
    rw [show TokenKeyEnd = "<" ++ "/__Key" ++ ">" from rfl, tagEq_iff]
    exact strNe_of_pfx n "/__Key" "/" (by decide) hsl
  have h5 : ("<" ++ n ++ ">" == TokenValueEnd) = false := by
    rw [show TokenValueEnd = "<" ++ "/__Value" ++ ">" from rfl, tagEq_iff]
    exact strNe_of_pfx n "/__Value" "/" (by decide) hsl
  have h6 : ("<" ++ n ++ ">" == TokenUnregisteredAttrEnd) = false := by
    rw [show TokenUnregisteredAttrEnd = "<" ++ "/__UnregisteredAttr" ++ ">" from rfl,
      tagEq_iff]
    exact strNe_of_pfx n "/__UnregisteredAttr" "/" (by decide) hsl
  simp only [decodeControls, List.contains, List.elem, h1, h2, h3, h4, h5, h6]

end Arbor

namespace Arbor

theorem closeTag_ne_ends (n : String) (hn : strHasPfx n "__" = false) :
    (("</" ++ n ++ ">") != TokenUnregisteredAttrEnd) = true ∧
      (("</" ++ n ++ ">") != TokenKeyEnd) = true ∧
      (("</" ++ n ++ ">") != TokenValueEnd) = true := by
  refine ⟨?_, ?_, ?_⟩
  · rw [show TokenUnregisteredAttrEnd = "</" ++ "__UnregisteredAttr" ++ ">" from rfl]
    rw [bne, closeTagEq_iff, strNe_of_pfx n "__UnregisteredAttr" "__" (by decide) hn]
    rfl
  · rw [show TokenKeyEnd = "</" ++ "__Key" ++ ">" from rfl]
    rw [bne, closeTagEq_iff, strNe_of_pfx n "__Key" "__" (by decide) hn]
    rfl
  · rw [show TokenValueEnd = "</" ++ "__Value" ++ ">" from rfl]
    rw [bne, closeTagEq_iff, strNe_of_pfx n "__Value" "__" (by decide) hn]
    rfl

theorem pfx_lt_of_not_lt (s : String) (h : strHasPfx s "<" = false) :
    strHasPfx s "</" = false := by
  unfold strHasPfx at *
  rw [show ("</" : String).data = ['<', '/'] from rfl]
  rw [show ("<" : String).data = ['<'] from rfl] at h
  rcases hd : s.data with _ | ⟨c, cs⟩
  · simp [List.isPrefixOf]
  · rw [hd] at h
    simp only [List.isPrefixOf] at h ⊢
    simp only [Bool.and_eq_false_iff] at h ⊢
    rcases h with h | h
    · exact Or.inl h
    · cases h

theorem strip_openTag (n : String) :
    (if strHasSfx (strDrop ("<" ++ n ++ ">") 1) ">"
      then strDropRight (strDrop ("<" ++ n ++ ">") 1) 1
      else strDrop ("<" ++ n ++ ">") 1) = n := by
  have hdrop : strDrop ("<" ++ n ++ ">") 1 = ⟨n.data ++ ['>']⟩ := by
    unfold strDrop
    rw [show ("<" ++ n ++ ">").data = '<' :: (n.data ++ ['>']) by simp]
    rfl
  rw [hdrop]
  rw [if_pos ?hsfx]
  case hsfx =>
    unfold strHasSfx
    rw [show ((⟨n.data ++ ['>']⟩ : String)).data = n.data ++ ['>'] from rfl]
    rw [show (">" : String).data = ['>'] from rfl]
    simp [List.isSuffixOf, List.isPrefixOf]
  · unfold strDropRight
    apply String.ext
    simp

theorem atTag_facts (k : String) :
    strHasPfx ("@" ++ k) "<" = false ∧ strHasPfx ("@" ++ k) "@" = true ∧
      strDrop ("@" ++ k) 1 = k := by
  refine ⟨?_, ?_, ?_⟩
  · unfold strHasPfx
    rw [show ("@" ++ k).data = '@' :: k.data by simp]
    rw [show ("<" : String).data = ['<'] from rfl]
    simp [List.isPrefixOf]
  · unfold strHasPfx
    rw [show ("@" ++ k).data = '@' :: k.data by simp]
    rw [show ("@" : String).data = ['@'] from rfl]
    simp [List.isPrefixOf]
  · unfold strDrop
    apply String.ext
    rw [show ("@" ++ k).data = '@' :: k.data by simp]
    rfl

end Arbor

namespace Arbor

/-- A vocabulary hit gives a member pair. -/
theorem vlookup_mem (v : Vocab) (s : String) (i : Int)
    (h : vlookup v s = some i) : (s, i) ∈ v := by
  unfold vlookup at h
  rcases hf : v.find? (fun p => p.1 == s) with _ | p
  · rw [hf] at h
    cases h
  · rw [hf] at h
    dsimp only [Option.map] at h
    have hmem := List.mem_of_find?_eq_some hf
    have hkey : p.1 = s := by
      have := List.find?_some hf
      simpa using this
    have hval : p.2 = i := by simpa using h
    rw [← hkey, ← hval]
    exact hmem

/-- With an inversion-closed vocabulary, a token looked up by tag decodes
back to that tag string. -/
theorem tokStr_of_vlookup (tk : Tokenizer) (s : String) (i : Int)
    (hvoc : ∀ pr ∈ tk.vocab, vinv tk.vocab pr.2 = some pr.1)
    (h : vlookup tk.vocab s = some i) : tokStr tk i = s := by
  have hmem := vlookup_mem tk.vocab s i h
  have hinv := hvoc (s, i) hmem
  unfold tokStr
  rw [hinv]

/-- A safe content token decodes through the content tokenizer. -/
theorem tokStr_piece (tk : Tokenizer) (t : Int) (h : pieceOK tk t = true) :
    tokStr tk t = tk.ct.decodeOne t := by
  unfold pieceOK at h
  simp only [Bool.and_eq_true] at h
  unfold tokStr
  rcases hv : vinv tk.vocab t with _ | tag
  · rfl
  · rw [hv] at h
    simp at h

/-- The four decode-relevant classification facts of a safe piece. -/
theorem piece_classify (tk : Tokenizer) (t : Int) (h : pieceOK tk t = true) :
    strHasPfx (tokStr tk t) "<" = false ∧ strHasPfx (tokStr tk t) "@" = false ∧
      strHasPfx (tokStr tk t) "</" = false ∧
      decodeControls.contains (tokStr tk t) = false := by
  have hts := tokStr_piece tk t h
  unfold pieceOK at h
  simp only [Bool.and_eq_true] at h
  rw [hts]
  have hlt' : strHasPfx (tk.ct.decodeOne t) "<" = false := by
    simpa using h.2.1.2
  have hat' : strHasPfx (tk.ct.decodeOne t) "@" = false := by
    simpa using h.2.2
  refine ⟨hlt', hat', pfx_lt_of_not_lt _ hlt', ?_⟩
  have h1 := strNe_of_pfx (tk.ct.decodeOne t) TokenUnregisteredAttr "<"
    (by decide) hlt'
  have h2 := strNe_of_pfx (tk.ct.decodeOne t) TokenKey "<" (by decide) hlt'
  have h3 := strNe_of_pfx (tk.ct.decodeOne t) TokenValue "<" (by decide) hlt'
  have h4 := strNe_of_pfx (tk.ct.decodeOne t) TokenKeyEnd "<" (by decide) hlt'
  have h5 := strNe_of_pfx (tk.ct.decodeOne t) TokenValueEnd "<" (by decide) hlt'
  have h6 := strNe_of_pfx (tk.ct.decodeOne t) TokenUnregisteredAttrEnd "<"
    (by decide) hlt'
  simp only [decodeControls, List.contains, List.elem, h1, h2, h3, h4, h5, h6]

end Arbor

namespace Arbor

theorem mapIdx_fst (l : List Int) (f : Nat → Int → List Int) :
    (List.mapIdx (fun i t => (t, f i t)) l).map Prod.fst = l := by
  rw [List.mapIdx_eq_enum_map, List.map_map]
  apply List.ext_getElem (by simp)
  intro i h1 h2
  simp [Function.uncurry]

mutual

theorem encToks_spec (v : Vocab) (ct : ContentTok) (p : List Int) (c : Int)
    (pord : Bool) (n : Node) (r : List (Int × List Int) × Int)
    (h : encNode v ct p c pord n = .ok r) :
    r.1.map Prod.fst = encToks ⟨v, ct⟩ n := by
  match n with
  | .text s =>
      rw [encNode_text] at h
      by_cases hz : s.length = 0
      · rw [if_pos hz] at h
        simp only [Except.ok.injEq] at h
        subst h
        rw [encToks.eq_def]
        dsimp only
        rw [if_pos hz]
        rfl
      · rw [if_neg hz] at h
        simp only [Except.ok.injEq] at h
        subst h
        rw [encToks.eq_def]
        dsimp only
        rw [if_neg hz]
        exact mapIdx_fst _ _
  | .elem name attrs children =>
      by_cases hv : (name == VirtualAttrTag) = true
      · have hnm : name = VirtualAttrTag := by simpa using hv
        subst hnm
        rw [encNode.eq_def] at h
        dsimp only at h
        rw [if_pos (by simp)] at h
        split at h
        · rename_i kn ka nmx vn va vs
          split at h
          · rcases hvl : vlookup v ("@" ++ nmx) with _ | id
            · rw [hvl] at h
              cases h
            · rw [hvl] at h
              rcases hin : encChildren v ct (p ++ [0]) 0 true vs with e | r2
              · rw [hin] at h
                simp [Bind.bind, Except.bind] at h
              · rw [hin] at h
                simp only [Bind.bind, Except.bind, Pure.pure, Except.pure,
                  Except.ok.injEq] at h
                subst h
                have ih := encToksList_spec v ct (p ++ [0]) 0 true vs r2 hin
                rw [encToks.eq_def]
                dsimp only
                rw [if_pos (by simp)]
                rw [show vlookup (Tokenizer.mk v ct).vocab ("@" ++ nmx) =
                  vlookup v ("@" ++ nmx) from rfl]
                rw [hvl]
                dsimp only
                rcases hcv : vlookup v TokenValueEnd with _ | idc
                · simp [hcv, ih]
                · simp [hcv, ih]
          · cases h
        · cases h
      · have hv' : (name == VirtualAttrTag) = false := by simpa using hv
        rw [encNode_plain v ct p c pord name attrs children hv'] at h
        rw [encToks.eq_def]
        dsimp only
        rw [if_neg (by simp [hv'])]
        rcases hvl : vlookup v (plainTag name) with _ | id
        · rw [hvl] at h
          cases h
        · rw [hvl] at h
          rcases hin : encChildren v ct (p ++ [if plainIsAttr name then 0 else c])
              (if plainIsAttr name || strHasPfx (plainTag name) "<__" then 0 else 1)
              (plainOrdered name attrs) children with e | r2
          · rw [hin] at h
            cases h
          · rw [hin] at h
            dsimp only at h
            simp only [Except.ok.injEq] at h
            subst h
            have ih := encToksList_spec v ct _ _ _ children r2 hin
            rcases hcv : vlookup v ("</" ++ name ++ ">") with _ | idc
            · simp [hcv, ih]
            · simp [hcv, ih]
termination_by sizeOf n

theorem encToksList_spec (v : Vocab) (ct : ContentTok) (p : List Int) (c : Int)
    (o : Bool) (l : List Node) (r : List (Int × List Int) × Int)
    (h : encChildren v ct p c o l = .ok r) :
    r.1.map Prod.fst = encToksList ⟨v, ct⟩ l := by
  match l with
  | [] =>
      rw [encChildren_nil] at h
      simp only [Except.ok.injEq] at h
      subst h
      rfl
  | n :: rest =>
      rw [encChildren_cons] at h
      rcases h1 : encNode v ct p c o n with e | r1
      · rw [h1] at h
        cases h
      · rw [h1] at h
        dsimp only at h
        rcases h2 : encChildren v ct p r1.2 o rest with e | r2
        · rw [h2] at h
          cases h
        · rw [h2] at h
          dsimp only at h
          simp only [Except.ok.injEq] at h
          subst h
          have ih1 := encToks_spec v ct p c o n r1 h1
          have ih2 := encToksList_spec v ct p r1.2 o rest r2 h2
          rw [encToksList.eq_def]
          dsimp only
          simp [ih1, ih2]
termination_by sizeOf l

end

end Arbor

namespace Arbor

/-! Conditional single-step lemmas for the `DecodeXML` main loop. -/

theorem decodeLoop_step_open (tk : Tokenizer) (t : Int) (rest : List Int)
    (stack : List DecElem) (cr : Option Node) (n : String)
    (hs : tokStr tk t = "<" ++ n ++ ">")
    (hn : strHasPfx n "__" = false) (hsl : strHasPfx n "/" = false) :
    decodeLoop tk (t :: rest) stack cr =
      match stack with
      | [] => decodeLoop tk rest [⟨n, [], []⟩] none
      | _ => decodeLoop tk rest (⟨n, [], []⟩ :: stack) cr := by
  rw [decodeLoop.eq_def]
  dsimp only
  rw [hs]
  rw [if_pos (show (strHasPfx ("<" ++ n ++ ">") "<" &&
      !strHasPfx ("<" ++ n ++ ">") "</" &&
      !decodeControls.contains ("<" ++ n ++ ">")) = true from by
    rw [openTag_pfx n, openTag_not_close n hsl, openTag_controls n hn hsl]
    rfl)]
  rw [if_pos (openTag_pfx n)]
  rw [strip_openTag n]

theorem decodeLoop_step_close (tk : Tokenizer) (t : Int) (rest : List Int)
    (stack : List DecElem) (cr : Option Node) (n : String)
    (hs : tokStr tk t = "</" ++ n ++ ">")
    (hn : strHasPfx n "__" = false) :
    decodeLoop tk (t :: rest) stack cr =
      match stack with
      | [] => .error (.unexpectedEndTag ("</" ++ n ++ ">"))
      | f :: below =>
          match below with
          | [] => decodeLoop tk rest [] (some (.elem f.name f.attrs f.children))
          | p :: brest =>
              decodeLoop tk rest
                ({ p with children := p.children ++
                    [.elem f.name f.attrs f.children] } :: brest) cr := by
  rw [decodeLoop.eq_def]
  dsimp only
  rw [hs]
  obtain ⟨hne1, hne2, hne3⟩ := closeTag_ne_ends n hn
  rw [if_neg (by
    rw [closeTag_pfx n]
    simp)]
  rw [if_pos (by
    rw [closeTag_pfx n, hne1, hne2, hne3]
    rfl)]

end Arbor

namespace Arbor

theorem decodeLoop_step_piece (tk : Tokenizer) (t : Int) (rest : List Int)
    (cur : DecElem) (below : List DecElem) (cr : Option Node)
    (h : pieceOK tk t = true) :
    decodeLoop tk (t :: rest) (cur :: below) cr =
      decodeLoop tk rest
        ({ cur with children := appendTextChild cur.children (tk.ct.decodeOne t) } ::
          below) cr := by
  obtain ⟨hlt, hat, hcl, hcon⟩ := piece_classify tk t h
  have hts := tokStr_piece tk t h
  rw [decodeLoop.eq_def]
  dsimp only
  rw [if_neg (by rw [hlt]; simp)]
  rw [if_neg (by rw [hcl]; simp)]
  rw [if_neg (by
    rw [show (tokStr tk t == TokenUnregisteredAttr) =
      false from strNe_of_pfx (tokStr tk t) TokenUnregisteredAttr "<"
        (by decide) hlt]
    simp)]
  rw [if_neg (by rw [hat]; simp)]
  rw [if_neg (by
    rw [show (tokStr tk t == TokenValueEnd) = false from
        strNe_of_pfx (tokStr tk t) TokenValueEnd "<" (by decide) hlt,
      show (tokStr tk t == TokenUnregisteredAttrEnd) = false from
        strNe_of_pfx (tokStr tk t) TokenUnregisteredAttrEnd "<" (by decide) hlt,
      show (tokStr tk t == TokenKey) = false from
        strNe_of_pfx (tokStr tk t) TokenKey "<" (by decide) hlt,
      show (tokStr tk t == TokenKeyEnd) = false from
        strNe_of_pfx (tokStr tk t) TokenKeyEnd "<" (by decide) hlt,
      show (tokStr tk t == TokenValue) = false from
        strNe_of_pfx (tokStr tk t) TokenValue "<" (by decide) hlt]
    simp)]
  rw [hts]
  unfold appendTextChild
  rcases hlast : cur.children.getLast? with _ | n
  · rfl
  · rcases n with ⟨nm, a, c⟩ | s
    · rfl
    · rfl

theorem decodeLoop_step_at (tk : Tokenizer) (t : Int) (rest : List Int)
    (cur : DecElem) (below : List DecElem) (cr : Option Node) (k : String)
    (hs : tokStr tk t = "@" ++ k) :
    decodeLoop tk (t :: rest) (cur :: below) cr =
      decodeLoop tk (greedyValue tk rest "").2
        ({ cur with attrs := cur.attrs ++ [(k, (greedyValue tk rest "").1)] } ::
          below) cr := by
  obtain ⟨hlt, hatp, hdrop⟩ := atTag_facts k
  rw [decodeLoop.eq_def]
  dsimp only
  rw [hs]
  rw [if_neg (by rw [hlt]; simp)]
  rw [if_neg (by rw [pfx_lt_of_not_lt _ hlt]; simp)]
  rw [if_neg (by
    rw [show (("@" ++ k : String) == TokenUnregisteredAttr) = false from
      strNe_of_pfx ("@" ++ k) TokenUnregisteredAttr "<" (by decide) hlt]
    simp)]
  rw [if_pos hatp]
  rw [hdrop]

theorem decodeLoop_step_bucket (tk : Tokenizer) (t : Int) (rest : List Int)
    (cur : DecElem) (below : List DecElem) (cr : Option Node)
    (hs : tokStr tk t = TokenUnregisteredAttr) :
    decodeLoop tk (t :: rest) (cur :: below) cr =
      decodeLoop tk (bucketLoop tk rest 0 "" "").2.2
        ({ cur with attrs := cur.attrs ++
            [((bucketLoop tk rest 0 "" "").1, (bucketLoop tk rest 0 "" "").2.1)] } ::
          below) cr := by
  rw [decodeLoop.eq_def]
  dsimp only
  rw [hs]
  rw [if_neg (by
    rw [show decodeControls.contains TokenUnregisteredAttr = true from by decide]
    simp)]
  rw [if_neg (by
    rw [show strHasPfx TokenUnregisteredAttr "</" = false from by decide]
    simp)]
  rw [if_pos (show (TokenUnregisteredAttr == TokenUnregisteredAttr) = true from by
    decide)]

end Arbor

namespace Arbor

theorem appendTextChild_append (l : List Node) (s1 s2 : String) :
    appendTextChild (appendTextChild l s1) s2 =
      appendTextChild l (s1 ++ s2) := by
  unfold appendTextChild
  rcases hlast : l.getLast? with _ | n
  · simp
  · rcases n with ⟨nm, a, c⟩ | s
    · simp
    · simp [String.append_assoc]

theorem joinStr_map_cons (f : Int → String) (t : Int) (ts : List Int) :
    joinStr ((t :: ts).map f) = f t ++ joinStr (ts.map f) := rfl

theorem decode_textRun (tk : Tokenizer) (ts : List Int) :
    ∀ (rest : List Int) (cur : DecElem) (below : List DecElem) (cr : Option Node),
      ts ≠ [] → (∀ t ∈ ts, pieceOK tk t = true) →
      decodeLoop tk (ts ++ rest) (cur :: below) cr =
        decodeLoop tk rest
          ({ cur with children :=
              appendTextChild cur.children (joinStr (ts.map tk.ct.decodeOne)) } ::
            below) cr := by
  induction ts with
  | nil =>
      intro rest cur below cr hne _
      exact absurd rfl hne
  | cons t ts ih =>
      intro rest cur below cr _ hp
      rw [List.cons_append]
      rw [decodeLoop_step_piece tk t (ts ++ rest) cur below cr
        (hp t (List.mem_cons_self _ _))]
      rcases hts : ts with _ | ⟨t2, ts2⟩
      · rw [joinStr_map_cons]
        simp only [List.map_nil]
        rw [show joinStr [] = "" from rfl]
        rw [show tk.ct.decodeOne t ++ "" = tk.ct.decodeOne t from by
          apply String.ext
          simp]
        rfl
      · rw [← hts]
        rw [ih rest _ below cr (by rw [hts]; simp)
          (fun x hx => hp x (List.mem_cons_of_mem _ hx))]
        rw [joinStr_map_cons]
        rw [appendTextChild_append]

theorem greedyValue_run (tk : Tokenizer) (ts : List Int) :
    ∀ (tE : Int) (rest : List Int) (val : String),
      (∀ t ∈ ts, pieceOK tk t = true) → tokStr tk tE = TokenValueEnd →
      greedyValue tk (ts ++ tE :: rest) val =
        (val ++ joinStr (ts.map tk.ct.decodeOne), rest) := by
  induction ts with
  | nil =>
      intro tE rest val _ hE
      rw [List.nil_append]
      rw [greedyValue.eq_def]
      dsimp only
      rw [hE]
      rw [if_pos (by rfl)]
      rw [show joinStr ([].map tk.ct.decodeOne) = "" from rfl]
      rw [show val ++ "" = val from by apply String.ext; simp]
  | cons t ts ih =>
      intro tE rest val hp hE
      rw [List.cons_append]
      rw [greedyValue.eq_def]
      dsimp only
      obtain ⟨hlt, hat, hcl, hcon⟩ := piece_classify tk t (hp t (List.mem_cons_self _ _))
      rw [if_neg (by
        rw [show (tokStr tk t == TokenValueEnd) = false from
          strNe_of_pfx (tokStr tk t) TokenValueEnd "<" (by decide) hlt]
        simp)]
      rw [if_neg (by rw [hlt, hcl, hcon]; simp)]
      rw [if_neg (by rw [hat]; simp)]
      rw [ih tE rest _ (fun x hx => hp x (List.mem_cons_of_mem _ hx)) hE]
      rw [joinStr_map_cons]
      rw [tokStr_piece tk t (hp t (List.mem_cons_self _ _))]
      rw [String.append_assoc]

end Arbor

namespace Arbor

theorem bucketLoop_piece_checks (tk : Tokenizer) (t : Int)
    (h : pieceOK tk t = true) :
    (tokStr tk t == TokenUnregisteredAttrEnd) = false ∧
      (tokStr tk t == TokenKey) = false ∧ (tokStr tk t == TokenKeyEnd) = false ∧
      (tokStr tk t == TokenValue) = false ∧ (tokStr tk t == TokenValueEnd) = false := by
  obtain ⟨hlt, _, _, _⟩ := piece_classify tk t h
  exact ⟨strNe_of_pfx _ TokenUnregisteredAttrEnd "<" (by decide) hlt,
    strNe_of_pfx _ TokenKey "<" (by decide) hlt,
    strNe_of_pfx _ TokenKeyEnd "<" (by decide) hlt,
    strNe_of_pfx _ TokenValue "<" (by decide) hlt,
    strNe_of_pfx _ TokenValueEnd "<" (by decide) hlt⟩

theorem bucketLoop_accum1 (tk : Tokenizer) (ts : List Int) :
    ∀ (rest : List Int) (key val : String),
      (∀ t ∈ ts, pieceOK tk t = true) →
      bucketLoop tk (ts ++ rest) 1 key val =
        bucketLoop tk rest 1 (key ++ joinStr (ts.map tk.ct.decodeOne)) val := by
  induction ts with
  | nil =>
      intro rest key val _
      rw [List.nil_append]
      rw [show joinStr ([].map tk.ct.decodeOne) = "" from rfl]
      rw [show key ++ "" = key from by apply String.ext; simp]
  | cons t ts ih =>
      intro rest key val hp
      obtain ⟨h1, h2, h3, h4, h5⟩ :=
        bucketLoop_piece_checks tk t (hp t (List.mem_cons_self _ _))
      rw [List.cons_append]
      rw [bucketLoop.eq_def]
      dsimp only
      rw [if_neg (by rw [h1]; simp), if_neg (by rw [h2]; simp),
        if_neg (by rw [h3]; simp), if_neg (by rw [h4]; simp),
        if_neg (by rw [h5]; simp)]
      rw [if_pos (show ((1 : Nat) == 1) = true from rfl)]
      rw [ih rest _ val (fun x hx => hp x (List.mem_cons_of_mem _ hx))]
      rw [joinStr_map_cons]
      rw [tokStr_piece tk t (hp t (List.mem_cons_self _ _))]
      rw [String.append_assoc]

theorem bucketLoop_accum2 (tk : Tokenizer) (ts : List Int) :
    ∀ (rest : List Int) (key val : String),
      (∀ t ∈ ts, pieceOK tk t = true) →
      bucketLoop tk (ts ++ rest) 2 key val =
        bucketLoop tk rest 2 key (val ++ joinStr (ts.map tk.ct.decodeOne)) := by
  induction ts with
  | nil =>
      intro rest key val _
      rw [List.nil_append]
      rw [show joinStr ([].map tk.ct.decodeOne) = "" from rfl]
      rw [show val ++ "" = val from by apply String.ext; simp]
  | cons t ts ih =>
      intro rest key val hp
      obtain ⟨h1, h2, h3, h4, h5⟩ :=
        bucketLoop_piece_checks tk t (hp t (List.mem_cons_self _ _))
      rw [List.cons_append]
      rw [bucketLoop.eq_def]
      dsimp only
      rw [if_neg (by rw [h1]; simp), if_neg (by rw [h2]; simp),
        if_neg (by rw [h3]; simp), if_neg (by rw [h4]; simp),
        if_neg (by rw [h5]; simp)]
      rw [if_neg (show ¬ ((2 : Nat) == 1) = true from by decide)]
      rw [if_pos (show ((2 : Nat) == 2) = true from rfl)]
      rw [ih rest key _ (fun x hx => hp x (List.mem_cons_of_mem _ hx))]
      rw [joinStr_map_cons]
      rw [tokStr_piece tk t (hp t (List.mem_cons_self _ _))]
      rw [String.append_assoc]

theorem bucketLoop_run (tk : Tokenizer) (kts vts : List Int)
    (tK tKE tV tVE tUE : Int) (rest : List Int)
    (hk : ∀ t ∈ kts, pieceOK tk t = true) (hv : ∀ t ∈ vts, pieceOK tk t = true)
    (hK : tokStr tk tK = TokenKey) (hKE : tokStr tk tKE = TokenKeyEnd)
    (hV : tokStr tk tV = TokenValue) (hVE : tokStr tk tVE = TokenValueEnd)
    (hUE : tokStr tk tUE = TokenUnregisteredAttrEnd) :
    bucketLoop tk (tK :: (kts ++ tKE :: tV :: (vts ++ tVE :: tUE :: rest))) 0 "" "" =
      (joinStr (kts.map tk.ct.decodeOne), joinStr (vts.map tk.ct.decodeOne), rest) := by
  rw [bucketLoop.eq_def]
  dsimp only
  rw [hK]
  rw [if_neg (by decide), if_pos (by decide)]
  rw [bucketLoop_accum1 tk kts _ "" "" hk]
  rw [show "" ++ joinStr (kts.map tk.ct.decodeOne) = joinStr (kts.map tk.ct.decodeOne)
    from by apply String.ext; simp]
  rw [bucketLoop.eq_def]
  dsimp only
  rw [hKE]
  rw [if_neg (by decide), if_neg (by decide), if_pos (by decide)]
  rw [bucketLoop.eq_def]
  dsimp only
  rw [hV]
  rw [if_neg (by decide), if_neg (by decide), if_neg (by decide), if_pos (by decide)]
  rw [bucketLoop_accum2 tk vts _ _ "" hv]
  rw [show "" ++ joinStr (vts.map tk.ct.decodeOne) = joinStr (vts.map tk.ct.decodeOne)
    from by apply String.ext; simp]
  rw [bucketLoop.eq_def]
  dsimp only
  rw [hVE]
  rw [if_neg (by decide), if_neg (by decide), if_neg (by decide), if_neg (by decide),
    if_pos (by decide)]
  rw [bucketLoop.eq_def]
  dsimp only
  rw [hUE]
  rw [if_pos (by decide)]

end Arbor

namespace Arbor

/-- Whether a decoder child list ends in a text node. -/
def lastIsText (l : List Node) : Bool :=
  match l.getLast? with
  | some (.text _) => true
  | _ => false

/-- One decoder step on the element under construction, per transformed
child node: a wrapper contributes an attribute, text merges into the
children, an ordinary element appends its decoded tree. -/
def stepOne (cur : DecElem) (t : Node) : DecElem :=
  match t with
  | .text s => { cur with children := appendTextChild cur.children s }
  | .elem _ _ _ =>
      if isAttrWrapper t then { cur with attrs := cur.attrs ++ [wrapperKV t] }
      else { cur with children := cur.children ++ [decView t] }

theorem isAttrWrapper_plain (n : String) (a : List (String × String))
    (c : List Node) (hn : strHasPfx n "__" = false) :
    isAttrWrapper (.elem n a c) = false := by
  unfold isAttrWrapper
  dsimp only
  rw [plain_ne_virtual n hn,
    strNe_of_pfx n "__UnregisteredAttr" "__" (by decide) hn]
  rfl

theorem contentOK_spec (tk : Tokenizer) (s : String) (h : contentOK tk s = true) :
    (∀ t ∈ tk.ct.encode s, pieceOK tk t = true) ∧
      joinStr ((tk.ct.encode s).map tk.ct.decodeOne) = s := by
  unfold contentOK at h
  simp only [Bool.and_eq_true, List.all_eq_true, beq_iff_eq] at h
  exact ⟨fun t ht => h.1 t ht, h.2⟩

theorem length_ne_zero_of_bne (s : String) (h : (s == "") = false) :
    ¬ s.length = 0 := by
  intro hlen
  have hdata : s.data = [] := List.eq_nil_of_length_eq_zero hlen
  have : s = "" := String.ext hdata
  subst this
  simp at h

theorem lastIsText_append_elem (l : List Node) (n : String)
    (a : List (String × String)) (c : List Node) :
    lastIsText (l ++ [.elem n a c]) = false := by
  unfold lastIsText
  rw [List.getLast?_concat]

theorem lastIsText_append_text (l : List Node) (s : String) :
    lastIsText (l ++ [.text s]) = true := by
  unfold lastIsText
  rw [List.getLast?_concat]

theorem appendTextChild_of_no_text (l : List Node) (s : String)
    (h : lastIsText l = false) : appendTextChild l s = l ++ [.text s] := by
  unfold appendTextChild
  unfold lastIsText at h
  rcases hlast : l.getLast? with _ | n
  · rfl
  · rcases n with ⟨nm, a, c⟩ | s2
    · rfl
    · rw [hlast] at h
      cases h

theorem afterTextOK_cons (c : Node) (cs : List Node) :
    afterTextOK (c :: cs) =
      (if isAttrWrapper c then afterTextOK cs else !(c.isText)) := by
  rw [afterTextOK.eq_def]

theorem DecNL_cons (tk : Tokenizer) (c : Node) (cs : List Node) :
    DecNL tk (c :: cs) =
      (DecN tk c && DecNL tk cs &&
        (match c with
         | .text _ => afterTextOK cs
         | _ => true)) := by
  rw [DecNL.eq_def]

theorem foldl_stepOne_spec (tk : Tokenizer) (l : List Node) :
    ∀ (nm : String) (a : List (String × String)) (c : List Node),
      DecNL tk l = true → (lastIsText c = true → afterTextOK l = true) →
      l.foldl stepOne ⟨nm, a, c⟩ = ⟨nm, a ++ decAttrs l, c ++ decKids l⟩ := by
  induction l with
  | nil =>
      intro nm a c _ _
      simp [decAttrs, decKids]
  | cons hd cs ih =>
      intro nm a c hdnl hinv
      rw [DecNL_cons] at hdnl
      simp only [Bool.and_eq_true] at hdnl
      rcases hd with ⟨n2, a2, c2⟩ | s
      · by_cases hw : isAttrWrapper (.elem n2 a2 c2) = true
        · rw [List.foldl_cons]
          rw [show stepOne ⟨nm, a, c⟩ (.elem n2 a2 c2) =
            ⟨nm, a ++ [wrapperKV (.elem n2 a2 c2)], c⟩ from by
              unfold stepOne
              rw [if_pos hw]]
          rw [ih nm _ c hdnl.1.2 (fun hl => by
            have := hinv hl
            rw [afterTextOK_cons, if_pos hw] at this
            exact this)]
          rw [show decAttrs (.elem n2 a2 c2 :: cs) =
            wrapperKV (.elem n2 a2 c2) :: decAttrs cs from by
              rw [decAttrs.eq_def]
              dsimp only
              rw [if_pos hw]]
          rw [show decKids (.elem n2 a2 c2 :: cs) = decKids cs from by
            rw [decKids.eq_def]
            dsimp only
            rw [if_pos hw]]
          simp
        · have hw' : isAttrWrapper (.elem n2 a2 c2) = false := by simpa using hw
          rw [List.foldl_cons]
          rw [show stepOne ⟨nm, a, c⟩ (.elem n2 a2 c2) =
            ⟨nm, a, c ++ [decView (.elem n2 a2 c2)]⟩ from by
              unfold stepOne
              rw [if_neg (by simp [hw'])]]
          rw [ih nm a _ hdnl.1.2 (fun hl => by
            rw [show decView (.elem n2 a2 c2) =
              .elem n2 (decAttrs c2) (decKids c2) from by rw [decView.eq_def]] at hl
            rw [lastIsText_append_elem] at hl
            cases hl)]
          rw [show decAttrs (.elem n2 a2 c2 :: cs) = decAttrs cs from by
            rw [decAttrs.eq_def]
            dsimp only
            rw [if_neg (by simp [hw'])]]
          rw [show decKids (.elem n2 a2 c2 :: cs) =
            decView (.elem n2 a2 c2) :: decKids cs from by
              rw [decKids.eq_def]
              dsimp only
              rw [if_neg (by simp [hw'])]]
          simp
      · by_cases hl : lastIsText c = true
        · have := hinv hl
          rw [afterTextOK_cons,
            if_neg (by rw [show isAttrWrapper (.text s) = false from rfl]; simp)]
            at this
          simp [Node.isText] at this
        · have hl' : lastIsText c = false := by simpa using hl
          rw [List.foldl_cons]
          rw [show stepOne ⟨nm, a, c⟩ (.text s) =
            ⟨nm, a, appendTextChild c s⟩ from rfl]
          rw [appendTextChild_of_no_text c s hl']
          rw [ih nm a _ hdnl.1.2 (fun _ => hdnl.2)]
          rw [show decAttrs (.text s :: cs) = decAttrs cs from by
            rw [decAttrs.eq_def]
            dsimp only
            rw [if_neg (by simp [isAttrWrapper])]]
          rw [show decKids (.text s :: cs) = .text s :: decKids cs from by
            rw [decKids.eq_def]
            dsimp only
            rw [if_neg (by simp [isAttrWrapper])]
            rw [show decView (.text s) = .text s from by rw [decView.eq_def]]]
          simp

end Arbor

namespace Arbor

theorem greedyValue_end (tk : Tokenizer) (tVE : Int) (rest : List Int)
    (hVE : tokStr tk tVE = TokenValueEnd) :
    greedyValue tk (tVE :: rest) "" = ("", rest) := by
  rw [greedyValue.eq_def]
  dsimp only
  rw [hVE]
  rw [if_pos (by rfl)]

set_option maxHeartbeats 1600000 in
theorem decode_vat_sim (tk : Tokenizer) (attrs ka va : List (String × String))
    (nm : String) (vs : List Node)
    (hvoc : ∀ pr ∈ tk.vocab, vinv tk.vocab pr.2 = some pr.1)
    (hdn : DecN tk (.elem VirtualAttrTag attrs
      [.elem "__Key" ka [.text nm], .elem "__Value" va vs]) = true)
    (rest : List Int) (cur : DecElem) (below : List DecElem) (cr : Option Node) :
    decodeLoop tk (encToks tk (.elem VirtualAttrTag attrs
        [.elem "__Key" ka [.text nm], .elem "__Value" va vs]) ++ rest)
      (cur :: below) cr =
      decodeLoop tk rest
        ({ cur with attrs := cur.attrs ++ [(nm, textOf vs)] } :: below) cr := by
  rw [DecN.eq_def] at hdn
  dsimp only at hdn
  rw [if_pos (by simp)] at hdn
  simp only [Bool.and_eq_true, beq_iff_eq] at hdn
  obtain ⟨⟨⟨⟨hkn, hvn⟩, hat⟩, hVEs⟩, hvs⟩ := hdn
  rcases hata : vlookup tk.vocab ("@" ++ nm) with _ | idA
  · rw [hata] at hat
    cases hat
  · rcases hVEa : vlookup tk.vocab TokenValueEnd with _ | idVE
    · rw [hVEa] at hVEs
      cases hVEs
    · have htsA : tokStr tk idA = "@" ++ nm := tokStr_of_vlookup tk _ _ hvoc hata
      have htsVE : tokStr tk idVE = TokenValueEnd := tokStr_of_vlookup tk _ _ hvoc hVEa
      rw [show encToks tk (.elem VirtualAttrTag attrs
          [.elem "__Key" ka [.text nm], .elem "__Value" va vs]) =
        idA :: (encToksList tk vs ++ [idVE]) from by
          rw [encToks.eq_def]
          dsimp only
          rw [if_pos (by simp)]
          rw [hata, hVEa]]
      match vs, hvs with
      | [], _ =>
          rw [show encToksList tk [] = [] from rfl]
          rw [List.nil_append, List.cons_append, List.cons_append, List.nil_append]
          rw [decodeLoop_step_at tk idA (idVE :: rest) cur below cr nm htsA]
          rw [greedyValue_end tk idVE rest htsVE]
          rw [show textOf ([] : List Node) = "" from rfl]
      | [.text val], hvv =>
          simp only [Bool.and_eq_true] at hvv
          have hcok := contentOK_spec tk val hvv.1
          have hvne : ¬ val.length = 0 := length_ne_zero_of_bne val (by
            simpa using hvv.2)
          rw [show encToksList tk [Node.text val] = tk.ct.encode val from by
            rw [encToksList.eq_def]
            dsimp only
            rw [encToks.eq_def]
            dsimp only
            rw [if_neg hvne]
            rw [show encToksList tk [] = [] from rfl]
            simp]
          rw [List.cons_append, List.append_assoc, List.cons_append, List.nil_append]
          rw [decodeLoop_step_at tk idA _ cur below cr nm htsA]
          rw [greedyValue_run tk (tk.ct.encode val) idVE rest "" hcok.1 htsVE]
          rw [hcok.2]
          rw [show ("" : String) ++ val = val from by apply String.ext; simp]
          rw [show textOf [Node.text val] = val from rfl]

end Arbor

namespace Arbor

theorem str_empty_of_len (s : String) (h : s.length = 0) : s = "" := by
  apply String.ext
  exact List.eq_nil_of_length_eq_zero h

theorem toks_join (tk : Tokenizer) (s : String)
    (hc : (s == "" || contentOK tk s) = true) :
    (∀ t ∈ (if s.length = 0 then ([] : List Int) else tk.ct.encode s),
      pieceOK tk t = true) ∧
    joinStr ((if s.length = 0 then ([] : List Int) else tk.ct.encode s).map
      tk.ct.decodeOne) = s := by
  by_cases h0 : s.length = 0
  · rw [if_pos h0]
    refine ⟨fun t ht => absurd ht (List.not_mem_nil t), ?_⟩
    rw [str_empty_of_len s h0]
    rfl
  · rw [if_neg h0]
    have hs : (s == "") = false := by
      rcases hb : s == "" with _ | _
      · rfl
      · exfalso
        exact h0 (by rw [show s = "" from by simpa using hb]; rfl)
    rw [hs] at hc
    simp only [Bool.false_or] at hc
    exact contentOK_spec tk s hc

set_option maxHeartbeats 1600000 in
theorem decode_unreg_sim (tk : Tokenizer) (attrs ka va : List (String × String))
    (k val : String)
    (hvoc : ∀ pr ∈ tk.vocab, vinv tk.vocab pr.2 = some pr.1)
    (hdn : DecN tk (.elem "__UnregisteredAttr" attrs
      [.elem "__Key" ka [.text k], .elem "__Value" va [.text val]]) = true)
    (rest : List Int) (cur : DecElem) (below : List DecElem) (cr : Option Node) :
    decodeLoop tk (encToks tk (.elem "__UnregisteredAttr" attrs
        [.elem "__Key" ka [.text k], .elem "__Value" va [.text val]]) ++ rest)
      (cur :: below) cr =
      decodeLoop tk rest
        ({ cur with attrs := cur.attrs ++ [(k, val)] } :: below) cr := by
  rw [DecN.eq_def] at hdn
  dsimp only at hdn
  rw [if_neg (by decide), if_pos (by decide)] at hdn
  simp only [Bool.and_eq_true, beq_iff_eq] at hdn
  obtain ⟨⟨⟨hkn, hvn⟩, hfb⟩, hkc, hvc⟩ := hdn
  rw [List.all_eq_true] at hfb
  have hUA := hfb TokenUnregisteredAttr (by simp [fallbackTokens])
  have hUAE := hfb TokenUnregisteredAttrEnd (by simp [fallbackTokens])
  have hK := hfb TokenKey (by simp [fallbackTokens])
  have hKE := hfb TokenKeyEnd (by simp [fallbackTokens])
  have hV := hfb TokenValue (by simp [fallbackTokens])
  have hVE := hfb TokenValueEnd (by simp [fallbackTokens])
  simp only [Option.isSome_iff_exists] at hUA hUAE hK hKE hV hVE
  obtain ⟨idUA, hUA⟩ := hUA
  obtain ⟨idUAE, hUAE⟩ := hUAE
  obtain ⟨idK, hK⟩ := hK
  obtain ⟨idKE, hKE⟩ := hKE
  obtain ⟨idV, hV⟩ := hV
  obtain ⟨idVE, hVE⟩ := hVE
  obtain ⟨hkp, hkj⟩ := toks_join tk k hkc
  obtain ⟨hvp, hvj⟩ := toks_join tk val hvc
  have henc : encToks tk (.elem "__UnregisteredAttr" attrs
      [.elem "__Key" ka [.text k], .elem "__Value" va [.text val]]) ++ rest =
    idUA :: (idK :: ((if k.length = 0 then ([] : List Int) else tk.ct.encode k) ++
      idKE :: idV :: ((if val.length = 0 then ([] : List Int)
        else tk.ct.encode val) ++ idVE :: idUAE :: rest))) := by
    rw [encToks.eq_def]
    dsimp only
    rw [if_neg (by decide)]
    rw [show plainTag "__UnregisteredAttr" = TokenUnregisteredAttr from by decide]
    rw [hUA]
    rw [show ("</" ++ "__UnregisteredAttr" ++ ">") = TokenUnregisteredAttrEnd
      from by decide]
    rw [hUAE]
    rw [encToksList.eq_def]
    dsimp only
    rw [encToksList.eq_def]
    dsimp only
    rw [show encToksList tk [] = [] from rfl]
    rw [encToks.eq_def]
    dsimp only
    rw [if_neg (by decide)]
    rw [show plainTag "__Key" = TokenKey from by decide]
    rw [hK]
    rw [show ("</" ++ "__Key" ++ ">") = TokenKeyEnd from by decide]
    rw [hKE]
    rw [encToks.eq_def]
    dsimp only
    rw [if_neg (by decide)]
    rw [show plainTag "__Value" = TokenValue from by decide]
    rw [hV]
    rw [show ("</" ++ "__Value" ++ ">") = TokenValueEnd from by decide]
    rw [hVE]
    rw [encToksList.eq_def]
    dsimp only
    rw [encToksList.eq_def]
    dsimp only
    rw [encToksList.eq_def]
    dsimp only
    rw [encToksList.eq_def]
    dsimp only
    rw [encToks.eq_def]
    dsimp only
    rw [encToks.eq_def]
    dsimp only
    simp
  rw [henc]
  rw [decodeLoop_step_bucket tk idUA _ cur below cr
    (tokStr_of_vlookup tk _ _ hvoc hUA)]
  rw [bucketLoop_run tk _ _ idK idKE idV idVE idUAE rest hkp hvp
    (tokStr_of_vlookup tk _ _ hvoc hK) (tokStr_of_vlookup tk _ _ hvoc hKE)
    (tokStr_of_vlookup tk _ _ hvoc hV) (tokStr_of_vlookup tk _ _ hvoc hVE)
    (tokStr_of_vlookup tk _ _ hvoc hUAE)]
  rw [hkj, hvj]

end Arbor

namespace Arbor

set_option maxHeartbeats 1600000

theorem DecN_vat_shape (tk : Tokenizer) (a : List (String × String))
    (children : List Node)
    (hdn : DecN tk (.elem VirtualAttrTag a children) = true) :
    ∃ ka nm va vs,
      children = [.elem "__Key" ka [.text nm], .elem "__Value" va vs] := by
  rw [DecN.eq_def] at hdn
  dsimp only at hdn
  rw [if_pos (by decide)] at hdn
  match children, hdn with
  | [.elem kn ka [.text nm], .elem vn va vs], hdn2 =>
    simp only [Bool.and_eq_true, beq_iff_eq] at hdn2
    obtain ⟨⟨⟨⟨hkn, hvn⟩, _⟩, _⟩, _⟩ := hdn2
    exact ⟨ka, nm, va, vs, by rw [hkn, hvn]⟩

theorem DecN_unreg_shape (tk : Tokenizer) (a : List (String × String))
    (children : List Node)
    (hdn : DecN tk (.elem "__UnregisteredAttr" a children) = true) :
    ∃ ka k va val,
      children = [.elem "__Key" ka [.text k], .elem "__Value" va [.text val]] := by
  rw [DecN.eq_def] at hdn
  dsimp only at hdn
  rw [if_neg (by decide), if_pos (by decide)] at hdn
  match children, hdn with
  | [.elem kn ka ks, .elem vn va vs], hdn2 =>
    simp only [Bool.and_eq_true, beq_iff_eq] at hdn2
    obtain ⟨⟨⟨hkn, hvn⟩, _⟩, hmatch⟩ := hdn2
    match ks, vs, hmatch with
    | [.text k], [.text val], _ =>
      exact ⟨ka, k, va, val, by rw [hkn, hvn]⟩

mutual

theorem decode_node_sim (tk : Tokenizer)
    (hvoc : ∀ pr ∈ tk.vocab, vinv tk.vocab pr.2 = some pr.1)
    (t : Node) (hdn : DecN tk t = true)
    (rest : List Int) (cur : DecElem) (below : List DecElem) (cr : Option Node) :
    decodeLoop tk (encToks tk t ++ rest) (cur :: below) cr =
      decodeLoop tk rest (stepOne cur t :: below) cr := by
  rcases t with ⟨name, a, children⟩ | s
  · by_cases h1 : name = VirtualAttrTag
    · subst h1
      obtain ⟨ka, nm, va, vs, hch⟩ := DecN_vat_shape tk a children hdn
      subst hch
      rw [decode_vat_sim tk a ka va nm vs hvoc hdn rest cur below cr]
      rw [show stepOne cur (.elem VirtualAttrTag a
          [.elem "__Key" ka [.text nm], .elem "__Value" va vs]) =
        { cur with attrs := cur.attrs ++ [(nm, textOf vs)] } from by
          unfold stepOne
          dsimp only
          rw [if_pos (show isAttrWrapper (.elem VirtualAttrTag a
            [.elem "__Key" ka [.text nm], .elem "__Value" va vs]) = true from by
              unfold isAttrWrapper
              dsimp only
              decide)]
          rfl]
    · by_cases h2 : name = "__UnregisteredAttr"
      · subst h2
        obtain ⟨ka, k, va, val, hch⟩ := DecN_unreg_shape tk a children hdn
        subst hch
        rw [decode_unreg_sim tk a ka va k val hvoc hdn rest cur below cr]
        rw [show stepOne cur (.elem "__UnregisteredAttr" a
            [.elem "__Key" ka [.text k], .elem "__Value" va [.text val]]) =
          { cur with attrs := cur.attrs ++ [(k, val)] } from by
            unfold stepOne
            dsimp only
            rw [if_pos (show isAttrWrapper (.elem "__UnregisteredAttr" a
              [.elem "__Key" ka [.text k], .elem "__Value" va [.text val]]) =
                true from by
                unfold isAttrWrapper
                dsimp only
                decide)]
            rfl]
      · rw [DecN.eq_def] at hdn
        dsimp only at hdn
        rw [if_neg (by simp only [beq_iff_eq]; exact h1),
          if_neg (by simp only [beq_iff_eq]; exact h2)] at hdn
        simp only [Bool.and_eq_true, Bool.not_eq_true'] at hdn
        obtain ⟨⟨⟨⟨hpu, hps⟩, hopen⟩, hclose⟩, hkids⟩ := hdn
        simp only [Option.isSome_iff_exists] at hopen hclose
        obtain ⟨idO, hO⟩ := hopen
        obtain ⟨idC, hC⟩ := hclose
        rw [show encToks tk (.elem name a children) =
          idO :: (encToksList tk children ++ [idC]) from by
            rw [encToks.eq_def]
            dsimp only
            rw [if_neg (by rw [plain_ne_virtual name hpu]; simp)]
            rw [plainTag_plain name hpu]
            rw [hO, hC]]
        rw [List.cons_append, List.append_assoc, List.singleton_append]
        rw [decodeLoop_step_open tk idO _ (cur :: below) cr name
          (tokStr_of_vlookup tk _ _ hvoc hO) hpu hps]
        dsimp only
        rw [decode_list_sim tk hvoc children hkids (idC :: rest)
          ⟨name, [], []⟩ (cur :: below) cr]
        rw [foldl_stepOne_spec tk children name [] [] hkids
          (fun h => absurd h (by decide))]
        rw [decodeLoop_step_close tk idC rest _ cr name
          (tokStr_of_vlookup tk _ _ hvoc hC) hpu]
        dsimp only
        rw [show stepOne cur (.elem name a children) =
          { cur with children := cur.children ++
              [.elem name (decAttrs children) (decKids children)] } from by
            unfold stepOne
            dsimp only
            rw [if_neg (by rw [isAttrWrapper_plain name a children hpu]; simp)]
            rw [show decView (.elem name a children) =
              .elem name (decAttrs children) (decKids children) from by
                rw [decView.eq_def]]]
        rw [List.nil_append, List.nil_append]
  · rw [DecN.eq_def] at hdn
    dsimp only at hdn
    simp only [Bool.and_eq_true, Bool.not_eq_true'] at hdn
    obtain ⟨hcok, hne⟩ := hdn
    have hc := contentOK_spec tk s hcok
    have hnenil : tk.ct.encode s ≠ [] := by
      intro h0
      have hse : s = "" := by rw [← hc.2, h0]; rfl
      rw [hse] at hne
      simp at hne
    rw [show encToks tk (.text s) = tk.ct.encode s from by
      rw [encToks.eq_def]
      dsimp only
      rw [if_neg (length_ne_zero_of_bne s hne)]]
    rw [decode_textRun tk (tk.ct.encode s) rest cur below cr hnenil hc.1]
    rw [hc.2]
    rfl

theorem decode_list_sim (tk : Tokenizer)
    (hvoc : ∀ pr ∈ tk.vocab, vinv tk.vocab pr.2 = some pr.1)
    (l : List Node) (hdnl : DecNL tk l = true)
    (rest : List Int) (cur : DecElem) (below : List DecElem) (cr : Option Node) :
    decodeLoop tk (encToksList tk l ++ rest) (cur :: below) cr =
      decodeLoop tk rest (l.foldl stepOne cur :: below) cr := by
  rcases l with _ | ⟨c, cs⟩
  · rw [show encToksList tk [] = [] from rfl, List.nil_append]
    rfl
  · rw [show encToksList tk (c :: cs) = encToks tk c ++ encToksList tk cs from by
      rw [encToksList.eq_def]]
    rw [List.append_assoc]
    rw [DecNL_cons] at hdnl
    simp only [Bool.and_eq_true] at hdnl
    obtain ⟨⟨hc, hcs⟩, _⟩ := hdnl
    rw [decode_node_sim tk hvoc c hc (encToksList tk cs ++ rest) cur below cr]
    rw [decode_list_sim tk hvoc cs hcs rest (stepOne cur c) below cr]
    rw [List.foldl_cons]

end

set_option maxHeartbeats 200000

end Arbor

namespace Arbor

set_option maxHeartbeats 1600000 in
theorem DecodeXML_run (tk : Tokenizer)
    (hvoc : ∀ pr ∈ tk.vocab, vinv tk.vocab pr.2 = some pr.1)
    (name : String) (a : List (String × String)) (children : List Node)
    (hpu : strHasPfx name "__" = false)
    (hdn : DecN tk (.elem name a children) = true) :
    DecodeXML tk (encToks tk (.elem name a children)) =
      .ok (some (decView (.elem name a children))) := by
  rw [DecN.eq_def] at hdn
  dsimp only at hdn
  rw [if_neg (by rw [plain_ne_virtual name hpu]; simp),
    if_neg (by
      rw [strNe_of_pfx name "__UnregisteredAttr" "__" (by decide) hpu]
      simp)] at hdn
  simp only [Bool.and_eq_true, Bool.not_eq_true'] at hdn
  obtain ⟨⟨⟨⟨_, hps⟩, hopen⟩, hclose⟩, hkids⟩ := hdn
  simp only [Option.isSome_iff_exists] at hopen hclose
  obtain ⟨idO, hO⟩ := hopen
  obtain ⟨idC, hC⟩ := hclose
  rw [show encToks tk (.elem name a children) =
    idO :: (encToksList tk children ++ [idC]) from by
      rw [encToks.eq_def]
      dsimp only
      rw [if_neg (by rw [plain_ne_virtual name hpu]; simp)]
      rw [plainTag_plain name hpu]
      rw [hO, hC]]
  unfold DecodeXML
  rw [if_neg (by simp)]
  rw [decodeLoop_step_open tk idO _ [] none name
    (tokStr_of_vlookup tk _ _ hvoc hO) hpu hps]
  dsimp only
  rw [show (encToksList tk children ++ [idC] : List Int) =
    encToksList tk children ++ idC :: [] from rfl]
  rw [decode_list_sim tk hvoc children hkids [idC] ⟨name, [], []⟩ [] none]
  rw [foldl_stepOne_spec tk children name [] [] hkids
    (fun h => absurd h (by decide))]
  rw [decodeLoop_step_close tk idC [] _ none name
    (tokStr_of_vlookup tk _ _ hvoc hC) hpu]
  dsimp only
  rw [decodeLoop.eq_def]
  dsimp only
  rw [show collapseStack [] (some (.elem name ([] ++ decAttrs children)
      ([] ++ decKids children))) =
    some (.elem name ([] ++ decAttrs children) ([] ++ decKids children)) from by
      rw [collapseStack.eq_def]]
  rw [show decView (.elem name a children) =
    .elem name (decAttrs children) (decKids children) from by rw [decView.eq_def]]
  rw [List.nil_append, List.nil_append]

theorem Tokenize_tokens (tk : Tokenizer) (doc : List Node) (root : Node)
    (res : TokenizationResult)
    (hpl : plainNamesList doc = true)
    (htr : transformDoc tk.vocab doc = .ok (some root))
    (h : Tokenize tk doc = .ok res) :
    res.tokens = encToks tk root := by
  unfold Tokenize at h
  rw [TokenizePairs_eq tk doc root hpl htr] at h
  rcases he : encNode tk.vocab tk.ct [] 0 false root with e | r
  · rw [he] at h
    cases h
  · rw [he] at h
    dsimp only at h
    rcases hg : getPaddedPaths (r.1.map (fun p => p.2)) 0 (-1) with _ | m
    · rw [hg] at h
      cases h
    · rw [hg] at h
      simp only [GoOutcome.ok.injEq] at h
      rw [← h]
      exact encToks_spec tk.vocab tk.ct [] 0 false root r he

end Arbor

namespace Arbor

mutual

/-- The spec's notion of document equality: equal tag names, equal
attribute name/value multisets ignoring the `arbor-ordered` control
attribute, and recursively equivalent children in order. -/
def Eqv : Node → Node → Bool
  | .text s1, .text s2 => s1 == s2
  | .elem n1 a1 c1, .elem n2 a2 c2 =>
      n1 == n2 &&
        @List.isPerm (String × String) instBEqOfDecidableEq
          (a1.filter (fun x => x.1 ≠ ArborOrderedAttribute))
          (a2.filter (fun x => x.1 ≠ ArborOrderedAttribute)) &&
        EqvList c1 c2
  | _, _ => false

/-- Pointwise `Eqv` over sibling lists of equal length. -/
def EqvList : List Node → List Node → Bool
  | [], [] => true
  | c1 :: cs1, c2 :: cs2 => Eqv c1 c2 && EqvList cs1 cs2
  | _, _ => false

end

mutual

/-- A document with no insignificant whitespace: every text fragment is
already trimmed and nonempty, so the transformer keeps it verbatim. -/
def tidy : Node → Bool
  | .text s => (goTrim s == s) && !(s == "")
  | .elem _ _ cs => tidyList cs

/-- Pointwise `tidy` over a sibling list. -/
def tidyList : List Node → Bool
  | [] => true
  | c :: cs => tidy c && tidyList cs

end

theorem decAttrs_nil : decAttrs [] = [] := by
  rw [decAttrs.eq_def]

theorem decKids_nil : decKids [] = [] := by
  rw [decKids.eq_def]

theorem decAttrs_cons (c : Node) (cs : List Node) :
    decAttrs (c :: cs) =
      if isAttrWrapper c then wrapperKV c :: decAttrs cs else decAttrs cs := by
  rw [decAttrs.eq_def]

theorem decKids_cons (c : Node) (cs : List Node) :
    decKids (c :: cs) =
      if isAttrWrapper c then decKids cs else decView c :: decKids cs := by
  rw [decKids.eq_def]

theorem decAttrs_append (xs ys : List Node) :
    decAttrs (xs ++ ys) = decAttrs xs ++ decAttrs ys := by
  induction xs with
  | nil => rw [List.nil_append, decAttrs_nil, List.nil_append]
  | cons c cs ih =>
      rw [List.cons_append, decAttrs_cons, decAttrs_cons]
      by_cases hw : isAttrWrapper c = true
      · rw [if_pos hw, if_pos hw, ih, List.cons_append]
      · rw [if_neg hw, if_neg hw, ih]

theorem decKids_append (xs ys : List Node) :
    decKids (xs ++ ys) = decKids xs ++ decKids ys := by
  induction xs with
  | nil => rw [List.nil_append, decKids_nil, List.nil_append]
  | cons c cs ih =>
      rw [List.cons_append, decKids_cons, decKids_cons]
      by_cases hw : isAttrWrapper c = true
      · rw [if_pos hw, if_pos hw, ih]
      · rw [if_neg hw, if_neg hw, ih, List.cons_append]

theorem processAttributeToElement_wrapper (v : Vocab) (attr : String × String)
    (n : Node) (h : processAttributeToElement v attr = .ok n) :
    isAttrWrapper n = true ∧ wrapperKV n = attr := by
  obtain ⟨a1, a2⟩ := attr
  unfold processAttributeToElement at h
  dsimp only at h
  by_cases hr : (vlookup v ("@" ++ a1)).isSome = true
  · rw [if_pos hr] at h
    simp only [Except.ok.injEq] at h
    subst h
    refine ⟨by unfold isAttrWrapper; dsimp only; decide, ?_⟩
    unfold wrapperKV
    dsimp only
    by_cases h1 : a2 = "" ∧ (vlookup v TokenEmpty).isSome
    · rw [if_pos h1]
      rw [show textOf [Node.elem "__Empty" [] []] = "" from rfl]
      rw [show textOf [Node.text a1] = a1 from rfl]
      rw [h1.1]
    · rw [if_neg h1]
      by_cases h2 : a2 ≠ ""
      · rw [if_pos h2]
        rfl
      · rw [if_neg h2]
        rw [show textOf [Node.text a1] = a1 from rfl,
          show textOf ([] : List Node) = "" from rfl]
        rw [show a2 = "" from by simpa using h2]
  · rw [if_neg hr] at h
    by_cases hm : fallbackTokens.filter (fun t => (vlookup v t).isNone) ≠ []
    · rw [if_pos hm] at h
      cases h
    · rw [if_neg hm] at h
      simp only [Except.ok.injEq] at h
      subst h
      exact ⟨by unfold isAttrWrapper; dsimp only; decide, rfl⟩

theorem attrsToChildren_dec (v : Vocab) (l : List (String × String)) :
    ∀ ns, attrsToChildren v l = .ok ns →
      decAttrs ns = l ∧ decKids ns = [] := by
  induction l with
  | nil =>
      intro ns h
      unfold attrsToChildren at h
      simp only [Except.ok.injEq] at h
      subst h
      exact ⟨decAttrs_nil, decKids_nil⟩
  | cons a rest ih =>
      intro ns h
      unfold attrsToChildren at h
      rcases hp : processAttributeToElement v a with e | x
      · rw [hp] at h
        cases h
      · rw [hp] at h
        dsimp only at h
        rcases hr : attrsToChildren v rest with e | ns2
        · rw [hr] at h
          cases h
        · rw [hr] at h
          simp only [Except.ok.injEq] at h
          subst h
          obtain ⟨hw, hkv⟩ := processAttributeToElement_wrapper v a x hp
          obtain ⟨ih1, ih2⟩ := ih ns2 hr
          rw [decAttrs_cons, decKids_cons, if_pos hw, if_pos hw, hkv, ih1, ih2]
          exact ⟨rfl, rfl⟩

end Arbor

namespace Arbor

theorem decView_text (s : String) : decView (.text s) = .text s := by
  rw [decView.eq_def]

theorem decView_elem (n : String) (a : List (String × String)) (c : List Node) :
    decView (.elem n a c) = .elem n (decAttrs c) (decKids c) := by
  rw [decView.eq_def]

theorem Eqv_text (s1 s2 : String) : Eqv (.text s1) (.text s2) = (s1 == s2) := by
  rw [Eqv.eq_def]

theorem Eqv_elem (n1 n2 : String) (a1 a2 : List (String × String))
    (c1 c2 : List Node) :
    Eqv (.elem n1 a1 c1) (.elem n2 a2 c2) =
      (n1 == n2 &&
        @List.isPerm (String × String) instBEqOfDecidableEq
          (a1.filter (fun x => x.1 ≠ ArborOrderedAttribute))
          (a2.filter (fun x => x.1 ≠ ArborOrderedAttribute)) &&
        EqvList c1 c2) := by
  rw [Eqv.eq_def]

theorem EqvList_nil : EqvList [] [] = true := by
  rw [EqvList.eq_def]

theorem EqvList_cons (c1 c2 : Node) (cs1 cs2 : List Node) :
    EqvList (c1 :: cs1) (c2 :: cs2) = (Eqv c1 c2 && EqvList cs1 cs2) := by
  rw [EqvList.eq_def]

theorem tidy_text (s : String) :
    tidy (.text s) = ((goTrim s == s) && !(s == "")) := by
  rw [tidy.eq_def]

theorem tidy_elem (n : String) (a : List (String × String)) (cs : List Node) :
    tidy (.elem n a cs) = tidyList cs := by
  rw [tidy.eq_def]

theorem tidyList_cons (c : Node) (cs : List Node) :
    tidyList (c :: cs) = (tidy c && tidyList cs) := by
  rw [tidyList.eq_def]

mutual

theorem eqv_transfer (v : Vocab) (orig t : Node)
    (hsh : ∃ n a c, orig = .elem n a c ∧ transformElem v n a c = .ok t)
    (hpl : plainNames orig = true)
    (htd : tidy orig = true) :
    Eqv orig (decView t) = true := by
  rcases orig with ⟨n, a, c⟩ | s
  · obtain ⟨n', a', c', heq, hte⟩ := hsh
    simp only [Node.elem.injEq] at heq
    obtain ⟨rfl, rfl, rfl⟩ := heq
    rw [plainNames.eq_def] at hpl
    dsimp only at hpl
    simp only [Bool.and_eq_true, Bool.not_eq_true'] at hpl
    obtain ⟨hpu, hplc⟩ := hpl
    rw [tidy_elem] at htd
    obtain ⟨ns, r, hns, hr, heq⟩ := transformElem_components v n a c t hte
    subst heq
    obtain ⟨hda, hdk⟩ := attrsToChildren_dec v _ ns hns
    obtain ⟨hra, hlist⟩ := eqv_transfer_list v c r hplc htd hr
    rw [decView_elem]
    rw [Eqv_elem]
    rw [decAttrs_append, decKids_append, hda, hdk, hra]
    rw [List.append_nil, List.nil_append]
    rw [hlist]
    simp only [beq_self_eq_true, Bool.true_and, Bool.and_true]
    rw [List.filter_filter]
    simp only [Bool.and_self]
    exact List.isPerm_iff.mpr (((List.mergeSort_perm a _).filter _).symm)
  · obtain ⟨n', a', c', heq, _⟩ := hsh
    cases heq

theorem eqv_transfer_list (v : Vocab) (cs rs : List Node)
    (hpl : plainNamesList cs = true) (htd : tidyList cs = true)
    (h : transformChildren v cs = .ok rs) :
    decAttrs rs = [] ∧ EqvList cs (decKids rs) = true := by
  rcases cs with _ | ⟨hd, rest⟩
  · rw [transformChildren.eq_def] at h
    dsimp only at h
    simp only [Except.ok.injEq] at h
    subst h
    rw [decAttrs_nil, decKids_nil]
    exact ⟨rfl, EqvList_nil⟩
  · rcases hd with ⟨n2, a2, c2⟩ | s
    · rw [transformChildren.eq_def] at h
      dsimp only at h
      rcases hte : transformElem v n2 a2 c2 with e | t2
      · rw [hte] at h
        cases h
      · rw [hte] at h
        dsimp only at h
        rcases htc : transformChildren v rest with e | r2
        · rw [htc] at h
          cases h
        · rw [htc] at h
          simp only [Except.ok.injEq] at h
          subst h
          rw [plainNamesList.eq_def] at hpl
          dsimp only at hpl
          simp only [Bool.and_eq_true] at hpl
          obtain ⟨hple, hplr⟩ := hpl
          have hpu2 : strHasPfx n2 "__" = false := by
            rw [plainNames.eq_def] at hple
            dsimp only at hple
            simp only [Bool.and_eq_true, Bool.not_eq_true'] at hple
            exact hple.1
          rw [tidyList_cons, Bool.and_eq_true] at htd
          obtain ⟨htde, htdr⟩ := htd
          obtain ⟨hra, hlist⟩ := eqv_transfer_list v rest r2 hplr htdr htc
          obtain ⟨a3, c3, heq⟩ := transformElem_shape v n2 a2 c2 t2 hte
          have hw : isAttrWrapper t2 = false := by
            rw [heq]
            exact isAttrWrapper_plain n2 a3 c3 hpu2
          rw [decAttrs_cons, decKids_cons, if_neg (by rw [hw]; simp),
            if_neg (by rw [hw]; simp)]
          refine ⟨hra, ?_⟩
          rw [EqvList_cons]
          rw [eqv_transfer v (.elem n2 a2 c2) t2 ⟨n2, a2, c2, rfl, hte⟩ hple htde]
          rw [hlist]
          rfl
    · rw [transformChildren.eq_def] at h
      dsimp only at h
      rcases htc : transformChildren v rest with e | r2
      · rw [htc] at h
        cases h
      · rw [htc] at h
        dsimp only at h
        rw [plainNamesList.eq_def] at hpl
        dsimp only at hpl
        simp only [Bool.and_eq_true] at hpl
        rw [tidyList_cons, Bool.and_eq_true, tidy_text] at htd
        obtain ⟨htds, htdr⟩ := htd
        simp only [Bool.and_eq_true, Bool.not_eq_true', beq_iff_eq] at htds
        obtain ⟨hgts, hsne⟩ := htds
        rw [hgts] at h
        rw [if_neg (show ¬ s = "" from by
          intro h0
          rw [h0] at hsne
          simp at hsne)] at h
        simp only [Except.ok.injEq] at h
        subst h
        obtain ⟨hra, hlist⟩ :=
          eqv_transfer_list v rest r2 hpl.2 htdr htc
        rw [decAttrs_cons, decKids_cons,
          if_neg (show ¬ isAttrWrapper (.text s) = true from by
            rw [show isAttrWrapper (.text s) = false from rfl]
            simp),
          if_neg (show ¬ isAttrWrapper (.text s) = true from by
            rw [show isAttrWrapper (.text s) = false from rfl]
            simp)]
        refine ⟨hra, ?_⟩
        rw [decView_text, EqvList_cons, Eqv_text, hlist]
        simp

end

end Arbor

namespace Arbor

end Arbor

namespace Arbor

end Arbor

namespace Arbor

/-- C2 (confirmed on the formalized supported corpus): for a
single-rooted document with plain (non-reserved) element names, no
insignificant whitespace (`tidy`), an invertible vocabulary, and a
transformed tree in the decoder-supported corpus `DecN` (all tags and
attribute/fallback tokens in vocabulary, content strings that round-trip
through the content tokenizer, no text merging across siblings),
`DecodeXML` on the token stream `Tokenize` produces rebuilds exactly the
decoded view of the transformed root, and that tree is `Eqv`-equal to
the original document: same tag names, the same attribute name/value
multiset ignoring the `arbor-ordered` control attribute, and the same
children recursively. -/
theorem C2_roundtrip (tk : Tokenizer) (n : String) (a : List (String × String))
    (c : List Node) (root : Node) (res : TokenizationResult)
    (hvoc : ∀ pr ∈ tk.vocab, vinv tk.vocab pr.2 = some pr.1)
    (hpl : plainNames (.elem n a c) = true)
    (htidy : tidy (.elem n a c) = true)
    (htr : transformDoc tk.vocab [.elem n a c] = .ok (some root))
    (hdn : DecN tk root = true)
    (htok : Tokenize tk [.elem n a c] = .ok res) :
    DecodeXML tk res.tokens = .ok (some (decView root)) ∧
      Eqv (.elem n a c) (decView root) = true := by
  have hpll : plainNamesList [.elem n a c] = true := by
    rw [plainNamesList.eq_def]
    dsimp only
    rw [hpl]
    rfl
  have hte := transformDoc_singleton tk.vocab n a c root htr
  obtain ⟨a2, c2, hsh⟩ := transformElem_shape tk.vocab n a c root hte
  have hpu : strHasPfx n "__" = false := by
    have hx := hpl
    rw [plainNames.eq_def] at hx
    dsimp only at hx
    simp only [Bool.and_eq_true, Bool.not_eq_true'] at hx
    exact hx.1
  have htoks := Tokenize_tokens tk [.elem n a c] root res hpll htr htok
  rw [htoks]
  constructor
  · rw [hsh]
    exact DecodeXML_run tk hvoc n a2 c2 hpu (hsh ▸ hdn)
  · exact eqv_transfer tk.vocab (.elem n a c) root ⟨n, a, c, rfl, hte⟩ hpl htidy

end Arbor

namespace Arbor

theorem C2_roundtrip_witness :
    DecodeXML ⟨wV, wCt⟩
        (({ tokens := [100501, 100505, 7, 100506, 7, 100503, 100504, 100502],
            paddedPaths := [[0, -1, -1], [0, 0, -1], [0, 0, 0], [0, 0, -1],
              [0, 1, -1], [0, 2, -1], [0, 2, -1], [0, -1, -1]] } :
          TokenizationResult).tokens) =
      .ok (some (decView (.elem "Root" []
        [.elem VirtualAttrTag []
          [.elem "__Key" [] [.text "id"], .elem "__Value" [] [.text "x"]],
         .text "x", .elem "A" [] []]))) ∧
    Eqv (.elem "Root" [("id", "x")] [.text "x", .elem "A" [] []])
      (decView (.elem "Root" []
        [.elem VirtualAttrTag []
          [.elem "__Key" [] [.text "id"], .elem "__Value" [] [.text "x"]],
         .text "x", .elem "A" [] []])) = true :=
  C2_roundtrip ⟨wV, wCt⟩ "Root" [("id", "x")] [.text "x", .elem "A" [] []]
    (.elem "Root" []
      [.elem VirtualAttrTag []
        [.elem "__Key" [] [.text "id"], .elem "__Value" [] [.text "x"]],
       .text "x", .elem "A" [] []])
    { tokens := [100501, 100505, 7, 100506, 7, 100503, 100504, 100502],
      paddedPaths := [[0, -1, -1], [0, 0, -1], [0, 0, 0], [0, 0, -1],
        [0, 1, -1], [0, 2, -1], [0, 2, -1], [0, -1, -1]] }
    (by decide)
    (by simp +decide [plainNames, plainNamesList, strHasPfx])
    (by simp +decide [tidy, tidyList, goTrim])
    (by simp [transformDoc, transformElem, transformChildren, attrsToChildren,
      processAttributeToElement, wV, vlookup, List.mergeSort, ArborOrderedAttribute,
      goTrim, TokenEmpty, VirtualAttrTag])
    (by simp +decide [DecN, DecNL, afterTextOK, contentOK, pieceOK, joinStr,
      isAttrWrapper, Node.isText, wV, wCt, vlookup, vinv, strHasPfx,
      VirtualAttrTag, TokenValueEnd])
    (by simp +decide [Tokenize, TokenizePairs, transformDoc, transformElem,
      transformChildren, attrsToChildren, processAttributeToElement, wV, vlookup,
      List.mergeSort, ArborOrderedAttribute, goTrim, TokenEmpty, Node.events,
      Node.eventsList, encodeLoop, encOpen, extractRegisteredAttrName, plainTag,
      plainOrdered, plainIsAttr, getCurrentPath, strHasPfx, VirtualAttrTag,
      TokenValue, TokenValueEnd, TokenUnregisteredAttr, wCt, getPaddedPaths])

end Arbor
